import Mathlib

/-!
Shallow embedding of the libstatic fixed-capacity sequence containers
(`sstd::vector`, `sstd::deque`) and the iterator/algorithm/memory primitives
they are built on (src/inc/static/vector.h, deque.h, algorithm.h, iterator.h,
memory.h), together with proofs of the specification claims about them.

Modelling conventions:
* Raw storage is a `List (Option α)`: `none` models an unconstructed slot,
  `some v` a live (placement-constructed) object holding `v`.
* `size_t` is 64 bits (`WORD = 2 ^ 64`); subtraction that can underflow is
  modelled by `sizetSub`, faithful to unsigned wraparound.
* Iterators are positions (`Nat`): a raw pointer is its index, a
  `reverse_iterator` is the index of its base, a `deque_iterator` is its
  logical offset `pos_`.  All four iterator flavours share the loop bodies of
  the source templates through the `IterOps` record, mirroring how the C++
  templates are instantiated once per iterator type.
* The C++ `for (; first != last; ...)` loops terminate only for well-formed
  iterator ranges; the embedding makes them total with a fuel argument that is
  always sufficient for the in-range calls the containers make (fuel is
  `buffer length + 1`, an upper bound on the hop count of every such range).
* `value_type()` (value-initialization, used by growing `resize`) is modelled
  by `default` from an `Inhabited` instance; for built-in element types this
  is zero-initialization, e.g. `Int` with `default = 0`.
* `N = 0` capacities are not modelled: `aligned_storage` rejects `size == 0`
  at compile time (type_traits.h), so `vector<T,0>` / `deque<T,0>` do not
  instantiate.
-/

namespace SStd

/-- One slot of raw aligned storage: `none` is unconstructed memory, `some v`
holds a live object. -/
abbrev Buf (α : Type) : Type := List (Option α)

/-- The operations a container iterator exposes to the generic algorithms:
advance, retreat, jump (operator+), dereference-read and dereference-write on
a buffer.  Position equality is `Nat` equality for every flavour (pointer
equality, `reverse_iterator::base` equality, `deque_iterator::pos_`
equality). -/
structure IterOps (α : Type) where
  inc : Nat → Nat
  dec : Nat → Nat
  add : Nat → Nat → Nat
  get : Buf α → Nat → Option α
  set : Buf α → Nat → Option α → Buf α

/-- Raw pointer iterator (`vector<T>::iterator`): the position is the index. -/
def ptrOps (α : Type) : IterOps α where
  inc := fun p => p + 1
  dec := fun p => p - 1
  add := fun p n => p + n
  get := fun b p => b.getD p none
  set := fun b p v => b.set p v

/-- Reverse pointer iterator (`sstd::reverse_iterator<T*>`): the position is
the base index; `*it` reads one slot before the base. -/
def revPtrOps (α : Type) : IterOps α where
  inc := fun p => p - 1
  dec := fun p => p + 1
  add := fun p n => p - n
  get := fun b p => b.getD (p - 1) none
  set := fun b p v => b.set (p - 1) v

/-- Logical-to-physical index map of the circular buffer
(deque.h, `deque<T>::index_at`). -/
def index_at (head capacity pos : Nat) : Nat :=
  let rollover := capacity - head
  if pos < rollover then head + pos else pos - rollover

/-- Physical index advance with wraparound (deque.h,
`deque<T>::increment_index`). -/
def increment_index (capacity index : Nat) : Nat :=
  let index := index + 1
  if index < capacity then index else 0

/-- Physical index retreat with wraparound (deque.h,
`deque<T>::decrement_index`). -/
def decrement_index (capacity index : Nat) : Nat :=
  if index ≠ 0 then index - 1 else capacity - 1

/-- Deque iterator (`deque_iterator<T>`): the position is the logical offset
`pos_`; dereference goes through `index_at`. -/
def deqOps (head capacity : Nat) (α : Type) : IterOps α where
  inc := fun p => p + 1
  dec := fun p => p - 1
  add := fun p n => p + n
  get := fun b p => b.getD (index_at head capacity p) none
  set := fun b p v => b.set (index_at head capacity p) v

/-- Reverse deque iterator (`sstd::reverse_iterator<deque_iterator<T>>`):
the position is the base's logical offset. -/
def revDeqOps (head capacity : Nat) (α : Type) : IterOps α where
  inc := fun p => p - 1
  dec := fun p => p + 1
  add := fun p n => p - n
  get := fun b p => b.getD (index_at head capacity (p - 1)) none
  set := fun b p v => b.set (index_at head capacity (p - 1)) v

/-! Generic algorithms (algorithm.h), one definition per template, shared by
all iterator flavours through `IterOps`. -/

/-- Algorithm.h `iter_swap` (via `swap`): `tmp = *a; *a = *b; *b = tmp`. -/
def iter_swap (ops : IterOps α) (buf : Buf α) (a b : Nat) : Buf α :=
  let tmp := ops.get buf a
  ops.set (ops.set buf a (ops.get buf b)) b tmp

/-- Algorithm.h `reverse` loop:
`for (; first != last && first != --last; ++first) iter_swap(first, last)`. -/
def reverseLoop (ops : IterOps α) : Nat → Buf α → Nat → Nat → Buf α
  | 0, buf, _, _ => buf
  | fuel + 1, buf, first, last =>
    if first = last then buf
    else
      let last := ops.dec last
      if first = last then buf
      else reverseLoop ops fuel (iter_swap ops buf first last) (ops.inc first) last

/-- Algorithm.h `reverse`; the fuel bound covers every range the containers
pass (at most `buf.length` hops between `first` and `last`). -/
def reverse (ops : IterOps α) (buf : Buf α) (first last : Nat) : Buf α :=
  reverseLoop ops (buf.length + 1) buf first last

/-- Iterator.h `distance` loop: count forward hops from `first` to `last`. -/
def distanceLoop (ops : IterOps α) : Nat → Nat → Nat → Nat
  | 0, _, _ => 0
  | fuel + 1, first, last =>
    if first = last then 0 else distanceLoop ops fuel (ops.inc first) last + 1

/-- Iterator.h `distance`; the buffer is consulted only for the fuel bound. -/
def distance (ops : IterOps α) (buf : Buf α) (first last : Nat) : Nat :=
  distanceLoop ops (buf.length + 1) first last

/-- Algorithm.h `rotate`: three reversals, then return
`first + distance(n_first, last)`. -/
def rotate (ops : IterOps α) (buf : Buf α) (first n_first last : Nat) :
    Buf α × Nat :=
  if first = n_first then (buf, last)
  else if n_first = last then (buf, first)
  else
    let buf := reverse ops buf first n_first
    let buf := reverse ops buf n_first last
    let buf := reverse ops buf first last
    (buf, ops.add first (distance ops buf n_first last))

/-- Algorithm.h `fill_n`: `for (; len; --len, ++first) *first = val`. -/
def fill_n (ops : IterOps α) (buf : Buf α) (first : Nat) :
    Nat → α → Buf α
  | 0, _ => buf
  | len + 1, val => fill_n ops (ops.set buf first (some val)) (ops.inc first) len val

/-- Algorithm.h `copy_n` from an external source range (modelled as the list
of values the source iterator walks):
`for (; len; --len, ++first, ++dest) *dest = *first`.  Walking the source past
its end is caller UB in the source and unreachable in the modelled calls. -/
def copy_n (ops : IterOps α) (buf : Buf α) (src : List α) (len : Nat)
    (dest : Nat) : Buf α :=
  match len, src with
  | 0, _ => buf
  | _ + 1, [] => buf
  | len + 1, v :: rest =>
    copy_n ops (ops.set buf dest (some v)) rest len (ops.inc dest)

/-- Algorithm.h `equal` over two container ranges: element-wise `==` of
`[first1, last1)` against the range starting at `first2`.  Comparing an
unconstructed slot is UB in the source; the model answers `false` there,
unreachable on valid states. -/
def equalLoop [BEq α] (ops1 ops2 : IterOps α) :
    Nat → Buf α → Buf α → Nat → Nat → Nat → Bool
  | 0, _, _, _, _, _ => true
  | fuel + 1, b1, b2, first1, last1, first2 =>
    if first1 = last1 then true
    else
      match ops1.get b1 first1, ops2.get b2 first2 with
      | some x, some y =>
        if x == y then
          equalLoop ops1 ops2 fuel b1 b2 (ops1.inc first1) last1 (ops2.inc first2)
        else false
      | _, _ => false

/-- Algorithm.h `equal` with the standard fuel bound. -/
def equal [BEq α] (ops1 ops2 : IterOps α) (b1 b2 : Buf α)
    (first1 last1 first2 : Nat) : Bool :=
  equalLoop ops1 ops2 (b1.length + 1) b1 b2 first1 last1 first2

/-! Lifetime-management primitives (memory.h).  Placement construction of `v`
in a slot is modelled by writing `some v`; destruction by writing `none`. -/

/-- Memory.h `uninitialized_fill_n`: placement-construct `count` copies. -/
def uninitialized_fill_n (ops : IterOps α) (buf : Buf α) (first : Nat) :
    Nat → α → Buf α
  | 0, _ => buf
  | count + 1, val =>
    uninitialized_fill_n ops (ops.set buf first (some val)) (ops.inc first) count val

/-- Memory.h `uninitialized_copy_n`: placement-construct copies of `count`
source elements. -/
def uninitialized_copy_n (ops : IterOps α) (buf : Buf α) (src : List α)
    (count : Nat) (d_first : Nat) : Buf α :=
  match count, src with
  | 0, _ => buf
  | _ + 1, [] => buf
  | count + 1, v :: rest =>
    uninitialized_copy_n ops (ops.set buf d_first (some v)) rest count
      (ops.inc d_first)

/-- Memory.h `uninitialized_value_construct` loop over `[first, last)`. -/
def uvcLoop [Inhabited α] (ops : IterOps α) : Nat → Buf α → Nat → Nat → Buf α
  | 0, buf, _, _ => buf
  | fuel + 1, buf, first, last =>
    if first = last then buf
    else uvcLoop ops fuel (ops.set buf first (some default)) (ops.inc first) last

/-- Memory.h `uninitialized_value_construct`. -/
def uninitialized_value_construct [Inhabited α] (ops : IterOps α)
    (buf : Buf α) (first last : Nat) : Buf α :=
  uvcLoop ops (buf.length + 1) buf first last

/-- Memory.h `uninitialized_fill` loop over `[first, last)`. -/
def ufillLoop (ops : IterOps α) : Nat → Buf α → Nat → Nat → α → Buf α
  | 0, buf, _, _, _ => buf
  | fuel + 1, buf, first, last, val =>
    if first = last then buf
    else ufillLoop ops fuel (ops.set buf first (some val)) (ops.inc first) last val

/-- Memory.h `uninitialized_fill`. -/
def uninitialized_fill (ops : IterOps α) (buf : Buf α) (first last : Nat)
    (val : α) : Buf α :=
  ufillLoop ops (buf.length + 1) buf first last val

/-- Memory.h `destroy` loop: `for (; first != last; ++first) destroy_at`. -/
def destroyLoop (ops : IterOps α) : Nat → Buf α → Nat → Nat → Buf α
  | 0, buf, _, _ => buf
  | fuel + 1, buf, first, last =>
    if first = last then buf
    else destroyLoop ops fuel (ops.set buf first none) (ops.inc first) last

/-- Memory.h `destroy` over `[first, last)`. -/
def destroy (ops : IterOps α) (buf : Buf α) (first last : Nat) : Buf α :=
  destroyLoop ops (buf.length + 1) buf first last

/-- Size of `size_t` on the modelled LP64 platform. -/
def WORD : Nat := 2 ^ 64

/-- Unsigned `size_t` subtraction `a - b` with wraparound (both operands below
`WORD`). -/
def sizetSub (a b : Nat) : Nat := (a + (WORD - b % WORD)) % WORD

/-! The capacity-erased vector base (vector.h, `vector<T>`).  Iterators into a
vector are raw pointers, modelled by their index into the storage. -/

/-- State of a `vector<T>`: backing storage, current size, fixed capacity. -/
structure VecState (α : Type) where
  data : Buf α
  size : Nat
  capacity : Nat
  deriving DecidableEq

namespace Vec

variable {α : Type}

/-- Vector.h `operator[]`: unchecked slot read `data_[pos]`. -/
def index (v : VecState α) (pos : Nat) : Option α := v.data.getD pos none

/-- Vector.h `at`: `data_[pos % capacity_]`. -/
def at' (v : VecState α) (pos : Nat) : Option α :=
  v.data.getD (pos % v.capacity) none

/-- Vector.h `resize(count)`: shrink destroys `[count, size)`, grow clamps to
capacity and value-constructs `[size, count)`. -/
def resize [Inhabited α] (v : VecState α) (count : Nat) : VecState α :=
  if count ≤ v.size then
    { v with data := destroy (ptrOps α) v.data count v.size, size := count }
  else
    let count := min count v.capacity
    { v with
      data := uninitialized_value_construct (ptrOps α) v.data v.size count
      size := count }

/-- Vector.h `resize(count, value)`: grow copy-initializes from `value`. -/
def resizeVal [Inhabited α] (v : VecState α) (count : Nat) (value : α) :
    VecState α :=
  if count ≤ v.size then
    { v with data := destroy (ptrOps α) v.data count v.size, size := count }
  else
    let count := min count v.capacity
    { v with
      data := uninitialized_fill (ptrOps α) v.data v.size count value
      size := count }

/-- Vector.h `clear`: `resize(0)`. -/
def clear [Inhabited α] (v : VecState α) : VecState α := resize v 0

/-- Vector.h `push_back`: if not full, placement-construct at `end()`. -/
def push_back (v : VecState α) (value : α) : VecState α :=
  if v.size < v.capacity then
    { v with
      data := uninitialized_fill_n (ptrOps α) v.data v.size 1 value
      size := v.size + 1 }
  else v

/-- Vector.h `pop_back`: `resize(size_ - 1)` with unsigned subtraction (no
empty check; on `size_ == 0` the argument wraps to `SIZE_MAX`). -/
def pop_back [Inhabited α] (v : VecState α) : VecState α :=
  resize v (sizetSub v.size 1)

/-- Vector.h single-element `insert(pos, val)`; `pos` is the iterator's index.
Returns the new state and the returned iterator. -/
def insert1 [Inhabited α] (v : VecState α) (pos : Nat) (val : α) :
    VecState α × Nat :=
  if v.size < v.capacity then
    let v1 := resize v (v.size + 1)
    let d := distance (ptrOps α) v1.data 0 pos
    let buf := (rotate (revPtrOps α) v1.data v1.size (v1.size - 1) d).1
    let buf := (ptrOps α).set buf pos (some val)
    ({ v1 with data := buf }, pos)
  else (v, pos)

/-- Vector.h `insert(pos, count, val)`: clamp `count` to the free capacity,
grow, rotate the reverse view, then `fill_n` at `pos`. -/
def insertN [Inhabited α] (v : VecState α) (pos count : Nat) (val : α) :
    VecState α × Nat :=
  if v.size < v.capacity then
    let count := min count (v.capacity - v.size)
    let v1 := resize v (v.size + count)
    let d := distance (ptrOps α) v1.data 0 pos
    let buf := (rotate (revPtrOps α) v1.data v1.size (v1.size - count) d).1
    let buf := fill_n (ptrOps α) buf pos count val
    ({ v1 with data := buf }, pos)
  else (v, pos)

/-- Vector.h range `insert(pos, first, last)` (non-integral dispatch): clamp
the source length to the free capacity, grow, rotate, then `copy_n`. -/
def insertRange [Inhabited α] (v : VecState α) (pos : Nat) (src : List α) :
    VecState α × Nat :=
  if v.size < v.capacity then
    let count := min src.length (v.capacity - v.size)
    let v1 := resize v (v.size + count)
    let d := distance (ptrOps α) v1.data 0 pos
    let buf := (rotate (revPtrOps α) v1.data v1.size (v1.size - count) d).1
    let buf := copy_n (ptrOps α) buf src count pos
    ({ v1 with data := buf }, pos)
  else (v, pos)

/-- Vector.h `erase(pos)`: `rotate(it, it + 1, end()); resize(size_ - 1)`. -/
def erase1 [Inhabited α] (v : VecState α) (pos : Nat) : VecState α × Nat :=
  let buf := (rotate (ptrOps α) v.data pos (pos + 1) v.size).1
  let v1 := resize { v with data := buf } (sizetSub v.size 1)
  (v1, pos)

/-- Vector.h `erase(first, last)`: rotate the range to the end, then shrink by
`distance(first, last)`. -/
def eraseRange [Inhabited α] (v : VecState α) (first last : Nat) :
    VecState α × Nat :=
  let buf := (rotate (ptrOps α) v.data first last v.size).1
  let d := distance (ptrOps α) buf first last
  let v1 := resize { v with data := buf } (sizetSub v.size d)
  (v1, first)

/-- Vector.h `assign(count, val)`: `resize(count); fill_n(begin, size_, val)`. -/
def assignN [Inhabited α] (v : VecState α) (count : Nat) (val : α) :
    VecState α :=
  let v1 := resize v count
  { v1 with data := fill_n (ptrOps α) v1.data 0 v1.size val }

/-- Vector.h range `assign` (non-integral dispatch):
`resize(distance(first, last)); copy_n(first, size_, begin())`. -/
def assignRange [Inhabited α] (v : VecState α) (src : List α) : VecState α :=
  let v1 := resize v src.length
  { v1 with data := copy_n (ptrOps α) v1.data src v1.size 0 }

/-- Vector.h default constructor of `vector<T, N>`: empty, all storage raw. -/
def new (α : Type) (N : Nat) : VecState α :=
  { data := List.replicate N none, size := 0, capacity := N }

/-- Vector.h range constructor of `vector<T, N>` (non-integral dispatch):
`size_ = min(distance(first, last), N)` then `uninitialized_copy_n`. -/
def fromRange (src : List α) (N : Nat) : VecState α :=
  let size := min src.length N
  { data := uninitialized_copy_n (ptrOps α) (List.replicate N none) src size 0
    size := size
    capacity := N }

/-- Vector.h `operator==` on the capacity-erased base:
`lhs.size() == rhs.size() && equal(lhs.cbegin(), lhs.cend(), rhs.cbegin())`. -/
def beq [BEq α] (lhs rhs : VecState α) : Bool :=
  lhs.size == rhs.size &&
    equal (ptrOps α) (ptrOps α) lhs.data rhs.data 0 lhs.size 0

/-- Vector.h `operator!=`: `!(lhs == rhs)`. -/
def bne [BEq α] (lhs rhs : VecState α) : Bool := !(beq lhs rhs)

/-- Observable content of a vector: the slots of the live region `[0, size)`
in iteration order. -/
def toList (v : VecState α) : Buf α := v.data.take v.size

/-- Representation invariant of a vector: the storage has exactly `capacity`
slots, `capacity` fits in `size_t`, `size ≤ capacity`, and a slot is live
exactly when it lies in `[0, size)`. -/
def Inv (v : VecState α) : Prop :=
  v.data.length = v.capacity ∧ v.capacity < WORD ∧ v.size ≤ v.capacity ∧
    ∀ i < v.capacity, ((v.data.getD i none).isSome ↔ i < v.size)

instance (v : VecState α) : Decidable (Inv v) := by
  unfold Inv; infer_instance

end Vec

/-! The capacity-erased deque base (deque.h, `deque<T>`).  Iterators are
`deque_iterator`s carrying a logical offset `pos_`; logical offset 0 is the
current front. -/

/-- State of a `deque<T>`: circular storage, size, head and tail physical
indices, fixed capacity. -/
structure DeqState (α : Type) where
  data : Buf α
  size : Nat
  head : Nat
  tail : Nat
  capacity : Nat
  deriving DecidableEq

namespace Deq

variable {α : Type}

/-- Deque.h `operator[]`: `data_[index_at(pos)]`. -/
def index (d : DeqState α) (pos : Nat) : Option α :=
  d.data.getD (index_at d.head d.capacity pos) none

/-- Deque.h `at`: `data_[index_at(pos % capacity_)]`. -/
def at' (d : DeqState α) (pos : Nat) : Option α :=
  d.data.getD (index_at d.head d.capacity (pos % d.capacity)) none

/-- Deque.h `push_back`: advance `tail` with wraparound and
placement-construct there. -/
def push_back (d : DeqState α) (value : α) : DeqState α :=
  if d.size < d.capacity then
    let tail := increment_index d.capacity d.tail
    { d with
      size := d.size + 1
      tail := tail
      data := d.data.set tail (some value) }
  else d

/-- Deque.h `pop_back`: guarded by `if (size_)`; destroy at `tail`, retreat. -/
def pop_back (d : DeqState α) : DeqState α :=
  if d.size ≠ 0 then
    { d with
      data := d.data.set d.tail none
      tail := decrement_index d.capacity d.tail
      size := d.size - 1 }
  else d

/-- Deque.h `push_front`: retreat `head` with wraparound and
placement-construct there. -/
def push_front (d : DeqState α) (value : α) : DeqState α :=
  if d.size < d.capacity then
    let head := decrement_index d.capacity d.head
    { d with
      size := d.size + 1
      head := head
      data := d.data.set head (some value) }
  else d

/-- Deque.h `pop_front`: guarded by `if (size_)`; destroy at `head`, advance. -/
def pop_front (d : DeqState α) : DeqState α :=
  if d.size ≠ 0 then
    { d with
      data := d.data.set d.head none
      head := increment_index d.capacity d.head
      size := d.size - 1 }
  else d

/-- Deque.h `resize` first loop: `while (count < size_) pop_back()`. -/
def shrinkLoop : Nat → DeqState α → Nat → DeqState α
  | 0, d, _ => d
  | fuel + 1, d, count =>
    if count < d.size then shrinkLoop fuel (pop_back d) count else d

/-- Deque.h `resize` second loop: `while (count > size_) push_back(v)`.  In
the source this loop does not terminate when `count > capacity_` (push_back
no-ops when full); such calls are excluded wherever this model is used. -/
def growLoop : Nat → DeqState α → Nat → α → DeqState α
  | 0, d, _, _ => d
  | fuel + 1, d, count, v =>
    if count > d.size then growLoop fuel (push_back d v) count v else d

/-- Deque.h `resize(count)`: pop from the back, then push value-initialized
elements. -/
def resize [Inhabited α] (d : DeqState α) (count : Nat) : DeqState α :=
  growLoop (d.capacity + count + 1) (shrinkLoop (d.size + 1) d count) count
    default

/-- Deque.h `resize(count, value)`. -/
def resizeVal (d : DeqState α) (count : Nat) (value : α) : DeqState α :=
  growLoop (d.capacity + count + 1) (shrinkLoop (d.size + 1) d count) count
    value

/-- Deque.h `clear`: `resize(0)`. -/
def clear [Inhabited α] (d : DeqState α) : DeqState α := resize d 0

/-- Deque.h single-element `insert(pos, val)`; `pos` is the iterator's
logical offset `pos_`. -/
def insert1 [Inhabited α] (d : DeqState α) (pos : Nat) (val : α) :
    DeqState α × Nat :=
  if d.size < d.capacity then
    let d1 := resize d (d.size + 1)
    let dd := distance (deqOps d1.head d1.capacity α) d1.data 0 pos
    let buf :=
      (rotate (revDeqOps d1.head d1.capacity α) d1.data d1.size (d1.size - 1)
        dd).1
    let buf := (deqOps d1.head d1.capacity α).set buf pos (some val)
    ({ d1 with data := buf }, pos)
  else (d, pos)

/-- Deque.h `insert(pos, count, val)`. -/
def insertN [Inhabited α] (d : DeqState α) (pos count : Nat) (val : α) :
    DeqState α × Nat :=
  if d.size < d.capacity then
    let count := min count (d.capacity - d.size)
    let d1 := resize d (d.size + count)
    let dd := distance (deqOps d1.head d1.capacity α) d1.data 0 pos
    let buf :=
      (rotate (revDeqOps d1.head d1.capacity α) d1.data d1.size
        (d1.size - count) dd).1
    let buf := fill_n (deqOps d1.head d1.capacity α) buf pos count val
    ({ d1 with data := buf }, pos)
  else (d, pos)

/-- Deque.h range `insert(pos, first, last)` (non-integral dispatch). -/
def insertRange [Inhabited α] (d : DeqState α) (pos : Nat) (src : List α) :
    DeqState α × Nat :=
  if d.size < d.capacity then
    let count := min src.length (d.capacity - d.size)
    let d1 := resize d (d.size + count)
    let dd := distance (deqOps d1.head d1.capacity α) d1.data 0 pos
    let buf :=
      (rotate (revDeqOps d1.head d1.capacity α) d1.data d1.size
        (d1.size - count) dd).1
    let buf := copy_n (deqOps d1.head d1.capacity α) buf src count pos
    ({ d1 with data := buf }, pos)
  else (d, pos)

/-- Deque.h `erase(pos)`: `rotate(it, it + 1, end()); resize(size_ - 1)`. -/
def erase1 [Inhabited α] (d : DeqState α) (pos : Nat) : DeqState α × Nat :=
  let buf := (rotate (deqOps d.head d.capacity α) d.data pos (pos + 1) d.size).1
  let d1 := resize { d with data := buf } (sizetSub d.size 1)
  (d1, pos)

/-- Deque.h `erase(first, last)`. -/
def eraseRange [Inhabited α] (d : DeqState α) (first last : Nat) :
    DeqState α × Nat :=
  let buf := (rotate (deqOps d.head d.capacity α) d.data first last d.size).1
  let dd := distance (deqOps d.head d.capacity α) buf first last
  let d1 := resize { d with data := buf } (sizetSub d.size dd)
  (d1, first)

/-- Deque.h `assign(count, val)`: `resize(count); fill_n(begin, size_, val)`. -/
def assignN [Inhabited α] (d : DeqState α) (count : Nat) (val : α) :
    DeqState α :=
  let d1 := resize d count
  { d1 with data := fill_n (deqOps d1.head d1.capacity α) d1.data 0 d1.size val }

/-- Deque.h range `assign` (non-integral dispatch):
`resize(min(distance(first, last), capacity_)); copy_n(first, size_, begin())`. -/
def assignRange [Inhabited α] (d : DeqState α) (src : List α) : DeqState α :=
  let d1 := resize d (min src.length d.capacity)
  { d1 with data := copy_n (deqOps d1.head d1.capacity α) d1.data src d1.size 0 }

/-- Deque.h default constructor of `deque<T, N>`:
`size_ = 0, head_ = 0, tail_ = capacity - 1`, raw storage. -/
def new (α : Type) (N : Nat) : DeqState α :=
  { data := List.replicate N none, size := 0, head := 0, tail := N - 1
    capacity := N }

/-- Deque.h range constructor of `deque<T, N>` (non-integral dispatch):
`size_ = min(distance, N)`, `tail_ = size_ - 1` when nonempty, then
`uninitialized_copy_n` through `begin()`. -/
def fromRange (src : List α) (N : Nat) : DeqState α :=
  let size := min src.length N
  let tail := if size ≠ 0 then size - 1 else N - 1
  { data := uninitialized_copy_n (deqOps 0 N α) (List.replicate N none) src
      size 0
    size := size
    head := 0
    tail := tail
    capacity := N }

/-- Deque.h `operator==` on the capacity-erased base. -/
def beq [BEq α] (lhs rhs : DeqState α) : Bool :=
  lhs.size == rhs.size &&
    equal (deqOps lhs.head lhs.capacity α) (deqOps rhs.head rhs.capacity α)
      lhs.data rhs.data 0 lhs.size 0

/-- Deque.h `operator!=`: `!(lhs == rhs)`. -/
def bne [BEq α] (lhs rhs : DeqState α) : Bool := !(beq lhs rhs)

/-- The storage read through `index_at` in logical order: slot `i` of the view
is the physical slot holding logical element `i`. -/
def logicalView (head capacity : Nat) (buf : Buf α) : Buf α :=
  (List.range capacity).map fun i => buf.getD (index_at head capacity i) none

/-- Observable content of a deque: logical slots `[0, size)` in iteration
order. -/
def toList (d : DeqState α) : Buf α :=
  (logicalView d.head d.capacity d.data).take d.size

/-- Representation invariant of a deque: `capacity` slots of storage, nonzero
capacity fitting `size_t`, `size ≤ capacity`, `head`/`tail` physical indices
in range, `tail + 1 ≡ head + size (mod capacity)`, and a logical slot is live
exactly when it lies in `[0, size)`. -/
def Inv (d : DeqState α) : Prop :=
  d.data.length = d.capacity ∧ d.capacity < WORD ∧ 0 < d.capacity ∧
    d.size ≤ d.capacity ∧ d.head < d.capacity ∧ d.tail < d.capacity ∧
    (d.tail + 1) % d.capacity = (d.head + d.size) % d.capacity ∧
    ∀ i < d.capacity,
      (((logicalView d.head d.capacity d.data).getD i none).isSome ↔
        i < d.size)

instance (d : DeqState α) : Decidable (Inv d) := by
  unfold Inv; infer_instance

end Deq

/-! Remaining definitions: proof-layer helpers and the mutating-operation
state machines used by the invariant claims. -/

variable {α : Type}

/-- Any of the four iterator flavours writes through `List.set`. -/
def SetPreservesLength (ops : IterOps α) : Prop :=
  ∀ (b : Buf α) (p : Nat) (v : Option α), (ops.set b p v).length = b.length

/-- Canonical vector state with content `L` padded with raw slots up to the
capacity.  Under the representation invariant every vector is of this shape. -/
def Vec.canon (L : Buf α) (cap : Nat) : VecState α :=
  { data := L ++ List.replicate (cap - L.length) none
    size := L.length
    capacity := cap }

/-- One mutating call on a vector, with its arguments; iterator arguments are
given by their index. -/
inductive VecOp (α : Type) where
  | push_back (v : α)
  | pop_back
  | insert1 (pos : Nat) (v : α)
  | insertN (pos count : Nat) (v : α)
  | insertRange (pos : Nat) (src : List α)
  | erase1 (pos : Nat)
  | eraseRange (first last : Nat)
  | resize (count : Nat)
  | resizeVal (count : Nat) (v : α)
  | assignN (count : Nat) (v : α)
  | assignRange (src : List α)
  | clear

/-- Effect of one mutating call on a vector state. -/
def VecOp.apply [Inhabited α] (s : VecState α) : VecOp α → VecState α
  | push_back v => Vec.push_back s v
  | pop_back => Vec.pop_back s
  | insert1 pos v => (Vec.insert1 s pos v).1
  | insertN pos count v => (Vec.insertN s pos count v).1
  | insertRange pos src => (Vec.insertRange s pos src).1
  | erase1 pos => (Vec.erase1 s pos).1
  | eraseRange f l => (Vec.eraseRange s f l).1
  | resize c => Vec.resize s c
  | resizeVal c v => Vec.resizeVal s c v
  | assignN c v => Vec.assignN s c v
  | assignRange src => Vec.assignRange s src
  | clear => Vec.clear s

/-- Well-formedness of one call: iterator arguments must point into the
container (dereferencing or erasing outside the live range is caller UB in the
source), and count arguments are `size_t` values. -/
def VecOp.valid (s : VecState α) : VecOp α → Prop
  | insert1 pos _ => pos ≤ s.size
  | insertN pos _ _ => pos ≤ s.size
  | insertRange pos src => pos ≤ s.size ∧ src.length < WORD
  | erase1 pos => pos < s.size
  | eraseRange f l => f ≤ l ∧ l ≤ s.size
  | resize c => c < WORD
  | resizeVal c _ => c < WORD
  | assignN c _ => c < WORD
  | assignRange src => src.length < WORD
  | _ => True

/-- States reachable from a freshly constructed `vector<T, N>` by well-formed
mutating calls. -/
inductive VecReach (α : Type) [Inhabited α] (N : Nat) : VecState α → Prop where
  | init : VecReach α N (Vec.new α N)
  | step (s : VecState α) (op : VecOp α) : VecReach α N s → op.valid s →
      VecReach α N (op.apply s)

/-- One mutating call on a deque. -/
inductive DeqOp (α : Type) where
  | push_back (v : α)
  | push_front (v : α)
  | pop_back
  | pop_front
  | insert1 (pos : Nat) (v : α)
  | insertN (pos count : Nat) (v : α)
  | insertRange (pos : Nat) (src : List α)
  | erase1 (pos : Nat)
  | eraseRange (first last : Nat)
  | resize (count : Nat)
  | resizeVal (count : Nat) (v : α)
  | assignN (count : Nat) (v : α)
  | assignRange (src : List α)
  | clear

/-- Effect of one mutating call on a deque state. -/
def DeqOp.apply [Inhabited α] (s : DeqState α) : DeqOp α → DeqState α
  | push_back v => Deq.push_back s v
  | push_front v => Deq.push_front s v
  | pop_back => Deq.pop_back s
  | pop_front => Deq.pop_front s
  | insert1 pos v => (Deq.insert1 s pos v).1
  | insertN pos count v => (Deq.insertN s pos count v).1
  | insertRange pos src => (Deq.insertRange s pos src).1
  | erase1 pos => (Deq.erase1 s pos).1
  | eraseRange f l => (Deq.eraseRange s f l).1
  | resize c => Deq.resize s c
  | resizeVal c v => Deq.resizeVal s c v
  | assignN c v => Deq.assignN s c v
  | assignRange src => Deq.assignRange s src
  | clear => Deq.clear s

/-- Well-formedness of one deque call.  In addition to iterator validity,
`resize`/`assign` counts must not exceed the capacity: deque.h `resize` loops
`while (count > size_) push_back(...)`, which never terminates when the
requested count exceeds the fixed capacity. -/
def DeqOp.valid (s : DeqState α) : DeqOp α → Prop
  | insert1 pos _ => pos ≤ s.size
  | insertN pos _ _ => pos ≤ s.size
  | insertRange pos _ => pos ≤ s.size
  | erase1 pos => pos < s.size
  | eraseRange f l => f ≤ l ∧ l ≤ s.size
  | resize c => c ≤ s.capacity
  | resizeVal c _ => c ≤ s.capacity
  | assignN c _ => c ≤ s.capacity
  | _ => True

/-- States reachable from a freshly constructed `deque<T, N>` by well-formed
mutating calls. -/
inductive DeqReach (α : Type) [Inhabited α] (N : Nat) : DeqState α → Prop where
  | init : DeqReach α N (Deq.new α N)
  | step (s : DeqState α) (op : DeqOp α) : DeqReach α N s → op.valid s →
      DeqReach α N (op.apply s)

/-! Theorems. -/

@[simp] theorem ptrOps_inc (p : Nat) : (ptrOps α).inc p = p + 1 := rfl

@[simp] theorem ptrOps_dec (p : Nat) : (ptrOps α).dec p = p - 1 := rfl

@[simp] theorem ptrOps_add (p n : Nat) : (ptrOps α).add p n = p + n := rfl

@[simp] theorem ptrOps_get (b : Buf α) (p : Nat) :
    (ptrOps α).get b p = b.getD p none := rfl

@[simp] theorem ptrOps_set (b : Buf α) (p : Nat) (v : Option α) :
    (ptrOps α).set b p v = b.set p v := rfl

@[simp] theorem revPtrOps_inc (p : Nat) : (revPtrOps α).inc p = p - 1 := rfl

@[simp] theorem revPtrOps_dec (p : Nat) : (revPtrOps α).dec p = p + 1 := rfl

@[simp] theorem revPtrOps_add (p n : Nat) : (revPtrOps α).add p n = p - n := rfl

@[simp] theorem revPtrOps_get (b : Buf α) (p : Nat) :
    (revPtrOps α).get b p = b.getD (p - 1) none := rfl

@[simp] theorem revPtrOps_set (b : Buf α) (p : Nat) (v : Option α) :
    (revPtrOps α).set b p v = b.set (p - 1) v := rfl

@[simp] theorem deqOps_inc (h c p : Nat) : (deqOps h c α).inc p = p + 1 := rfl

@[simp] theorem deqOps_dec (h c p : Nat) : (deqOps h c α).dec p = p - 1 := rfl

@[simp] theorem deqOps_add (h c p n : Nat) : (deqOps h c α).add p n = p + n :=
  rfl

@[simp] theorem deqOps_get (h c : Nat) (b : Buf α) (p : Nat) :
    (deqOps h c α).get b p = b.getD (index_at h c p) none := rfl

@[simp] theorem deqOps_set (h c : Nat) (b : Buf α) (p : Nat) (v : Option α) :
    (deqOps h c α).set b p v = b.set (index_at h c p) v := rfl

@[simp] theorem revDeqOps_inc (h c p : Nat) : (revDeqOps h c α).inc p = p - 1 :=
  rfl

@[simp] theorem revDeqOps_dec (h c p : Nat) : (revDeqOps h c α).dec p = p + 1 :=
  rfl

@[simp] theorem revDeqOps_add (h c p n : Nat) :
    (revDeqOps h c α).add p n = p - n := rfl

@[simp] theorem revDeqOps_get (h c : Nat) (b : Buf α) (p : Nat) :
    (revDeqOps h c α).get b p = b.getD (index_at h c (p - 1)) none := rfl

@[simp] theorem revDeqOps_set (h c : Nat) (b : Buf α) (p : Nat) (v : Option α) :
    (revDeqOps h c α).set b p v = b.set (index_at h c (p - 1)) v := rfl

/-! Length preservation: every loop writes through `List.set`, so the buffer
length never changes. -/

theorem ptrOps_spl : SetPreservesLength (ptrOps α) := by
  intro b p v; simp

theorem revPtrOps_spl : SetPreservesLength (revPtrOps α) := by
  intro b p v; simp

theorem deqOps_spl (h c : Nat) : SetPreservesLength (deqOps h c α) := by
  intro b p v; simp

theorem revDeqOps_spl (h c : Nat) : SetPreservesLength (revDeqOps h c α) := by
  intro b p v; simp

theorem iter_swap_length {ops : IterOps α} (hs : SetPreservesLength ops)
    (b : Buf α) (a c : Nat) : (iter_swap ops b a c).length = b.length := by
  unfold iter_swap; rw [hs, hs]

theorem reverseLoop_length {ops : IterOps α} (hs : SetPreservesLength ops)
    (fuel : Nat) (b : Buf α) (f t : Nat) :
    (reverseLoop ops fuel b f t).length = b.length := by
  induction fuel generalizing b f t with
  | zero => rfl
  | succ fuel ih =>
    rw [reverseLoop]
    by_cases h1 : f = t
    · rw [if_pos h1]
    · rw [if_neg h1]
      dsimp only
      by_cases h2 : f = ops.dec t
      · rw [if_pos h2]
      · rw [if_neg h2, ih, iter_swap_length hs]

theorem reverse_length {ops : IterOps α} (hs : SetPreservesLength ops)
    (b : Buf α) (f t : Nat) : (reverse ops b f t).length = b.length :=
  reverseLoop_length hs _ b f t

theorem fill_n_length {ops : IterOps α} (hs : SetPreservesLength ops)
    (b : Buf α) (p n : Nat) (v : α) : (fill_n ops b p n v).length = b.length := by
  induction n generalizing b p with
  | zero => rfl
  | succ n ih => rw [fill_n, ih, hs]

theorem copy_n_length {ops : IterOps α} (hs : SetPreservesLength ops)
    (b : Buf α) (src : List α) (n p : Nat) :
    (copy_n ops b src n p).length = b.length := by
  induction n generalizing b src p with
  | zero => rw [copy_n]
  | succ n ih =>
    match src with
    | [] => rw [copy_n]
    | v :: rest => rw [copy_n, ih, hs]

theorem uvcLoop_length [Inhabited α] {ops : IterOps α}
    (hs : SetPreservesLength ops) (fuel : Nat) (b : Buf α) (f t : Nat) :
    (uvcLoop ops fuel b f t).length = b.length := by
  induction fuel generalizing b f with
  | zero => rfl
  | succ fuel ih =>
    rw [uvcLoop]
    split
    · rfl
    · rw [ih, hs]

theorem ufillLoop_length {ops : IterOps α} (hs : SetPreservesLength ops)
    (fuel : Nat) (b : Buf α) (f t : Nat) (v : α) :
    (ufillLoop ops fuel b f t v).length = b.length := by
  induction fuel generalizing b f with
  | zero => rfl
  | succ fuel ih =>
    rw [ufillLoop]
    split
    · rfl
    · rw [ih, hs]

theorem destroyLoop_length {ops : IterOps α} (hs : SetPreservesLength ops)
    (fuel : Nat) (b : Buf α) (f t : Nat) :
    (destroyLoop ops fuel b f t).length = b.length := by
  induction fuel generalizing b f with
  | zero => rfl
  | succ fuel ih =>
    rw [destroyLoop]
    split
    · rfl
    · rw [ih, hs]

theorem uninitialized_fill_n_eq_fill_n (ops : IterOps α) (b : Buf α)
    (p n : Nat) (v : α) : uninitialized_fill_n ops b p n v = fill_n ops b p n v := by
  induction n generalizing b p with
  | zero => rfl
  | succ n ih => rw [uninitialized_fill_n, fill_n, ih]

theorem uninitialized_copy_n_eq_copy_n (ops : IterOps α) (b : Buf α)
    (src : List α) (n p : Nat) :
    uninitialized_copy_n ops b src n p = copy_n ops b src n p := by
  induction n generalizing b src p with
  | zero => rw [uninitialized_copy_n, copy_n]
  | succ n ih =>
    match src with
    | [] => rw [uninitialized_copy_n, copy_n]
    | v :: rest => rw [uninitialized_copy_n, copy_n, ih]

/-! Pointwise characterization of the pointer-iterator loops. -/

theorem iter_swap_ptr_getElem (l : Buf α) (a b i : Nat) (ha : a < l.length)
    (hb : b < l.length) :
    (iter_swap (ptrOps α) l a b)[i]? =
      if i = b then l[a]? else if i = a then l[b]? else l[i]? := by
  have hga : l[a]? = some (l.getD a none) := by
    rw [List.getD_eq_getElem?_getD, List.getElem?_eq_getElem ha]
    rfl
  have hgb : l[b]? = some (l.getD b none) := by
    rw [List.getD_eq_getElem?_getD, List.getElem?_eq_getElem hb]
    rfl
  unfold iter_swap
  simp only [ptrOps_get, ptrOps_set]
  rw [List.getElem?_set]
  by_cases hbi : b = i
  · rw [if_pos hbi, if_pos (by rw [List.length_set]; omega), if_pos hbi.symm]
    exact hga.symm
  · rw [if_neg hbi, if_neg (fun h => hbi h.symm), List.getElem?_set]
    by_cases hai : a = i
    · rw [if_pos hai, if_pos (by omega), if_pos hai.symm]
      exact hgb.symm
    · rw [if_neg hai, if_neg (fun h => hai h.symm)]

theorem reverseLoop_ptr_getElem (fuel : Nat) (l : Buf α) (f t : Nat)
    (hft : f ≤ t) (ht : t ≤ l.length) (hfuel : t - f ≤ 2 * fuel) (i : Nat) :
    (reverseLoop (ptrOps α) fuel l f t)[i]? =
      if f ≤ i ∧ i < t then l[f + t - 1 - i]? else l[i]? := by
  induction fuel generalizing l f t with
  | zero =>
    have htf : t = f := by omega
    subst htf
    rw [reverseLoop, if_neg (by omega)]
  | succ fuel ih =>
    rw [reverseLoop]
    by_cases h1 : f = t
    · rw [if_pos h1]
      subst h1
      rw [if_neg (by omega)]
    · rw [if_neg h1]
      simp only [ptrOps_dec, ptrOps_inc]
      by_cases h2 : f = t - 1
      · rw [if_pos h2]
        by_cases hi : f ≤ i ∧ i < t
        · have hif : i = f := by omega
          have hidx : f + t - 1 - i = i := by omega
          rw [if_pos hi, hidx]
        · rw [if_neg hi]
      · rw [if_neg h2]
        have h3 : f + 2 ≤ t := by omega
        rw [ih (iter_swap (ptrOps α) l f (t - 1)) (f + 1) (t - 1) (by omega)
          (by rw [iter_swap_length ptrOps_spl]; omega) (by omega)]
        have hswap := fun j =>
          iter_swap_ptr_getElem l f (t - 1) j (by omega) (by omega)
        by_cases hi : f + 1 ≤ i ∧ i < t - 1
        · rw [if_pos hi, if_pos (by omega), hswap]
          have hj1 : f + 1 + (t - 1) - 1 - i ≠ t - 1 := by omega
          have hj2 : f + 1 + (t - 1) - 1 - i ≠ f := by omega
          rw [if_neg hj1, if_neg hj2]
          have : f + 1 + (t - 1) - 1 - i = f + t - 1 - i := by omega
          rw [this]
        · rw [if_neg hi, hswap]
          by_cases hif : i = f
          · rw [if_neg (by omega), if_pos hif, if_pos (by omega)]
            have : f + t - 1 - i = t - 1 := by omega
            rw [this]
          · by_cases hit : i = t - 1
            · rw [if_pos hit, if_pos (by omega)]
              have : f + t - 1 - i = f := by omega
              rw [this]
            · rw [if_neg hit, if_neg hif, if_neg (by omega)]

/-- Swapping through reverse pointers is swapping the slots before the two
bases. -/
theorem iter_swap_revPtr_eq (l : Buf α) (a b : Nat) :
    iter_swap (revPtrOps α) l a b = iter_swap (ptrOps α) l (a - 1) (b - 1) :=
  rfl

theorem reverseLoop_revPtr_getElem (fuel : Nat) (l : Buf α) (bf bt : Nat)
    (hle : bt ≤ bf) (hbf : bf ≤ l.length) (hfuel : bf - bt ≤ 2 * fuel)
    (i : Nat) :
    (reverseLoop (revPtrOps α) fuel l bf bt)[i]? =
      if bt ≤ i ∧ i < bf then l[bt + bf - 1 - i]? else l[i]? := by
  induction fuel generalizing l bf bt with
  | zero =>
    have : bf = bt := by omega
    subst this
    rw [reverseLoop, if_neg (by omega)]
  | succ fuel ih =>
    rw [reverseLoop]
    by_cases h1 : bf = bt
    · rw [if_pos h1]
      subst h1
      rw [if_neg (by omega)]
    · rw [if_neg h1]
      simp only [revPtrOps_dec, revPtrOps_inc]
      by_cases h2 : bf = bt + 1
      · rw [if_pos h2]
        by_cases hi : bt ≤ i ∧ i < bf
        · have hif : i = bt := by omega
          have hidx : bt + bf - 1 - i = i := by omega
          rw [if_pos hi, hidx]
        · rw [if_neg hi]
      · rw [if_neg h2]
        have h3 : bt + 2 ≤ bf := by omega
        rw [iter_swap_revPtr_eq]
        have hbt1 : bt + 1 - 1 = bt := by omega
        rw [hbt1]
        rw [ih (iter_swap (ptrOps α) l (bf - 1) bt) (bf - 1) (bt + 1) (by omega)
          (by rw [iter_swap_length ptrOps_spl]; omega) (by omega)]
        have hswap := fun j =>
          iter_swap_ptr_getElem l (bf - 1) bt j (by omega) (by omega)
        by_cases hi : bt + 1 ≤ i ∧ i < bf - 1
        · rw [if_pos hi, if_pos (by omega), hswap]
          have hj1 : bt + 1 + (bf - 1) - 1 - i ≠ bt := by omega
          have hj2 : bt + 1 + (bf - 1) - 1 - i ≠ bf - 1 := by omega
          rw [if_neg hj1, if_neg hj2]
          have : bt + 1 + (bf - 1) - 1 - i = bt + bf - 1 - i := by omega
          rw [this]
        · rw [if_neg hi, hswap]
          by_cases hif : i = bt
          · rw [if_pos hif, if_pos (by omega)]
            have : bt + bf - 1 - i = bf - 1 := by omega
            rw [this]
          · by_cases hit : i = bf - 1
            · rw [if_neg hif, if_pos hit, if_pos (by omega)]
              have : bt + bf - 1 - i = bt := by omega
              rw [this]
            · rw [if_neg hif, if_neg hit, if_neg (by omega)]

/-- Iterator.h `distance` walks `+1` hops (pointer and deque iterators). -/
theorem distanceLoop_of_inc_succ {ops : IterOps α}
    (hinc : ∀ p, ops.inc p = p + 1) (fuel f t : Nat) (hle : f ≤ t)
    (hfuel : t - f < fuel) : distanceLoop ops fuel f t = t - f := by
  induction fuel generalizing f with
  | zero => omega
  | succ fuel ih =>
    rw [distanceLoop]
    by_cases h : f = t
    · rw [if_pos h]
      omega
    · rw [if_neg h, hinc, ih (f + 1) (by omega) (by omega)]
      omega

/-- Iterator.h `distance` walks `-1` hops through reverse iterators. -/
theorem distanceLoop_of_inc_pred {ops : IterOps α}
    (hinc : ∀ p, ops.inc p = p - 1) (fuel f t : Nat) (hle : t ≤ f)
    (hfuel : f - t < fuel) : distanceLoop ops fuel f t = f - t := by
  induction fuel generalizing f with
  | zero => omega
  | succ fuel ih =>
    rw [distanceLoop]
    by_cases h : f = t
    · rw [if_pos h]
      omega
    · rw [if_neg h, hinc, ih (f - 1) (by omega) (by omega)]
      omega

/-! Pointwise characterization of the pointer-flavour write loops. -/

theorem fill_n_ptr_getElem (l : Buf α) (p n : Nat) (v : α) (i : Nat)
    (hn : p + n ≤ l.length) :
    (fill_n (ptrOps α) l p n v)[i]? =
      if p ≤ i ∧ i < p + n then some (some v) else l[i]? := by
  induction n generalizing l p with
  | zero =>
    rw [fill_n, if_neg (by omega)]
  | succ n ih =>
    rw [fill_n]
    simp only [ptrOps_set, ptrOps_inc]
    rw [ih (l.set p (some v)) (p + 1) (by rw [List.length_set]; omega)]
    rw [List.getElem?_set]
    by_cases hi : p + 1 ≤ i ∧ i < p + 1 + n
    · rw [if_pos hi, if_pos (by omega)]
    · rw [if_neg hi]
      by_cases hip : p = i
      · rw [if_pos hip, if_pos (by omega), if_pos (by omega)]
      · rw [if_neg hip, if_neg (by omega)]

theorem copy_n_ptr_getElem (l : Buf α) (src : List α) (n p : Nat) (i : Nat)
    (hn : p + n ≤ l.length) (hsrc : n ≤ src.length) :
    (copy_n (ptrOps α) l src n p)[i]? =
      if p ≤ i ∧ i < p + n then (src[i - p]?).map some else l[i]? := by
  induction n generalizing l src p with
  | zero =>
    rw [copy_n, if_neg (by omega)]
  | succ n ih =>
    match src with
    | v :: rest =>
      rw [copy_n]
      simp only [ptrOps_set, ptrOps_inc]
      rw [ih (l.set p (some v)) rest (p + 1) (by rw [List.length_set]; omega)
        (by simpa using hsrc)]
      rw [List.getElem?_set]
      by_cases hi : p + 1 ≤ i ∧ i < p + 1 + n
      · rw [if_pos hi, if_pos (by omega)]
        have : i - p = (i - (p + 1)) + 1 := by omega
        rw [this, List.getElem?_cons_succ]
      · rw [if_neg hi]
        by_cases hip : p = i
        · rw [if_pos hip, if_pos (by omega), if_pos (by omega)]
          have : i - p = 0 := by omega
          rw [this, List.getElem?_cons_zero]
          rfl
        · rw [if_neg hip, if_neg (by omega)]

theorem uvcLoop_ptr_getElem [Inhabited α] (fuel : Nat) (l : Buf α) (f t : Nat)
    (hle : f ≤ t) (ht : t ≤ l.length) (hfuel : t - f < fuel) (i : Nat) :
    (uvcLoop (ptrOps α) fuel l f t)[i]? =
      if f ≤ i ∧ i < t then some (some default) else l[i]? := by
  induction fuel generalizing l f with
  | zero => omega
  | succ fuel ih =>
    rw [uvcLoop]
    by_cases h : f = t
    · rw [if_pos h, if_neg (by omega)]
    · rw [if_neg h]
      simp only [ptrOps_set, ptrOps_inc]
      rw [ih (l.set f (some default)) (f + 1) (by omega)
        (by rw [List.length_set]; omega) (by omega)]
      rw [List.getElem?_set]
      by_cases hi : f + 1 ≤ i ∧ i < t
      · rw [if_pos hi, if_pos (by omega)]
      · rw [if_neg hi]
        by_cases hif : f = i
        · rw [if_pos hif, if_pos (by omega), if_pos (by omega)]
        · rw [if_neg hif, if_neg (by omega)]

theorem ufillLoop_ptr_getElem (fuel : Nat) (l : Buf α) (f t : Nat) (v : α)
    (hle : f ≤ t) (ht : t ≤ l.length) (hfuel : t - f < fuel) (i : Nat) :
    (ufillLoop (ptrOps α) fuel l f t v)[i]? =
      if f ≤ i ∧ i < t then some (some v) else l[i]? := by
  induction fuel generalizing l f with
  | zero => omega
  | succ fuel ih =>
    rw [ufillLoop]
    by_cases h : f = t
    · rw [if_pos h, if_neg (by omega)]
    · rw [if_neg h]
      simp only [ptrOps_set, ptrOps_inc]
      rw [ih (l.set f (some v)) (f + 1) (by omega)
        (by rw [List.length_set]; omega) (by omega)]
      rw [List.getElem?_set]
      by_cases hi : f + 1 ≤ i ∧ i < t
      · rw [if_pos hi, if_pos (by omega)]
      · rw [if_neg hi]
        by_cases hif : f = i
        · rw [if_pos hif, if_pos (by omega), if_pos (by omega)]
        · rw [if_neg hif, if_neg (by omega)]

theorem destroyLoop_ptr_getElem (fuel : Nat) (l : Buf α) (f t : Nat)
    (hle : f ≤ t) (ht : t ≤ l.length) (hfuel : t - f < fuel) (i : Nat) :
    (destroyLoop (ptrOps α) fuel l f t)[i]? =
      if f ≤ i ∧ i < t then some none else l[i]? := by
  induction fuel generalizing l f with
  | zero => omega
  | succ fuel ih =>
    rw [destroyLoop]
    by_cases h : f = t
    · rw [if_pos h, if_neg (by omega)]
    · rw [if_neg h]
      simp only [ptrOps_set, ptrOps_inc]
      rw [ih (l.set f none) (f + 1) (by omega)
        (by rw [List.length_set]; omega) (by omega)]
      rw [List.getElem?_set]
      by_cases hi : f + 1 ≤ i ∧ i < t
      · rw [if_pos hi, if_pos (by omega)]
      · rw [if_neg hi]
        by_cases hif : f = i
        · rw [if_pos hif, if_pos (by omega), if_pos (by omega)]
        · rw [if_neg hif, if_neg (by omega)]

/-! Characterization of `rotate`.  Rotating `[first, n_first, last)` forward
moves the block `[n_first, last)` in front of the block `[first, n_first)`;
rotating through reverse iterators with bases `bf ≥ bn ≥ bt` moves the block
`[bn, bf)` of the underlying buffer in front of `[bt, bn)`. -/

theorem rotate_fst_length {ops : IterOps α} (hs : SetPreservesLength ops)
    (b : Buf α) (f n t : Nat) : (rotate ops b f n t).1.length = b.length := by
  rw [rotate]
  by_cases h1 : f = n
  · rw [if_pos h1]
  · rw [if_neg h1]
    by_cases h2 : n = t
    · rw [if_pos h2]
    · rw [if_neg h2]
      dsimp only
      rw [reverse_length hs, reverse_length hs, reverse_length hs]

theorem rotate_ptr_fst_getElem (l : Buf α) (f n t : Nat) (h1 : f ≤ n)
    (h2 : n ≤ t) (ht : t ≤ l.length) (i : Nat) :
    (rotate (ptrOps α) l f n t).1[i]? =
      if i < f then l[i]?
      else if i < f + (t - n) then l[n + (i - f)]?
      else if i < t then l[i - (t - n)]?
      else l[i]? := by
  rw [rotate]
  by_cases hfn : f = n
  · rw [if_pos hfn]
    by_cases hc1 : i < f
    · rw [if_pos hc1]
    · rw [if_neg hc1]
      by_cases hc2 : i < f + (t - n)
      · rw [if_pos hc2]
        congr 1
        omega
      · rw [if_neg hc2]
        by_cases hc3 : i < t
        · exact absurd hc3 (by omega)
        · rw [if_neg hc3]
  · rw [if_neg hfn]
    by_cases hnt : n = t
    · rw [if_pos hnt]
      by_cases hc1 : i < f
      · rw [if_pos hc1]
      · rw [if_neg hc1, if_neg (by omega)]
        by_cases hc3 : i < t
        · rw [if_pos hc3]
          congr 1
          omega
        · rw [if_neg hc3]
    · rw [if_neg hnt]
      dsimp only
      simp only [reverse]
      simp only [reverseLoop_length ptrOps_spl]
      have hlenA :
          (reverseLoop (ptrOps α) (l.length + 1) l f n).length = l.length :=
        reverseLoop_length ptrOps_spl _ _ _ _
      have hlenB :
          (reverseLoop (ptrOps α) (l.length + 1)
            (reverseLoop (ptrOps α) (l.length + 1) l f n) n t).length =
            l.length := by
        rw [reverseLoop_length ptrOps_spl, hlenA]
      have hA := fun j =>
        reverseLoop_ptr_getElem (l.length + 1) l f n h1 (le_trans h2 ht)
          (by omega) j
      have hB := fun j =>
        reverseLoop_ptr_getElem (l.length + 1)
          (reverseLoop (ptrOps α) (l.length + 1) l f n) n t h2
          (by rw [hlenA]; exact ht) (by omega) j
      rw [reverseLoop_ptr_getElem (l.length + 1) _ f t (by omega)
        (by rw [hlenB]; exact ht) (by omega) i]
      by_cases hc1 : f ≤ i ∧ i < t
      · rw [if_pos hc1, hB]
        by_cases hc2 : n ≤ f + t - 1 - i ∧ f + t - 1 - i < t
        · rw [if_pos hc2, hA]
          rw [if_neg (by omega)]
          rw [if_neg (by omega), if_pos (by omega)]
          congr 1
          omega
        · rw [if_neg hc2, hA]
          rw [if_pos (by omega)]
          rw [if_neg (by omega), if_neg (by omega), if_pos (by omega)]
          congr 1
          omega
      · rw [if_neg hc1, hB, if_neg (by omega), hA, if_neg (by omega)]
        by_cases hif : i < f
        · rw [if_pos hif]
        · rw [if_neg hif, if_neg (by omega), if_neg (by omega)]

theorem rotate_ptr_snd (l : Buf α) (f n t : Nat) (_h1 : f ≤ n) (h2 : n ≤ t)
    (ht : t ≤ l.length) : (rotate (ptrOps α) l f n t).2 = f + (t - n) := by
  rw [rotate]
  by_cases hfn : f = n
  · rw [if_pos hfn]
    omega
  · rw [if_neg hfn]
    by_cases hnt : n = t
    · rw [if_pos hnt]
      omega
    · rw [if_neg hnt]
      dsimp only
      simp only [ptrOps_add, distance]
      rw [reverse_length ptrOps_spl, reverse_length ptrOps_spl,
        reverse_length ptrOps_spl]
      rw [distanceLoop_of_inc_succ (fun p => rfl) (l.length + 1) n t h2
        (by omega)]

theorem rotate_revPtr_fst_getElem (l : Buf α) (bf bn bt : Nat) (h1 : bt ≤ bn)
    (h2 : bn ≤ bf) (hbf : bf ≤ l.length) (i : Nat) :
    (rotate (revPtrOps α) l bf bn bt).1[i]? =
      if i < bt then l[i]?
      else if i < bt + (bf - bn) then l[bn + (i - bt)]?
      else if i < bf then l[i - (bf - bn)]?
      else l[i]? := by
  rw [rotate]
  by_cases hfn : bf = bn
  · rw [if_pos hfn]
    by_cases hc1 : i < bt
    · rw [if_pos hc1]
    · rw [if_neg hc1, if_neg (by omega)]
      by_cases hc3 : i < bf
      · rw [if_pos hc3]
        congr 1
        omega
      · rw [if_neg hc3]
  · rw [if_neg hfn]
    by_cases hnt : bn = bt
    · rw [if_pos hnt]
      by_cases hc1 : i < bt
      · rw [if_pos hc1]
      · rw [if_neg hc1]
        by_cases hc2 : i < bt + (bf - bn)
        · rw [if_pos hc2]
          congr 1
          omega
        · rw [if_neg hc2]
          by_cases hc3 : i < bf
          · exact absurd hc3 (by omega)
          · rw [if_neg hc3]
    · rw [if_neg hnt]
      dsimp only
      simp only [reverse]
      simp only [reverseLoop_length revPtrOps_spl]
      have hlenA :
          (reverseLoop (revPtrOps α) (l.length + 1) l bf bn).length =
            l.length :=
        reverseLoop_length revPtrOps_spl _ _ _ _
      have hlenB :
          (reverseLoop (revPtrOps α) (l.length + 1)
            (reverseLoop (revPtrOps α) (l.length + 1) l bf bn) bn bt).length =
            l.length := by
        rw [reverseLoop_length revPtrOps_spl, hlenA]
      have hA := fun j =>
        reverseLoop_revPtr_getElem (l.length + 1) l bf bn h2 hbf (by omega) j
      have hB := fun j =>
        reverseLoop_revPtr_getElem (l.length + 1)
          (reverseLoop (revPtrOps α) (l.length + 1) l bf bn) bn bt h1
          (by rw [hlenA]; omega) (by omega) j
      rw [reverseLoop_revPtr_getElem (l.length + 1) _ bf bt (by omega)
        (by rw [hlenB]; exact hbf) (by omega) i]
      by_cases hc1 : bt ≤ i ∧ i < bf
      · rw [if_pos hc1, hB]
        by_cases hc2 : bt + bf - 1 - i < bn
        · rw [if_pos (by omega), hA]
          rw [if_neg (by omega)]
          rw [if_neg (by omega), if_neg (by omega), if_pos (by omega)]
          congr 1
          omega
        · rw [if_neg (by omega), hA]
          rw [if_pos (by omega)]
          rw [if_neg (by omega), if_pos (by omega)]
          congr 1
          omega
      · rw [if_neg hc1, hB, if_neg (by omega), hA, if_neg (by omega)]
        by_cases hif : i < bt
        · rw [if_pos hif]
        · rw [if_neg hif, if_neg (by omega), if_neg (by omega)]

theorem rotate_revPtr_snd (l : Buf α) (bf bn bt : Nat) (h1 : bt ≤ bn)
    (h2 : bn ≤ bf) (hbf : bf ≤ l.length) :
    (rotate (revPtrOps α) l bf bn bt).2 = bf - (bn - bt) := by
  rw [rotate]
  by_cases hfn : bf = bn
  · rw [if_pos hfn]
    omega
  · rw [if_neg hfn]
    by_cases hnt : bn = bt
    · rw [if_pos hnt]
      omega
    · rw [if_neg hnt]
      dsimp only
      simp only [revPtrOps_add, distance]
      rw [reverse_length revPtrOps_spl, reverse_length revPtrOps_spl,
        reverse_length revPtrOps_spl]
      rw [distanceLoop_of_inc_pred (fun p => rfl) (l.length + 1) bn bt h1
        (by omega)]

/-! Arithmetic facts about the circular index map `index_at` and the logical
view of a deque buffer. -/

theorem index_at_eq_mod (head cap pos : Nat) (hh : head < cap)
    (hp : pos < cap) : index_at head cap pos = (head + pos) % cap := by
  unfold index_at
  dsimp only
  by_cases h : pos < cap - head
  · rw [if_pos h, Nat.mod_eq_of_lt (by omega)]
  · rw [if_neg h]
    have h2 : head + pos - cap < cap := by omega
    have h3 : (head + pos) % cap = (head + pos - cap) % cap := by
      conv =>
        lhs
        rw [Nat.mod_eq_sub_mod (by omega)]
    rw [h3, Nat.mod_eq_of_lt h2]
    omega

theorem index_at_lt (head cap pos : Nat) (hh : head < cap) (hp : pos < cap) :
    index_at head cap pos < cap := by
  unfold index_at
  dsimp only
  by_cases h : pos < cap - head
  · rw [if_pos h]
    omega
  · rw [if_neg h]
    omega

theorem index_at_inj (head cap p1 p2 : Nat) (hh : head < cap) (h1 : p1 < cap)
    (h2 : p2 < cap) (heq : index_at head cap p1 = index_at head cap p2) :
    p1 = p2 := by
  unfold index_at at heq
  dsimp only at heq
  by_cases c1 : p1 < cap - head
  · rw [if_pos c1] at heq
    by_cases c2 : p2 < cap - head
    · rw [if_pos c2] at heq
      omega
    · rw [if_neg c2] at heq
      omega
  · rw [if_neg c1] at heq
    by_cases c2 : p2 < cap - head
    · rw [if_pos c2] at heq
      omega
    · rw [if_neg c2] at heq
      omega

/-- Every physical slot is `index_at` of a logical position: the inverse map. -/
theorem index_at_surj (head cap q : Nat) (hh : head < cap) (hq : q < cap) :
    ∃ p < cap, index_at head cap p = q := by
  refine ⟨if head ≤ q then q - head else q + (cap - head), by split <;> omega, ?_⟩
  unfold index_at
  dsimp only
  by_cases h : head ≤ q
  · rw [if_pos h, if_pos (by omega)]
    omega
  · rw [if_neg h, if_neg (by omega)]
    omega

namespace Deq

theorem lv_length (head cap : Nat) (b : Buf α) :
    (logicalView head cap b).length = cap := by
  simp [logicalView]

theorem lv_getElem (head cap : Nat) (b : Buf α) (i : Nat) (hi : i < cap) :
    (logicalView head cap b)[i]? =
      some (b.getD (index_at head cap i) none) := by
  unfold logicalView
  rw [List.getElem?_map, List.getElem?_range hi]
  rfl

theorem lv_getElem_ge (head cap : Nat) (b : Buf α) (i : Nat) (hi : cap ≤ i) :
    (logicalView head cap b)[i]? = none :=
  List.getElem?_eq_none (by rw [lv_length]; omega)

theorem lv_getD (head cap : Nat) (b : Buf α) (i : Nat) (hi : i < cap) :
    (logicalView head cap b).getD i none = b.getD (index_at head cap i) none := by
  rw [List.getD_eq_getElem?_getD, lv_getElem head cap b i hi]
  rfl

theorem getD_set_self (b : Buf α) (j : Nat) (v : Option α) (hj : j < b.length) :
    (b.set j v).getD j none = v := by
  rw [List.getD_eq_getElem?_getD, List.getElem?_set_self (by omega)]
  rfl

theorem getD_set_ne (b : Buf α) (j k : Nat) (v : Option α) (hjk : j ≠ k) :
    (b.set j v).getD k none = b.getD k none := by
  rw [List.getD_eq_getElem?_getD, List.getElem?_set_ne hjk,
    List.getD_eq_getElem?_getD]

theorem lv_set (head cap : Nat) (b : Buf α) (p : Nat) (v : Option α)
    (hh : head < cap) (hlen : b.length = cap) (hp : p < cap) :
    logicalView head cap (b.set (index_at head cap p) v) =
      (logicalView head cap b).set p v := by
  apply List.ext_getElem?
  intro i
  by_cases hic : i < cap
  · rw [lv_getElem head cap _ i hic, List.getElem?_set]
    by_cases hpi : p = i
    · rw [if_pos hpi, if_pos (by rw [lv_length]; omega)]
      have : index_at head cap i = index_at head cap p := by rw [hpi]
      rw [this, getD_set_self _ _ _ (by rw [hlen]; exact index_at_lt _ _ _ hh hp)]
    · rw [if_neg hpi, lv_getElem head cap b i hic,
        getD_set_ne _ _ _ _ (fun hc =>
          hpi (index_at_inj head cap p i hh hp hic hc))]
  · rw [lv_getElem_ge head cap _ i (by omega), List.getElem?_eq_none]
    rw [List.length_set, lv_length]
    omega

/-- The logical view determines the physical buffer. -/
theorem lv_inj (head cap : Nat) (b1 b2 : Buf α) (hh : head < cap)
    (hl1 : b1.length = cap) (hl2 : b2.length = cap)
    (heq : logicalView head cap b1 = logicalView head cap b2) : b1 = b2 := by
  apply List.ext_getElem?
  intro q
  by_cases hq : q < cap
  · obtain ⟨p, hp, hip⟩ := index_at_surj head cap q hh hq
    have h1 := lv_getElem head cap b1 p hp
    have h2 := lv_getElem head cap b2 p hp
    rw [heq] at h1
    rw [h1] at h2
    have hgd : b1.getD q none = b2.getD q none := by
      have := Option.some.inj h2
      rw [hip] at this
      exact this
    rw [List.getD_eq_getElem?_getD, List.getD_eq_getElem?_getD] at hgd
    rw [List.getElem?_eq_getElem (by omega), List.getElem?_eq_getElem (by omega)]
    rw [List.getElem?_eq_getElem (l := b1) (by omega),
      List.getElem?_eq_getElem (l := b2) (by omega)] at hgd
    simpa using hgd
  · rw [List.getElem?_eq_none (by omega), List.getElem?_eq_none (by omega)]

/-! Commutation: the generic loops running on deque iterators over the
physical buffer are the pointer-iterator loops on the logical view. -/

theorem iter_swap_deq_comm (head cap : Nat) (b : Buf α) (a p2 : Nat)
    (hh : head < cap) (hlen : b.length = cap) (ha : a < cap)
    (hp2 : p2 < cap) :
    logicalView head cap (iter_swap (deqOps head cap α) b a p2) =
      iter_swap (ptrOps α) (logicalView head cap b) a p2 := by
  unfold iter_swap
  simp only [deqOps_get, deqOps_set, ptrOps_get, ptrOps_set]
  rw [lv_set head cap _ p2 _ hh (by rw [List.length_set]; exact hlen) hp2,
    lv_set head cap b a _ hh hlen ha,
    lv_getD head cap b p2 hp2, lv_getD head cap b a ha]

theorem reverseLoop_deq_comm (fuel : Nat) (head cap : Nat) (b : Buf α)
    (f t : Nat) (hh : head < cap) (hlen : b.length = cap) (hft : f ≤ t)
    (ht : t ≤ cap) :
    logicalView head cap (reverseLoop (deqOps head cap α) fuel b f t) =
      reverseLoop (ptrOps α) fuel (logicalView head cap b) f t := by
  induction fuel generalizing b f t with
  | zero => rfl
  | succ fuel ih =>
    rw [reverseLoop, reverseLoop]
    by_cases h1 : f = t
    · rw [if_pos h1, if_pos h1]
    · rw [if_neg h1, if_neg h1]
      simp only [deqOps_dec, deqOps_inc, ptrOps_dec, ptrOps_inc]
      by_cases h2 : f = t - 1
      · rw [if_pos h2, if_pos h2]
      · rw [if_neg h2, if_neg h2]
        rw [ih (iter_swap (deqOps head cap α) b f (t - 1)) (f + 1) (t - 1)
          (by rw [iter_swap_length (deqOps_spl head cap)]; exact hlen)
          (by omega) (by omega)]
        rw [iter_swap_deq_comm head cap b f (t - 1) hh hlen (by omega)
          (by omega)]

theorem iter_swap_revDeq_comm (head cap : Nat) (b : Buf α) (a p2 : Nat)
    (hh : head < cap) (hlen : b.length = cap) (ha : a - 1 < cap)
    (hp2 : p2 - 1 < cap) :
    logicalView head cap (iter_swap (revDeqOps head cap α) b a p2) =
      iter_swap (revPtrOps α) (logicalView head cap b) a p2 := by
  unfold iter_swap
  simp only [revDeqOps_get, revDeqOps_set, revPtrOps_get, revPtrOps_set]
  rw [lv_set head cap _ (p2 - 1) _ hh (by rw [List.length_set]; exact hlen) hp2,
    lv_set head cap b (a - 1) _ hh hlen ha,
    lv_getD head cap b (p2 - 1) hp2, lv_getD head cap b (a - 1) ha]

theorem reverseLoop_revDeq_comm (fuel : Nat) (head cap : Nat) (b : Buf α)
    (bf bt : Nat) (hh : head < cap) (hlen : b.length = cap) (hle : bt ≤ bf)
    (hbf : bf ≤ cap) :
    logicalView head cap (reverseLoop (revDeqOps head cap α) fuel b bf bt) =
      reverseLoop (revPtrOps α) fuel (logicalView head cap b) bf bt := by
  induction fuel generalizing b bf bt with
  | zero => rfl
  | succ fuel ih =>
    rw [reverseLoop, reverseLoop]
    by_cases h1 : bf = bt
    · rw [if_pos h1, if_pos h1]
    · rw [if_neg h1, if_neg h1]
      simp only [revDeqOps_dec, revDeqOps_inc, revPtrOps_dec, revPtrOps_inc]
      by_cases h2 : bf = bt + 1
      · rw [if_pos h2, if_pos h2]
      · rw [if_neg h2, if_neg h2]
        rw [ih (iter_swap (revDeqOps head cap α) b bf (bt + 1)) (bf - 1)
          (bt + 1)
          (by rw [iter_swap_length (revDeqOps_spl head cap)]; exact hlen)
          (by omega) (by omega)]
        rw [iter_swap_revDeq_comm head cap b bf (bt + 1) hh hlen (by omega)
          (by omega)]

theorem fill_n_deq_comm (head cap : Nat) (b : Buf α) (p n : Nat) (v : α)
    (hh : head < cap) (hlen : b.length = cap) (hpn : p + n ≤ cap) :
    logicalView head cap (fill_n (deqOps head cap α) b p n v) =
      fill_n (ptrOps α) (logicalView head cap b) p n v := by
  induction n generalizing b p with
  | zero => rfl
  | succ n ih =>
    rw [fill_n, fill_n]
    simp only [deqOps_set, deqOps_inc, ptrOps_set, ptrOps_inc]
    rw [ih (b.set (index_at head cap p) (some v)) (p + 1)
      (by rw [List.length_set]; exact hlen) (by omega)]
    rw [lv_set head cap b p _ hh hlen (by omega)]

theorem copy_n_deq_comm (head cap : Nat) (b : Buf α) (src : List α)
    (n p : Nat) (hh : head < cap) (hlen : b.length = cap)
    (hpn : p + n ≤ cap) :
    logicalView head cap (copy_n (deqOps head cap α) b src n p) =
      copy_n (ptrOps α) (logicalView head cap b) src n p := by
  induction n generalizing b src p with
  | zero => rw [copy_n, copy_n]
  | succ n ih =>
    match src with
    | [] => rw [copy_n, copy_n]
    | v :: rest =>
      rw [copy_n, copy_n]
      simp only [deqOps_set, deqOps_inc, ptrOps_set, ptrOps_inc]
      rw [ih (b.set (index_at head cap p) (some v)) rest (p + 1)
        (by rw [List.length_set]; exact hlen) (by omega)]
      rw [lv_set head cap b p _ hh hlen (by omega)]

theorem rotate_deq_comm_fst (head cap : Nat) (b : Buf α) (f n t : Nat)
    (hh : head < cap) (hlen : b.length = cap) (h1 : f ≤ n) (h2 : n ≤ t)
    (ht : t ≤ cap) :
    logicalView head cap (rotate (deqOps head cap α) b f n t).1 =
      (rotate (ptrOps α) (logicalView head cap b) f n t).1 := by
  rw [rotate, rotate]
  by_cases hfn : f = n
  · rw [if_pos hfn, if_pos hfn]
  · rw [if_neg hfn, if_neg hfn]
    by_cases hnt : n = t
    · rw [if_pos hnt, if_pos hnt]
    · rw [if_neg hnt, if_neg hnt]
      dsimp only
      simp only [reverse]
      simp only [reverseLoop_length (deqOps_spl head cap),
        reverseLoop_length ptrOps_spl, lv_length, hlen]
      rw [reverseLoop_deq_comm _ head cap _ f t hh
        (by rw [reverseLoop_length (deqOps_spl head cap),
          reverseLoop_length (deqOps_spl head cap)]; exact hlen)
        (by omega) ht]
      rw [reverseLoop_deq_comm _ head cap _ n t hh
        (by rw [reverseLoop_length (deqOps_spl head cap)]; exact hlen) h2 ht]
      rw [reverseLoop_deq_comm _ head cap b f n hh hlen h1 (by omega)]

theorem rotate_deq_snd (head cap : Nat) (b : Buf α) (f n t : Nat)
    (hlen : b.length = cap) (h2 : n ≤ t) (ht : t ≤ cap) :
    (rotate (deqOps head cap α) b f n t).2 = f + (t - n) := by
  rw [rotate]
  by_cases hfn : f = n
  · rw [if_pos hfn]
    omega
  · rw [if_neg hfn]
    by_cases hnt : n = t
    · rw [if_pos hnt]
      omega
    · rw [if_neg hnt]
      dsimp only
      simp only [deqOps_add, distance]
      rw [reverse_length (deqOps_spl head cap),
        reverse_length (deqOps_spl head cap),
        reverse_length (deqOps_spl head cap), hlen]
      rw [distanceLoop_of_inc_succ (fun p => rfl) (cap + 1) n t h2 (by omega)]

theorem rotate_revDeq_comm_fst (head cap : Nat) (b : Buf α) (bf bn bt : Nat)
    (hh : head < cap) (hlen : b.length = cap) (h1 : bt ≤ bn) (h2 : bn ≤ bf)
    (hbf : bf ≤ cap) :
    logicalView head cap (rotate (revDeqOps head cap α) b bf bn bt).1 =
      (rotate (revPtrOps α) (logicalView head cap b) bf bn bt).1 := by
  rw [rotate, rotate]
  by_cases hfn : bf = bn
  · rw [if_pos hfn, if_pos hfn]
  · rw [if_neg hfn, if_neg hfn]
    by_cases hnt : bn = bt
    · rw [if_pos hnt, if_pos hnt]
    · rw [if_neg hnt, if_neg hnt]
      dsimp only
      simp only [reverse]
      simp only [reverseLoop_length (revDeqOps_spl head cap),
        reverseLoop_length revPtrOps_spl, lv_length, hlen]
      rw [reverseLoop_revDeq_comm _ head cap _ bf bt hh
        (by rw [reverseLoop_length (revDeqOps_spl head cap),
          reverseLoop_length (revDeqOps_spl head cap)]; exact hlen)
        (by omega) hbf]
      rw [reverseLoop_revDeq_comm _ head cap _ bn bt hh
        (by rw [reverseLoop_length (revDeqOps_spl head cap)]; exact hlen) h1
        (by omega)]
      rw [reverseLoop_revDeq_comm _ head cap b bf bn hh hlen h2 hbf]

theorem rotate_revDeq_snd (head cap : Nat) (b : Buf α) (bf bn bt : Nat)
    (hlen : b.length = cap) (h1 : bt ≤ bn) (hbn : bn ≤ cap) :
    (rotate (revDeqOps head cap α) b bf bn bt).2 = bf - (bn - bt) := by
  rw [rotate]
  by_cases hfn : bf = bn
  · rw [if_pos hfn]
    omega
  · rw [if_neg hfn]
    by_cases hnt : bn = bt
    · rw [if_pos hnt]
      omega
    · rw [if_neg hnt]
      dsimp only
      simp only [revDeqOps_add, distance]
      rw [reverse_length (revDeqOps_spl head cap),
        reverse_length (revDeqOps_spl head cap),
        reverse_length (revDeqOps_spl head cap), hlen]
      rw [distanceLoop_of_inc_pred (fun p => rfl) (cap + 1) bn bt h1 (by omega)]

end Deq

/-! Vector: the representation invariant forces the canonical shape
`canon (toList v) capacity`, and every operation maps canonical states to
canonical states. -/

namespace Vec

theorem state_ext {v w : VecState α} (hdata : v.data = w.data)
    (hsize : v.size = w.size) (hcap : v.capacity = w.capacity) : v = w := by
  cases v
  cases w
  dsimp only at hdata hsize hcap
  rw [hdata, hsize, hcap]

theorem Inv.len {v : VecState α} (h : Inv v) : v.data.length = v.capacity :=
  h.1

theorem Inv.word {v : VecState α} (h : Inv v) : v.capacity < WORD := h.2.1

theorem Inv.size_le {v : VecState α} (h : Inv v) : v.size ≤ v.capacity :=
  h.2.2.1

theorem Inv.live {v : VecState α} (h : Inv v) :
    ∀ i < v.capacity, ((v.data.getD i none).isSome ↔ i < v.size) := h.2.2.2

theorem getElem_dead {v : VecState α} (h : Inv v) {i : Nat} (h1 : v.size ≤ i)
    (h2 : i < v.capacity) : v.data[i]? = some none := by
  have hlen : i < v.data.length := by rw [h.len]; exact h2
  have hgd : v.data.getD i none = v.data[i] := by
    rw [List.getD_eq_getElem?_getD, List.getElem?_eq_getElem hlen]
    rfl
  have hl := (h.live i h2)
  rw [hgd] at hl
  have hns : ¬(v.data[i]).isSome := fun hs => absurd (hl.mp hs) (by omega)
  rw [List.getElem?_eq_getElem hlen, Option.not_isSome_iff_eq_none.mp hns]

theorem getElem_live {v : VecState α} (h : Inv v) {i : Nat}
    (hi : i < v.size) : ∃ x : α, v.data[i]? = some (some x) := by
  have hlen : i < v.data.length := by
    rw [h.len]
    have := h.size_le
    omega
  have hgd : v.data.getD i none = v.data[i] := by
    rw [List.getD_eq_getElem?_getD, List.getElem?_eq_getElem hlen]
    rfl
  have hl := (h.live i (by have := h.size_le; omega))
  rw [hgd] at hl
  obtain ⟨x, hx⟩ := Option.isSome_iff_exists.mp (hl.mpr hi)
  exact ⟨x, by rw [List.getElem?_eq_getElem hlen, hx]⟩

theorem toList_length {v : VecState α} (h : Inv v) :
    (toList v).length = v.size := by
  unfold toList
  rw [List.length_take]
  have := h.len
  have := h.size_le
  omega

theorem toList_getElem (v : VecState α) (i : Nat) :
    (toList v)[i]? = if i < v.size then v.data[i]? else none := by
  unfold toList
  rw [List.getElem?_take]

theorem toList_all_isSome {v : VecState α} (h : Inv v) :
    ∀ x ∈ toList v, x.isSome := by
  intro x hx
  obtain ⟨i, hi, hg⟩ := List.getElem_of_mem hx
  have hg? : (toList v)[i]? = some x := by
    rw [List.getElem?_eq_getElem hi, hg]
  rw [toList_getElem] at hg?
  have hil : i < v.size := by
    by_contra hc
    rw [if_neg hc] at hg?
    exact Option.noConfusion hg?
  rw [if_pos hil] at hg?
  obtain ⟨y, hy⟩ := getElem_live h hil
  rw [hy] at hg?
  cases hg?
  rfl

theorem canon_size (L : Buf α) (cap : Nat) : (canon L cap).size = L.length :=
  rfl

theorem canon_capacity (L : Buf α) (cap : Nat) :
    (canon L cap).capacity = cap := rfl

theorem canon_data_length (L : Buf α) (cap : Nat) (hL : L.length ≤ cap) :
    (canon L cap).data.length = cap := by
  unfold canon
  dsimp only
  rw [List.length_append, List.length_replicate]
  omega

theorem canon_data_getElem_of_le (L : Buf α) (cap i : Nat)
    (hL : L.length ≤ cap) :
    (canon L cap).data[i]? =
      if i < L.length then L[i]? else if i < cap then some none else none := by
  unfold canon
  dsimp only
  rw [List.getElem?_append]
  by_cases h1 : i < L.length
  · rw [if_pos h1, if_pos h1]
  · rw [if_neg h1, if_neg h1, List.getElem?_replicate]
    by_cases h2 : i < cap
    · rw [if_pos (by omega), if_pos h2]
    · rw [if_neg (by omega), if_neg h2]

theorem canon_toList (L : Buf α) (cap : Nat) (_hL : L.length ≤ cap) :
    toList (canon L cap) = L := by
  unfold toList canon
  dsimp only
  rw [List.take_left]

theorem Inv_canon (L : Buf α) (cap : Nat) (hL : L.length ≤ cap)
    (hW : cap < WORD) (hlive : ∀ x ∈ L, x.isSome) : Inv (canon L cap) := by
  refine ⟨canon_data_length L cap hL, hW, hL, fun i hi => ?_⟩
  rw [canon_capacity] at hi
  rw [List.getD_eq_getElem?_getD, canon_data_getElem_of_le L cap i hL,
    canon_size]
  by_cases h1 : i < L.length
  · rw [if_pos h1]
    have hx : L[i] ∈ L := List.getElem_mem h1
    rw [List.getElem?_eq_getElem h1]
    simp only [Option.getD_some]
    exact ⟨fun _ => h1, fun _ => hlive _ hx⟩
  · rw [if_neg h1, if_pos hi]
    simp only [Option.getD_some, Option.isSome_none]
    exact iff_of_false (by simp) h1

theorem canon_of_inv {v : VecState α} (h : Inv v) :
    canon (toList v) v.capacity = v := by
  have hL : (toList v).length ≤ v.capacity := by
    rw [toList_length h]
    exact h.size_le
  apply state_ext
  · apply List.ext_getElem?
    intro i
    rw [canon_data_getElem_of_le _ _ _ hL, toList_length h]
    by_cases h1 : i < v.size
    · rw [if_pos h1, toList_getElem, if_pos h1]
    · rw [if_neg h1]
      by_cases h2 : i < v.capacity
      · rw [if_pos h2, getElem_dead h (by omega) h2]
      · rw [if_neg h2, List.getElem?_eq_none (by rw [h.len]; omega)]
  · rw [canon_size, toList_length h]
  · rfl

end Vec

/-! Unsigned `size_t` subtraction facts. -/

theorem WORD_lit : WORD = 18446744073709551616 := by norm_num [WORD]

theorem sizetSub_eq_sub (a b : Nat) (hb : b ≤ a) (ha : a < WORD)
    (hbW : b < WORD) : sizetSub a b = a - b := by
  unfold sizetSub
  rw [WORD_lit] at *
  omega

theorem sizetSub_zero_one : sizetSub 0 1 = WORD - 1 := by
  unfold sizetSub
  rw [WORD_lit]

namespace Vec

/-! Effect of each vector operation on canonical states. -/

theorem resize_shrink [Inhabited α] {v : VecState α} (h : Inv v) {count : Nat}
    (hc : count ≤ v.size) :
    resize v count = canon ((toList v).take count) v.capacity := by
  have hlen := h.len
  have hsz := h.size_le
  have hLlen : ((toList v).take count).length = count := by
    rw [List.length_take, toList_length h]
    omega
  unfold resize
  rw [if_pos hc]
  apply state_ext
  · dsimp only
    unfold destroy
    apply List.ext_getElem?
    intro i
    rw [destroyLoop_ptr_getElem _ _ _ _ hc (by omega) (by omega) i,
      canon_data_getElem_of_le _ _ _ (by omega), hLlen]
    by_cases h1 : i < count
    · rw [if_neg (by omega), if_pos h1, List.getElem?_take, if_pos h1,
        toList_getElem, if_pos (by omega)]
    · rw [if_neg h1]
      by_cases h2 : i < v.size
      · rw [if_pos (by omega), if_pos (by omega)]
      · rw [if_neg (by omega)]
        by_cases h3 : i < v.capacity
        · rw [if_pos h3, getElem_dead h (by omega) h3]
        · rw [if_neg h3, List.getElem?_eq_none (by omega)]
  · dsimp only
    rw [canon_size, hLlen]
  · rfl

theorem resize_grow [Inhabited α] {v : VecState α} (h : Inv v) {count : Nat}
    (hc : v.size ≤ count) :
    resize v count =
      canon (toList v ++
        List.replicate (min count v.capacity - v.size) (some default))
        v.capacity := by
  have hlen := h.len
  have hsz := h.size_le
  have htl : (toList v).length = v.size := toList_length h
  have hLlen : (toList v ++
      List.replicate (min count v.capacity - v.size) (some default)).length =
      min count v.capacity := by
    rw [List.length_append, htl, List.length_replicate]
    omega
  unfold resize
  by_cases hle : count ≤ v.size
  · rw [if_pos hle]
    apply state_ext
    · dsimp only
      unfold destroy
      apply List.ext_getElem?
      intro i
      rw [destroyLoop_ptr_getElem _ _ _ _ hle (by omega) (by omega) i,
        canon_data_getElem_of_le _ _ _ (by omega), hLlen]
      by_cases h1 : i < v.size
      · rw [if_neg (by omega), if_pos (by omega), List.getElem?_append,
          if_pos (by omega), toList_getElem, if_pos h1]
      · rw [if_neg (by omega), if_neg (by omega)]
        by_cases h3 : i < v.capacity
        · rw [if_pos h3, getElem_dead h (by omega) h3]
        · rw [if_neg h3, List.getElem?_eq_none (by omega)]
    · dsimp only
      rw [canon_size, hLlen]
      omega
    · rfl
  · rw [if_neg hle]
    dsimp only
    apply state_ext
    · dsimp only
      unfold uninitialized_value_construct
      apply List.ext_getElem?
      intro i
      rw [uvcLoop_ptr_getElem _ _ _ _ (by omega) (by omega) (by omega) i,
        canon_data_getElem_of_le _ _ _ (by omega), hLlen]
      by_cases h1 : i < v.size
      · rw [if_neg (by omega), if_pos (by omega), List.getElem?_append,
          if_pos (by omega), toList_getElem, if_pos h1]
      · by_cases h2 : i < min count v.capacity
        · rw [if_pos (by omega), if_pos h2, List.getElem?_append,
            if_neg (by omega), List.getElem?_replicate, if_pos (by omega)]
        · rw [if_neg (by omega), if_neg h2]
          by_cases h3 : i < v.capacity
          · rw [if_pos h3, getElem_dead h (by omega) h3]
          · rw [if_neg h3, List.getElem?_eq_none (by omega)]
    · dsimp only
      rw [canon_size, hLlen]
    · rfl

theorem resizeVal_shrink [Inhabited α] {v : VecState α} (h : Inv v)
    {count : Nat} (hc : count ≤ v.size) (value : α) :
    resizeVal v count value = canon ((toList v).take count) v.capacity := by
  have hres := resize_shrink h hc
  unfold resize at hres
  rw [if_pos hc] at hres
  unfold resizeVal
  rw [if_pos hc]
  exact hres

theorem resizeVal_grow [Inhabited α] {v : VecState α} (h : Inv v) {count : Nat}
    (hc : v.size ≤ count) (value : α) :
    resizeVal v count value =
      canon (toList v ++
        List.replicate (min count v.capacity - v.size) (some value))
        v.capacity := by
  have hlen := h.len
  have hsz := h.size_le
  have htl : (toList v).length = v.size := toList_length h
  have hLlen : (toList v ++
      List.replicate (min count v.capacity - v.size) (some value)).length =
      min count v.capacity := by
    rw [List.length_append, htl, List.length_replicate]
    omega
  unfold resizeVal
  by_cases hle : count ≤ v.size
  · rw [if_pos hle]
    apply state_ext
    · dsimp only
      unfold destroy
      apply List.ext_getElem?
      intro i
      rw [destroyLoop_ptr_getElem _ _ _ _ hle (by omega) (by omega) i,
        canon_data_getElem_of_le _ _ _ (by omega), hLlen]
      by_cases h1 : i < v.size
      · rw [if_neg (by omega), if_pos (by omega), List.getElem?_append,
          if_pos (by omega), toList_getElem, if_pos h1]
      · rw [if_neg (by omega), if_neg (by omega)]
        by_cases h3 : i < v.capacity
        · rw [if_pos h3, getElem_dead h (by omega) h3]
        · rw [if_neg h3, List.getElem?_eq_none (by omega)]
    · dsimp only
      rw [canon_size, hLlen]
      omega
    · rfl
  · rw [if_neg hle]
    dsimp only
    apply state_ext
    · dsimp only
      unfold uninitialized_fill
      apply List.ext_getElem?
      intro i
      rw [ufillLoop_ptr_getElem _ _ _ _ _ (by omega) (by omega) (by omega) i,
        canon_data_getElem_of_le _ _ _ (by omega), hLlen]
      by_cases h1 : i < v.size
      · rw [if_neg (by omega), if_pos (by omega), List.getElem?_append,
          if_pos (by omega), toList_getElem, if_pos h1]
      · by_cases h2 : i < min count v.capacity
        · rw [if_pos (by omega), if_pos h2, List.getElem?_append,
            if_neg (by omega), List.getElem?_replicate, if_pos (by omega)]
        · rw [if_neg (by omega), if_neg h2]
          by_cases h3 : i < v.capacity
          · rw [if_pos h3, getElem_dead h (by omega) h3]
          · rw [if_neg h3, List.getElem?_eq_none (by omega)]
    · dsimp only
      rw [canon_size, hLlen]
    · rfl

theorem clear_eq [Inhabited α] {v : VecState α} (h : Inv v) :
    clear v = canon [] v.capacity := by
  unfold clear
  rw [resize_shrink h (by omega), List.take_zero]

theorem push_back_eq [Inhabited α] {v : VecState α} (h : Inv v)
    (hlt : v.size < v.capacity) (value : α) :
    push_back v value = canon (toList v ++ [some value]) v.capacity := by
  have hlen := h.len
  have hsz := h.size_le
  have htl : (toList v).length = v.size := toList_length h
  have hLlen : (toList v ++ [some value]).length = v.size + 1 := by
    rw [List.length_append, htl]
    rfl
  unfold push_back
  rw [if_pos hlt]
  apply state_ext
  · dsimp only
    rw [uninitialized_fill_n_eq_fill_n]
    apply List.ext_getElem?
    intro i
    rw [fill_n_ptr_getElem _ _ _ _ _ (by omega),
      canon_data_getElem_of_le _ _ _ (by omega), hLlen]
    by_cases h1 : i < v.size
    · rw [if_neg (by omega), if_pos (by omega), List.getElem?_append,
        if_pos (by omega), toList_getElem, if_pos h1]
    · by_cases h2 : i = v.size
      · rw [if_pos (by omega), if_pos (by omega), List.getElem?_append,
          if_neg (by omega)]
        have : i - (toList v).length = 0 := by omega
        rw [this, List.getElem?_cons_zero]
      · rw [if_neg (by omega)]
        by_cases h3 : i < v.capacity
        · rw [if_neg (by omega), if_pos h3, getElem_dead h (by omega) h3]
        · rw [if_neg (by omega), if_neg h3,
            List.getElem?_eq_none (by omega)]
  · dsimp only
    rw [canon_size, hLlen]
  · rfl

theorem push_back_full {v : VecState α} (hlt : ¬v.size < v.capacity)
    (value : α) : push_back v value = v := by
  unfold push_back
  rw [if_neg hlt]

theorem pop_back_eq_pos [Inhabited α] {v : VecState α} (h : Inv v)
    (hpos : 0 < v.size) :
    pop_back v = canon ((toList v).take (v.size - 1)) v.capacity := by
  unfold pop_back
  rw [sizetSub_eq_sub _ _ (by omega)
    (by have := h.word; have := h.size_le; omega) (by rw [WORD_lit]; omega)]
  exact resize_shrink h (by omega)

theorem pop_back_eq_empty [Inhabited α] {v : VecState α} (h : Inv v)
    (hz : v.size = 0) :
    pop_back v = canon (List.replicate v.capacity (some default))
      v.capacity := by
  unfold pop_back
  rw [hz, sizetSub_zero_one]
  rw [resize_grow h (by omega)]
  have ht0 : toList v = [] := by
    unfold toList
    rw [hz, List.take_zero]
  have hmin : min (WORD - 1) v.capacity = v.capacity := by
    have := h.word
    omega
  rw [ht0, hmin, hz, List.nil_append, Nat.sub_zero]

theorem insertN_full {v : VecState α} [Inhabited α]
    (hlt : ¬v.size < v.capacity) (pos count : Nat) (val : α) :
    insertN v pos count val = (v, pos) := by
  unfold insertN
  rw [if_neg hlt]

theorem insertN_eq [Inhabited α] {v : VecState α} (h : Inv v) {pos : Nat}
    (count : Nat) (hpos : pos ≤ v.size) (hlt : v.size < v.capacity)
    (val : α) :
    insertN v pos count val =
      (canon ((toList v).take pos ++
          List.replicate (min count (v.capacity - v.size)) (some val) ++
          (toList v).drop pos) v.capacity, pos) := by
  have hlen := h.len
  have hsz := h.size_le
  have htl : (toList v).length = v.size := toList_length h
  unfold insertN
  rw [if_pos hlt]
  dsimp only
  set k := min count (v.capacity - v.size) with hk
  have hkc : v.size + k ≤ v.capacity := by omega
  rw [resize_grow h (by omega)]
  have hrep : min (v.size + k) v.capacity - v.size = k := by omega
  rw [hrep]
  have hL1 : (toList v ++ List.replicate k (some default)).length =
      v.size + k := by
    rw [List.length_append, htl, List.length_replicate]
  have hdlen :
      (canon (toList v ++ List.replicate k (some default)) v.capacity).data.length =
        v.capacity :=
    canon_data_length _ _ (by omega)
  rw [canon_size, hL1]
  unfold distance
  rw [hdlen]
  rw [distanceLoop_of_inc_succ (fun p => rfl) (v.capacity + 1) 0 pos
    (by omega) (by omega), Nat.sub_zero]
  have hsub : v.size + k - k = v.size := by omega
  rw [hsub]
  have hRlen :
      (rotate (revPtrOps α)
        (canon (toList v ++ List.replicate k (some default)) v.capacity).data
        (v.size + k) v.size pos).1.length = v.capacity := by
    rw [rotate_fst_length revPtrOps_spl, hdlen]
  have hL2 : ((toList v).take pos ++ List.replicate k (some val) ++
      (toList v).drop pos).length = v.size + k := by
    rw [List.length_append, List.length_append, List.length_take,
      List.length_replicate, List.length_drop, htl]
    omega
  rw [Prod.mk.injEq]
  refine ⟨?_, rfl⟩
  apply state_ext
  · dsimp only
    apply List.ext_getElem?
    intro i
    have hD := fun j =>
      canon_data_getElem_of_le (toList v ++ List.replicate k (some default))
        v.capacity j (by omega)
    have hR := fun j =>
      rotate_revPtr_fst_getElem
        (canon (toList v ++ List.replicate k (some default)) v.capacity).data
        (v.size + k) v.size pos hpos (by omega) (by rw [hdlen]; omega) j
    rw [fill_n_ptr_getElem _ _ _ _ _ (by rw [hRlen]; omega),
      canon_data_getElem_of_le _ _ _ (by omega), hL2]
    by_cases h1 : i < pos
    · rw [if_neg (by omega), if_pos (by omega), hR, if_pos h1, hD,
        if_pos (by omega), List.getElem?_append, if_pos (by omega),
        List.getElem?_append,
        if_pos (by rw [List.length_append, List.length_take,
          List.length_replicate]; omega),
        List.getElem?_append, if_pos (by rw [List.length_take]; omega),
        List.getElem?_take, if_pos h1, toList_getElem, if_pos (by omega)]
    · by_cases h2 : i < pos + k
      · rw [if_pos (by omega), if_pos (by omega), List.getElem?_append,
          if_pos (by rw [List.length_append, List.length_take,
            List.length_replicate]; omega),
          List.getElem?_append, if_neg (by rw [List.length_take]; omega),
          List.getElem?_replicate,
          if_pos (by rw [List.length_take]; omega)]
      · rw [if_neg (by omega)]
        by_cases h3 : i < v.size + k
        · rw [if_pos (by omega), hR, if_neg (by omega), if_neg (by omega),
            if_pos (by omega), hD, if_pos (by omega), List.getElem?_append,
            if_pos (by omega), toList_getElem, if_pos (by omega),
            List.getElem?_append,
            if_neg (by rw [List.length_append, List.length_take,
              List.length_replicate]; omega),
            List.getElem?_drop]
          have harg : pos + (i - ((toList v).take pos ++
              List.replicate k (some val)).length) = i - k := by
            rw [List.length_append, List.length_take, List.length_replicate]
            omega
          rw [harg, toList_getElem, if_pos (by omega)]
          congr 1
          omega
        · rw [if_neg (by omega), hR, if_neg (by omega), if_neg (by omega),
            if_neg (by omega), hD, if_neg (by omega)]
  · dsimp only
    rw [canon_size, hL2]
  · rfl

theorem insert1_full {v : VecState α} [Inhabited α]
    (hlt : ¬v.size < v.capacity) (pos : Nat) (val : α) :
    insert1 v pos val = (v, pos) := by
  unfold insert1
  rw [if_neg hlt]

theorem insert1_eq [Inhabited α] {v : VecState α} (h : Inv v) {pos : Nat}
    (hpos : pos ≤ v.size) (hlt : v.size < v.capacity) (val : α) :
    insert1 v pos val =
      (canon ((toList v).take pos ++ some val :: (toList v).drop pos)
        v.capacity, pos) := by
  have hlen := h.len
  have hsz := h.size_le
  have htl : (toList v).length = v.size := toList_length h
  unfold insert1
  rw [if_pos hlt]
  dsimp only
  rw [resize_grow h (by omega)]
  have hrep : min (v.size + 1) v.capacity - v.size = 1 := by omega
  rw [hrep]
  have hL1 : (toList v ++ List.replicate 1 (some default)).length =
      v.size + 1 := by
    rw [List.length_append, htl, List.length_replicate]
  have hdlen :
      (canon (toList v ++ List.replicate 1 (some default)) v.capacity).data.length =
        v.capacity :=
    canon_data_length _ _ (by omega)
  rw [canon_size, hL1]
  unfold distance
  rw [hdlen]
  rw [distanceLoop_of_inc_succ (fun p => rfl) (v.capacity + 1) 0 pos
    (by omega) (by omega), Nat.sub_zero]
  have hRlen :
      (rotate (revPtrOps α)
        (canon (toList v ++ List.replicate 1 (some default)) v.capacity).data
        (v.size + 1) (v.size + 1 - 1) pos).1.length = v.capacity := by
    rw [rotate_fst_length revPtrOps_spl, hdlen]
  have hL2 : ((toList v).take pos ++ some val :: (toList v).drop pos).length =
      v.size + 1 := by
    rw [List.length_append, List.length_take, List.length_cons,
      List.length_drop, htl]
    omega
  rw [Prod.mk.injEq]
  refine ⟨?_, rfl⟩
  apply state_ext
  · dsimp only
    apply List.ext_getElem?
    intro i
    have hD := fun j =>
      canon_data_getElem_of_le (toList v ++ List.replicate 1 (some default))
        v.capacity j (by omega)
    have hR := fun j =>
      rotate_revPtr_fst_getElem
        (canon (toList v ++ List.replicate 1 (some default)) v.capacity).data
        (v.size + 1) (v.size + 1 - 1) pos (by omega) (by omega)
        (by rw [hdlen]; omega) j
    simp only [ptrOps_set]
    rw [List.getElem?_set,
      canon_data_getElem_of_le _ _ _ (by omega), hL2]
    by_cases h0 : pos = i
    · rw [if_pos h0, if_pos (by rw [hRlen]; omega), if_pos (by omega),
        List.getElem?_append, if_neg (by rw [List.length_take]; omega)]
      have hidx : i - ((toList v).take pos).length = 0 := by
        rw [List.length_take]
        omega
      rw [hidx, List.getElem?_cons_zero]
    · rw [if_neg h0]
      by_cases h1 : i < pos
      · rw [if_pos (by omega), hR, if_pos h1, hD, if_pos (by omega),
          List.getElem?_append, if_pos (by omega), List.getElem?_append,
          if_pos (by rw [List.length_take]; omega), List.getElem?_take,
          if_pos h1]
      · by_cases h3 : i < v.size + 1
        · rw [if_pos (by omega), hR, if_neg (by omega), if_neg (by omega),
            if_pos (by omega), hD, if_pos (by omega), List.getElem?_append,
            if_pos (by omega), List.getElem?_append,
            if_neg (by rw [List.length_take]; omega)]
          have hidx : i - ((toList v).take pos).length = (i - pos - 1) + 1 := by
            rw [List.length_take]
            omega
          rw [hidx, List.getElem?_cons_succ, List.getElem?_drop]
          congr 1
          omega
        · rw [if_neg (by omega), hR, if_neg (by omega), if_neg (by omega),
            if_neg (by omega), hD, if_neg (by omega)]
  · dsimp only
    rw [canon_size, hL2]
  · rfl

theorem insertRange_full {v : VecState α} [Inhabited α]
    (hlt : ¬v.size < v.capacity) (pos : Nat) (src : List α) :
    insertRange v pos src = (v, pos) := by
  unfold insertRange
  rw [if_neg hlt]

theorem insertRange_eq [Inhabited α] {v : VecState α} (h : Inv v) {pos : Nat}
    (src : List α) (hpos : pos ≤ v.size) (hlt : v.size < v.capacity) :
    insertRange v pos src =
      (canon ((toList v).take pos ++
          (src.take (min src.length (v.capacity - v.size))).map some ++
          (toList v).drop pos) v.capacity, pos) := by
  have hlen := h.len
  have hsz := h.size_le
  have htl : (toList v).length = v.size := toList_length h
  unfold insertRange
  rw [if_pos hlt]
  dsimp only
  set k := min src.length (v.capacity - v.size) with hk
  have hkc : v.size + k ≤ v.capacity := by omega
  rw [resize_grow h (by omega)]
  have hrep : min (v.size + k) v.capacity - v.size = k := by omega
  rw [hrep]
  have hL1 : (toList v ++ List.replicate k (some default)).length =
      v.size + k := by
    rw [List.length_append, htl, List.length_replicate]
  have hdlen :
      (canon (toList v ++ List.replicate k (some default)) v.capacity).data.length =
        v.capacity :=
    canon_data_length _ _ (by omega)
  rw [canon_size, hL1]
  unfold distance
  rw [hdlen]
  rw [distanceLoop_of_inc_succ (fun p => rfl) (v.capacity + 1) 0 pos
    (by omega) (by omega), Nat.sub_zero]
  have hsub : v.size + k - k = v.size := by omega
  rw [hsub]
  have hRlen :
      (rotate (revPtrOps α)
        (canon (toList v ++ List.replicate k (some default)) v.capacity).data
        (v.size + k) v.size pos).1.length = v.capacity := by
    rw [rotate_fst_length revPtrOps_spl, hdlen]
  have hmid : ((src.take k).map some).length = k := by
    rw [List.length_map, List.length_take]
    omega
  have hL2 : ((toList v).take pos ++ (src.take k).map some ++
      (toList v).drop pos).length = v.size + k := by
    rw [List.length_append, List.length_append, List.length_take, hmid,
      List.length_drop, htl]
    omega
  rw [Prod.mk.injEq]
  refine ⟨?_, rfl⟩
  apply state_ext
  · dsimp only
    apply List.ext_getElem?
    intro i
    have hD := fun j =>
      canon_data_getElem_of_le (toList v ++ List.replicate k (some default))
        v.capacity j (by omega)
    have hR := fun j =>
      rotate_revPtr_fst_getElem
        (canon (toList v ++ List.replicate k (some default)) v.capacity).data
        (v.size + k) v.size pos hpos (by omega) (by rw [hdlen]; omega) j
    rw [copy_n_ptr_getElem _ _ _ _ _ (by rw [hRlen]; omega) (by omega),
      canon_data_getElem_of_le _ _ _ (by omega), hL2]
    by_cases h1 : i < pos
    · rw [if_neg (by omega), if_pos (by omega), hR, if_pos h1, hD,
        if_pos (by omega), List.getElem?_append, if_pos (by omega),
        List.getElem?_append,
        if_pos (by rw [List.length_append, List.length_take, hmid]; omega),
        List.getElem?_append, if_pos (by rw [List.length_take]; omega),
        List.getElem?_take, if_pos h1, toList_getElem, if_pos (by omega)]
    · by_cases h2 : i < pos + k
      · rw [if_pos (by omega), if_pos (by omega), List.getElem?_append,
          if_pos (by rw [List.length_append, List.length_take, hmid]; omega),
          List.getElem?_append, if_neg (by rw [List.length_take]; omega),
          List.getElem?_map, List.getElem?_take]
        have hidx : i - ((toList v).take pos).length = i - pos := by
          rw [List.length_take]
          omega
        rw [hidx, if_pos (by omega)]
      · rw [if_neg (by omega)]
        by_cases h3 : i < v.size + k
        · rw [if_pos (by omega), hR, if_neg (by omega), if_neg (by omega),
            if_pos (by omega), hD, if_pos (by omega), List.getElem?_append,
            if_pos (by omega), toList_getElem, if_pos (by omega),
            List.getElem?_append,
            if_neg (by rw [List.length_append, List.length_take, hmid]; omega),
            List.getElem?_drop]
          have harg : pos + (i - ((toList v).take pos ++
              (src.take k).map some).length) = i - k := by
            rw [List.length_append, List.length_take, hmid]
            omega
          rw [harg, toList_getElem, if_pos (by omega)]
          congr 1
          omega
        · rw [if_neg (by omega), hR, if_neg (by omega), if_neg (by omega),
            if_neg (by omega), hD, if_neg (by omega)]
  · dsimp only
    rw [canon_size, hL2]
  · rfl

theorem erase1_eq [Inhabited α] {v : VecState α} (h : Inv v) {pos : Nat}
    (hpos : pos < v.size) :
    erase1 v pos =
      (canon ((toList v).take pos ++ (toList v).drop (pos + 1)) v.capacity,
        pos) := by
  have hlen := h.len
  have hsz := h.size_le
  have hword := h.word
  have htl : (toList v).length = v.size := toList_length h
  unfold erase1
  dsimp only
  rw [sizetSub_eq_sub _ _ (by omega) (by omega)
    (by rw [WORD_lit]; omega)]
  unfold resize
  dsimp only
  rw [if_pos (by omega)]
  have hRlen : (rotate (ptrOps α) v.data pos (pos + 1) v.size).1.length =
      v.capacity := by
    rw [rotate_fst_length ptrOps_spl, hlen]
  have hL2 : ((toList v).take pos ++ (toList v).drop (pos + 1)).length =
      v.size - 1 := by
    rw [List.length_append, List.length_take, List.length_drop, htl]
    omega
  rw [Prod.mk.injEq]
  refine ⟨?_, rfl⟩
  apply state_ext
  · dsimp only
    unfold destroy
    apply List.ext_getElem?
    intro i
    have hR := fun j =>
      rotate_ptr_fst_getElem v.data pos (pos + 1) v.size (by omega) (by omega)
        (by omega) j
    rw [destroyLoop_ptr_getElem _ _ _ _ (by omega) (by rw [hRlen]; omega)
      (by rw [hRlen]; omega) i,
      canon_data_getElem_of_le _ _ _ (by omega), hL2]
    by_cases h1 : i < pos
    · rw [if_neg (by omega), hR, if_pos h1, if_pos (by omega),
        List.getElem?_append, if_pos (by rw [List.length_take]; omega),
        List.getElem?_take, if_pos h1, toList_getElem, if_pos (by omega)]
    · by_cases h2 : i < v.size - 1
      · rw [if_neg (by omega), hR, if_neg (by omega), if_pos (by omega),
          if_pos (by omega), List.getElem?_append,
          if_neg (by rw [List.length_take]; omega), List.getElem?_drop,
          toList_getElem, if_pos (by rw [List.length_take]; omega)]
        congr 1
        rw [List.length_take]
        omega
      · by_cases h3 : i < v.size
        · rw [if_pos (by omega), if_neg (by omega), if_pos (by omega)]
        · rw [if_neg (by omega), hR, if_neg (by omega), if_neg (by omega),
            if_neg (by omega), if_neg (by omega)]
          by_cases h4 : i < v.capacity
          · rw [if_pos h4, getElem_dead h (by omega) h4]
          · rw [if_neg h4, List.getElem?_eq_none (by omega)]
  · dsimp only
    rw [canon_size, hL2]
  · rfl

theorem eraseRange_eq [Inhabited α] {v : VecState α} (h : Inv v)
    {first last : Nat} (hft : first ≤ last) (hl : last ≤ v.size) :
    eraseRange v first last =
      (canon ((toList v).take first ++ (toList v).drop last) v.capacity,
        first) := by
  have hlen := h.len
  have hsz := h.size_le
  have hword := h.word
  have htl : (toList v).length = v.size := toList_length h
  unfold eraseRange
  dsimp only
  have hRlen : (rotate (ptrOps α) v.data first last v.size).1.length =
      v.capacity := by
    rw [rotate_fst_length ptrOps_spl, hlen]
  unfold distance
  rw [hRlen]
  rw [distanceLoop_of_inc_succ (fun p => rfl) (v.capacity + 1) first last hft
    (by omega)]
  rw [sizetSub_eq_sub v.size (last - first) (by omega) (by omega) (by omega)]
  unfold resize
  dsimp only
  rw [if_pos (by omega)]
  have hL2 : ((toList v).take first ++ (toList v).drop last).length =
      v.size - (last - first) := by
    rw [List.length_append, List.length_take, List.length_drop, htl]
    omega
  rw [Prod.mk.injEq]
  refine ⟨?_, rfl⟩
  apply state_ext
  · dsimp only
    unfold destroy
    apply List.ext_getElem?
    intro i
    have hR := fun j =>
      rotate_ptr_fst_getElem v.data first last v.size hft hl (by omega) j
    rw [destroyLoop_ptr_getElem _ _ _ _ (by omega) (by rw [hRlen]; omega)
      (by rw [hRlen]; omega) i,
      canon_data_getElem_of_le _ _ _ (by omega), hL2]
    by_cases h1 : i < first
    · rw [if_neg (by omega), hR, if_pos h1, if_pos (by omega),
        List.getElem?_append, if_pos (by rw [List.length_take]; omega),
        List.getElem?_take, if_pos h1, toList_getElem, if_pos (by omega)]
    · by_cases h2 : i < v.size - (last - first)
      · rw [if_neg (by omega), hR, if_neg (by omega), if_pos (by omega),
          if_pos (by omega), List.getElem?_append,
          if_neg (by rw [List.length_take]; omega), List.getElem?_drop,
          toList_getElem, if_pos (by rw [List.length_take]; omega)]
        congr 1
        rw [List.length_take]
        omega
      · by_cases h3 : i < v.size
        · rw [if_pos (by omega), if_neg (by omega), if_pos (by omega)]
        · rw [if_neg (by omega), hR, if_neg (by omega), if_neg (by omega),
            if_neg (by omega), if_neg (by omega)]
          by_cases h4 : i < v.capacity
          · rw [if_pos h4, getElem_dead h (by omega) h4]
          · rw [if_neg h4, List.getElem?_eq_none (by omega)]
  · dsimp only
    rw [canon_size, hL2]
  · rfl

theorem fill_over_canon (L : Buf α) (cap : Nat) (hL : L.length ≤ cap)
    (val : α) :
    fill_n (ptrOps α) (canon L cap).data 0 L.length val =
      (canon (List.replicate L.length (some val)) cap).data := by
  apply List.ext_getElem?
  intro i
  rw [fill_n_ptr_getElem
    (canon L cap).data 0 L.length val i (by rw [canon_data_length _ _ hL]; omega),
    canon_data_getElem_of_le (List.replicate L.length (some val)) cap i
      (by rw [List.length_replicate]; omega),
    List.length_replicate]
  by_cases h1 : i < L.length
  · rw [if_pos (by omega), if_pos h1, List.getElem?_replicate, if_pos h1]
  · rw [if_neg (by omega), if_neg h1,
      canon_data_getElem_of_le _ _ _ hL, if_neg h1]

theorem copy_over_canon (L : Buf α) (cap : Nat) (hL : L.length ≤ cap)
    (src : List α) (hsrc : L.length ≤ src.length) :
    copy_n (ptrOps α) (canon L cap).data src L.length 0 =
      (canon ((src.take L.length).map some) cap).data := by
  have hmid : ((src.take L.length).map some).length = L.length := by
    rw [List.length_map, List.length_take]
    omega
  apply List.ext_getElem?
  intro i
  rw [copy_n_ptr_getElem
    (canon L cap).data src L.length 0 i (by rw [canon_data_length _ _ hL]; omega)
    hsrc,
    canon_data_getElem_of_le ((src.take L.length).map some) cap i (by omega),
    hmid]
  by_cases h1 : i < L.length
  · rw [if_pos (by omega), if_pos h1, List.getElem?_map, List.getElem?_take,
      if_pos h1, Nat.sub_zero]
  · rw [if_neg (by omega), if_neg h1,
      canon_data_getElem_of_le _ _ _ hL, if_neg h1]

theorem assignN_eq [Inhabited α] {v : VecState α} (h : Inv v)
    (count : Nat) (val : α) :
    assignN v count val =
      canon (List.replicate (min count v.capacity) (some val)) v.capacity := by
  have hlen := h.len
  have hsz := h.size_le
  have htl : (toList v).length = v.size := toList_length h
  unfold assignN
  dsimp only
  by_cases hc : count ≤ v.size
  · rw [resize_shrink h hc]
    have hT : ((toList v).take count).length = count := by
      rw [List.length_take]
      omega
    apply state_ext
    · dsimp only
      rw [canon_size, fill_over_canon _ _ (by omega) val, hT,
        show min count v.capacity = count from by omega]
    · dsimp only
      rw [canon_size, canon_size, hT, List.length_replicate]
      omega
    · rfl
  · rw [resize_grow h (by omega)]
    have hT : (toList v ++
        List.replicate (min count v.capacity - v.size) (some default)).length =
        min count v.capacity := by
      rw [List.length_append, htl, List.length_replicate]
      omega
    apply state_ext
    · dsimp only
      rw [canon_size, fill_over_canon _ _ (by omega) val, hT]
    · dsimp only
      rw [canon_size, canon_size, hT, List.length_replicate]
    · rfl

theorem assignRange_eq [Inhabited α] {v : VecState α} (h : Inv v)
    (src : List α) :
    assignRange v src =
      canon ((src.take (min src.length v.capacity)).map some) v.capacity := by
  have hlen := h.len
  have hsz := h.size_le
  have htl : (toList v).length = v.size := toList_length h
  unfold assignRange
  dsimp only
  by_cases hc : src.length ≤ v.size
  · rw [resize_shrink h hc]
    have hT : ((toList v).take src.length).length = src.length := by
      rw [List.length_take]
      omega
    apply state_ext
    · dsimp only
      rw [canon_size, copy_over_canon _ _ (by omega) src (by omega), hT,
        show min src.length v.capacity = src.length from by omega]
    · dsimp only
      rw [canon_size, canon_size, hT, List.length_map, List.length_take]
      omega
    · rfl
  · rw [resize_grow h (by omega)]
    have hT : (toList v ++
        List.replicate (min src.length v.capacity - v.size)
          (some default)).length = min src.length v.capacity := by
      rw [List.length_append, htl, List.length_replicate]
      omega
    apply state_ext
    · dsimp only
      rw [canon_size, copy_over_canon _ _ (by omega) src (by omega), hT]
    · dsimp only
      rw [canon_size, canon_size, hT, List.length_map, List.length_take]
      omega
    · rfl

theorem new_eq_canon (N : Nat) : Vec.new α N = canon [] N := by
  apply state_ext
  · show List.replicate N none = [] ++ List.replicate (N - [].length) none
    rw [List.nil_append, List.length_nil, Nat.sub_zero]
  · rfl
  · rfl

theorem fromRange_eq (src : List α) (N : Nat) :
    fromRange src N = canon ((src.take (min src.length N)).map some) N := by
  have hmid : ((src.take (min src.length N)).map some).length =
      min src.length N := by
    rw [List.length_map, List.length_take]
    omega
  unfold fromRange
  dsimp only
  rw [uninitialized_copy_n_eq_copy_n]
  apply state_ext
  · dsimp only
    apply List.ext_getElem?
    intro i
    rw [copy_n_ptr_getElem _ _ _ _ _
      (by rw [List.length_replicate]; omega) (by omega),
      canon_data_getElem_of_le _ _ _ (by omega), hmid]
    by_cases h1 : i < min src.length N
    · rw [if_pos (by omega), if_pos h1, List.getElem?_map, List.getElem?_take,
        if_pos h1, Nat.sub_zero]
    · rw [if_neg (by omega), if_neg h1, List.getElem?_replicate]
  · dsimp only
    rw [canon_size, hmid]
  · rfl

end Vec

/-! Deque: effect of each operation on the logical view, size, and
bookkeeping indices. -/

namespace Deq

theorem state_ext_deq {d e : DeqState α} (hdata : d.data = e.data)
    (hsize : d.size = e.size) (hhead : d.head = e.head)
    (htail : d.tail = e.tail) (hcap : d.capacity = e.capacity) : d = e := by
  cases d
  cases e
  dsimp only at hdata hsize hhead htail hcap
  rw [hdata, hsize, hhead, htail, hcap]

theorem Inv.len_deq {d : DeqState α} (h : Inv d) : d.data.length = d.capacity :=
  h.1

theorem Inv.word_deq {d : DeqState α} (h : Inv d) : d.capacity < WORD := h.2.1

theorem Inv.cap_pos {d : DeqState α} (h : Inv d) : 0 < d.capacity := h.2.2.1

theorem Inv.size_le_deq {d : DeqState α} (h : Inv d) : d.size ≤ d.capacity :=
  h.2.2.2.1

theorem Inv.head_lt {d : DeqState α} (h : Inv d) : d.head < d.capacity :=
  h.2.2.2.2.1

theorem Inv.tail_lt {d : DeqState α} (h : Inv d) : d.tail < d.capacity :=
  h.2.2.2.2.2.1

theorem Inv.conn {d : DeqState α} (h : Inv d) :
    (d.tail + 1) % d.capacity = (d.head + d.size) % d.capacity :=
  h.2.2.2.2.2.2.1

theorem Inv.live_deq {d : DeqState α} (h : Inv d) :
    ∀ i < d.capacity,
      (((logicalView d.head d.capacity d.data).getD i none).isSome ↔
        i < d.size) :=
  h.2.2.2.2.2.2.2

theorem lv_dead {d : DeqState α} (h : Inv d) {i : Nat} (h1 : d.size ≤ i)
    (h2 : i < d.capacity) :
    (logicalView d.head d.capacity d.data)[i]? = some none := by
  have hl := h.live_deq i h2
  have hg : (logicalView d.head d.capacity d.data)[i]? =
      some ((logicalView d.head d.capacity d.data).getD i none) := by
    rw [List.getD_eq_getElem?_getD,
      List.getElem?_eq_getElem (by rw [lv_length]; omega)]
    rfl
  rw [hg]
  have hns : ¬((logicalView d.head d.capacity d.data).getD i none).isSome :=
    fun hs => absurd (hl.mp hs) (by omega)
  rw [Option.not_isSome_iff_eq_none.mp hns]

theorem lv_live {d : DeqState α} (h : Inv d) {i : Nat} (hi : i < d.size) :
    ∃ x : α, (logicalView d.head d.capacity d.data)[i]? = some (some x) := by
  have hic : i < d.capacity := by have := h.size_le_deq; omega
  have hl := h.live_deq i hic
  have hg : (logicalView d.head d.capacity d.data)[i]? =
      some ((logicalView d.head d.capacity d.data).getD i none) := by
    rw [List.getD_eq_getElem?_getD,
      List.getElem?_eq_getElem (by rw [lv_length]; omega)]
    rfl
  obtain ⟨x, hx⟩ := Option.isSome_iff_exists.mp (hl.mpr hi)
  exact ⟨x, by rw [hg, hx]⟩

theorem toList_length_deq {d : DeqState α} (h : Inv d) :
    (toList d).length = d.size := by
  unfold toList
  rw [List.length_take, lv_length]
  have := h.size_le_deq
  omega

theorem toList_getElem_deq (d : DeqState α) (i : Nat) :
    (toList d)[i]? =
      if i < d.size then (logicalView d.head d.capacity d.data)[i]?
      else none := by
  unfold toList
  rw [List.getElem?_take]

theorem lv_eq_of_inv {d : DeqState α} (h : Inv d) (i : Nat) :
    (logicalView d.head d.capacity d.data)[i]? =
      if i < d.size then (toList d)[i]?
      else if i < d.capacity then some none
      else none := by
  by_cases h1 : i < d.size
  · rw [if_pos h1, toList_getElem_deq, if_pos h1]
  · rw [if_neg h1]
    by_cases h2 : i < d.capacity
    · rw [if_pos h2, lv_dead h (by omega) h2]
    · rw [if_neg h2, lv_getElem_ge _ _ _ _ (by omega)]

theorem toList_all_isSome_deq {d : DeqState α} (h : Inv d) :
    ∀ x ∈ toList d, x.isSome := by
  intro x hx
  obtain ⟨i, hi, hg⟩ := List.getElem_of_mem hx
  have hg? : (toList d)[i]? = some x := by
    rw [List.getElem?_eq_getElem hi, hg]
  rw [toList_getElem_deq] at hg?
  have hil : i < d.size := by
    by_contra hc
    rw [if_neg hc] at hg?
    exact Option.noConfusion hg?
  rw [if_pos hil] at hg?
  obtain ⟨y, hy⟩ := lv_live h hil
  rw [hy] at hg?
  cases hg?
  rfl

theorem increment_index_eq_mod (cap i : Nat) (hi : i < cap) :
    increment_index cap i = (i + 1) % cap := by
  unfold increment_index
  dsimp only
  by_cases h : i + 1 < cap
  · rw [if_pos h, Nat.mod_eq_of_lt h]
  · rw [if_neg h]
    have hic : i + 1 = cap := by omega
    rw [hic, Nat.mod_self]

theorem decrement_index_eq_mod (cap i : Nat) (hi : i < cap) :
    decrement_index cap i = (i + cap - 1) % cap := by
  unfold decrement_index
  by_cases h : i ≠ 0
  · rw [if_pos h]
    have hic : i + cap - 1 = (i - 1) + cap := by omega
    rw [hic, Nat.add_mod_right, Nat.mod_eq_of_lt (by omega)]
  · rw [if_neg h]
    have hi0 : i = 0 := by omega
    rw [hi0, Nat.mod_eq_of_lt (by omega)]
    omega

theorem increment_index_lt (cap i : Nat) (hc : 0 < cap) :
    increment_index cap i < cap := by
  unfold increment_index
  dsimp only
  by_cases h : i + 1 < cap
  · rw [if_pos h]
    exact h
  · rw [if_neg h]
    omega

theorem decrement_index_lt (cap i : Nat) (hc : 0 < cap) (hi : i < cap) :
    decrement_index cap i < cap := by
  unfold decrement_index
  by_cases h : i ≠ 0
  · rw [if_pos h]
    omega
  · rw [if_neg h]
    omega

theorem mod_succ_cancel {a b n : Nat} (h : (a + 1) % n = (b + 1) % n) :
    a % n = b % n :=
  Nat.ModEq.add_right_cancel' 1 h

theorem tail_eq_index_at {d : DeqState α} (h : Inv d) (hpos : d.size ≠ 0) :
    d.tail = index_at d.head d.capacity (d.size - 1) := by
  have hcap := h.cap_pos
  have hsz := h.size_le_deq
  have hh := h.head_lt
  have ht := h.tail_lt
  have h1 : (d.tail + 1) % d.capacity =
      ((d.head + (d.size - 1)) + 1) % d.capacity := by
    rw [h.conn]
    congr 1
    omega
  have h2 := mod_succ_cancel h1
  rw [Nat.mod_eq_of_lt ht] at h2
  rw [index_at_eq_mod _ _ _ hh (by omega)]
  exact h2

theorem incr_tail_eq_index_at {d : DeqState α} (h : Inv d)
    (hlt : d.size < d.capacity) :
    increment_index d.capacity d.tail = index_at d.head d.capacity d.size := by
  rw [increment_index_eq_mod _ _ h.tail_lt,
    index_at_eq_mod _ _ _ h.head_lt hlt]
  exact h.conn

theorem push_back_spec {d : DeqState α} (h : Inv d)
    (hlt : d.size < d.capacity) (value : α) :
    Inv (push_back d value) ∧ (push_back d value).size = d.size + 1 ∧
      (push_back d value).head = d.head ∧
      (push_back d value).tail = increment_index d.capacity d.tail ∧
      (push_back d value).capacity = d.capacity ∧
      toList (push_back d value) = toList d ++ [some value] := by
  have hlen := h.len_deq
  have hcap := h.cap_pos
  have hh := h.head_lt
  have hsz := h.size_le_deq
  have ht := h.tail_lt
  have hlvlen := lv_length d.head d.capacity d.data
  unfold push_back
  rw [if_pos hlt]
  have hlv : logicalView d.head d.capacity
      (d.data.set (increment_index d.capacity d.tail) (some value)) =
      (logicalView d.head d.capacity d.data).set d.size (some value) := by
    rw [incr_tail_eq_index_at h hlt]
    exact lv_set d.head d.capacity d.data d.size _ hh hlen hlt
  refine ⟨?_, rfl, rfl, rfl, rfl, ?_⟩
  · refine ⟨by dsimp only; rw [List.length_set]; exact hlen, h.word_deq, hcap,
      by dsimp only; omega, hh, increment_index_lt _ _ hcap, ?_, ?_⟩
    · show (increment_index d.capacity d.tail + 1) % d.capacity =
        (d.head + (d.size + 1)) % d.capacity
      rw [increment_index_eq_mod _ _ ht, Nat.mod_add_mod]
      have := Nat.ModEq.add_right 1 h.conn
      unfold Nat.ModEq at this
      calc (d.tail + 1 + 1) % d.capacity
          = (d.head + d.size + 1) % d.capacity := this
        _ = (d.head + (d.size + 1)) % d.capacity := by rw [Nat.add_assoc]
    · intro i hi
      show (((logicalView d.head d.capacity
        (d.data.set (increment_index d.capacity d.tail)
          (some value))).getD i none).isSome ↔ i < d.size + 1)
      rw [hlv]
      by_cases his : d.size = i
      · rw [← his, getD_set_self _ _ _ (by omega)]
        exact iff_of_true (by simp) (by omega)
      · rw [getD_set_ne _ _ _ _ his, h.live_deq i hi]
        omega
  · show (logicalView d.head d.capacity
      (d.data.set (increment_index d.capacity d.tail)
        (some value))).take (d.size + 1) = toList d ++ [some value]
    rw [hlv]
    apply List.ext_getElem?
    intro i
    rw [List.getElem?_take, List.getElem?_append, toList_length_deq h]
    by_cases h1 : i < d.size
    · rw [if_pos (by omega), List.getElem?_set_ne (by omega), if_pos h1,
        toList_getElem_deq, if_pos h1]
    · by_cases h2 : i = d.size
      · rw [if_pos (by omega), if_neg (by omega)]
        have hz : i - d.size = 0 := by omega
        rw [hz, List.getElem?_cons_zero, h2,
          List.getElem?_set_self (by omega)]
      · rw [if_neg (by omega), if_neg (by omega)]
        have hz : ∃ m, i - d.size = m + 1 := ⟨i - d.size - 1, by omega⟩
        obtain ⟨m, hm⟩ := hz
        rw [hm, List.getElem?_cons_succ, List.getElem?_eq_none (by simp)]

theorem pop_back_spec {d : DeqState α} (h : Inv d) (hpos : d.size ≠ 0) :
    Inv (pop_back d) ∧ (pop_back d).size = d.size - 1 ∧
      (pop_back d).head = d.head ∧
      (pop_back d).tail = decrement_index d.capacity d.tail ∧
      (pop_back d).capacity = d.capacity ∧
      toList (pop_back d) = (toList d).take (d.size - 1) := by
  have hlen := h.len_deq
  have hcap := h.cap_pos
  have hh := h.head_lt
  have hsz := h.size_le_deq
  have ht := h.tail_lt
  have hlvlen := lv_length d.head d.capacity d.data
  unfold pop_back
  rw [if_pos hpos]
  have htix := tail_eq_index_at h hpos
  have hlv : logicalView d.head d.capacity (d.data.set d.tail none) =
      (logicalView d.head d.capacity d.data).set (d.size - 1) none := by
    rw [htix]
    exact lv_set d.head d.capacity d.data (d.size - 1) none hh hlen (by omega)
  refine ⟨?_, rfl, rfl, rfl, rfl, ?_⟩
  · refine ⟨by dsimp only; rw [List.length_set]; exact hlen, h.word_deq, hcap,
      by dsimp only; omega, hh, decrement_index_lt _ _ hcap ht, ?_, ?_⟩
    · show (decrement_index d.capacity d.tail + 1) % d.capacity =
        (d.head + (d.size - 1)) % d.capacity
      rw [decrement_index_eq_mod _ _ ht, Nat.mod_add_mod]
      have harg : d.tail + d.capacity - 1 + 1 = d.tail + d.capacity := by
        omega
      rw [harg, Nat.add_mod_right, Nat.mod_eq_of_lt ht, htix,
        index_at_eq_mod _ _ _ hh (by omega)]
    · intro i hi
      show (((logicalView d.head d.capacity
        (d.data.set d.tail none)).getD i none).isSome ↔ i < d.size - 1)
      rw [hlv]
      by_cases his : d.size - 1 = i
      · rw [← his, getD_set_self _ _ _ (by omega)]
        simp only [Option.isSome_none]
        exact iff_of_false (by simp) (by omega)
      · rw [getD_set_ne _ _ _ _ his, h.live_deq i hi]
        omega
  · show (logicalView d.head d.capacity
      (d.data.set d.tail none)).take (d.size - 1) = (toList d).take (d.size - 1)
    rw [hlv]
    apply List.ext_getElem?
    intro i
    rw [List.getElem?_take, List.getElem?_take]
    by_cases h1 : i < d.size - 1
    · rw [if_pos h1, if_pos h1, List.getElem?_set_ne (by omega),
        toList_getElem_deq, if_pos (by omega)]
    · rw [if_neg h1, if_neg h1]

theorem lv_push_front (head cap : Nat) (data : Buf α) (value : α)
    (hh : head < cap) (hlen : data.length = cap) :
    logicalView (decrement_index cap head) cap
      (data.set (decrement_index cap head) (some value)) =
      some value :: (logicalView head cap data).take (cap - 1) := by
  have hcap : 0 < cap := by omega
  have hh' : decrement_index cap head < cap := decrement_index_lt _ _ hcap hh
  apply List.ext_getElem?
  intro i
  by_cases hic : i < cap
  · rw [lv_getElem _ _ _ _ hic, List.getElem?_cons]
    by_cases hi0 : i = 0
    · rw [if_pos hi0]
      have hidx : index_at (decrement_index cap head) cap i =
          decrement_index cap head := by
        rw [index_at_eq_mod _ _ _ hh' hic, hi0, Nat.add_zero,
          Nat.mod_eq_of_lt hh']
      rw [hidx, getD_set_self _ _ _ (by omega)]
    · rw [if_neg hi0]
      have hidx : index_at (decrement_index cap head) cap i =
          index_at head cap (i - 1) := by
        rw [index_at_eq_mod _ _ _ hh' hic, index_at_eq_mod _ _ _ hh (by omega),
          decrement_index_eq_mod _ _ hh, Nat.mod_add_mod]
        have harg : head + cap - 1 + i = (head + (i - 1)) + cap := by omega
        rw [harg, Nat.add_mod_right]
      rw [hidx]
      have hne : decrement_index cap head ≠ index_at head cap (i - 1) := by
        intro hc
        have h1 : decrement_index cap head = index_at head cap (cap - 1) := by
          rw [index_at_eq_mod _ _ _ hh (by omega),
            decrement_index_eq_mod _ _ hh]
          congr 1
          omega
        rw [h1] at hc
        have := index_at_inj head cap (cap - 1) (i - 1) hh (by omega)
          (by omega) hc
        omega
      rw [getD_set_ne _ _ _ _ hne, List.getElem?_take, if_pos (by omega),
        lv_getElem _ _ _ _ (by omega)]
  · rw [lv_getElem_ge _ _ _ _ (by omega), List.getElem?_eq_none]
    rw [List.length_cons, List.length_take, lv_length]
    omega

theorem lv_pop_front (head cap : Nat) (data : Buf α) (hh : head < cap)
    (hlen : data.length = cap) :
    logicalView (increment_index cap head) cap (data.set head none) =
      (logicalView head cap data).drop 1 ++ [none] := by
  have hcap : 0 < cap := by omega
  have hh' := increment_index_lt cap head hcap
  have hdlen : ((logicalView head cap data).drop 1).length = cap - 1 := by
    rw [List.length_drop, lv_length]
  apply List.ext_getElem?
  intro i
  by_cases hic : i < cap
  · rw [lv_getElem _ _ _ _ hic, List.getElem?_append]
    by_cases h1 : i < cap - 1
    · rw [if_pos (by omega), List.getElem?_drop]
      have hidx : index_at (increment_index cap head) cap i =
          index_at head cap (i + 1) := by
        rw [index_at_eq_mod _ _ _ hh' hic, index_at_eq_mod _ _ _ hh (by omega),
          increment_index_eq_mod _ _ hh, Nat.mod_add_mod]
        congr 1
        omega
      have hne : head ≠ index_at head cap (i + 1) := by
        intro hc
        have h0 : index_at head cap 0 = head := by
          rw [index_at_eq_mod _ _ _ hh (by omega), Nat.add_zero,
            Nat.mod_eq_of_lt hh]
        have := index_at_inj head cap 0 (i + 1) hh (by omega) (by omega)
          (by rw [h0]; exact hc)
        omega
      rw [hidx, getD_set_ne _ _ _ _ hne, lv_getElem _ _ _ _ (by omega),
        Nat.add_comm 1 i]
    · rw [if_neg (by omega)]
      have hidx : index_at (increment_index cap head) cap i = head := by
        rw [index_at_eq_mod _ _ _ hh' hic, increment_index_eq_mod _ _ hh,
          Nat.mod_add_mod]
        have harg : head + 1 + i = head + cap := by omega
        rw [harg, Nat.add_mod_right, Nat.mod_eq_of_lt hh]
      rw [hidx, getD_set_self _ _ _ (by omega)]
      have hz : i - ((logicalView head cap data).drop 1).length = 0 := by
        rw [hdlen]
        omega
      rw [hz, List.getElem?_cons_zero]
  · rw [lv_getElem_ge _ _ _ _ (by omega), List.getElem?_eq_none]
    rw [List.length_append, hdlen, List.length_cons, List.length_nil]
    omega

theorem push_front_spec {d : DeqState α} (h : Inv d)
    (hlt : d.size < d.capacity) (value : α) :
    Inv (push_front d value) ∧ (push_front d value).size = d.size + 1 ∧
      (push_front d value).head = decrement_index d.capacity d.head ∧
      (push_front d value).tail = d.tail ∧
      (push_front d value).capacity = d.capacity ∧
      toList (push_front d value) = some value :: toList d := by
  have hlen := h.len_deq
  have hcap := h.cap_pos
  have hh := h.head_lt
  have hsz := h.size_le_deq
  have ht := h.tail_lt
  have hlvp := lv_push_front d.head d.capacity d.data value hh hlen
  unfold push_front
  rw [if_pos hlt]
  refine ⟨?_, rfl, rfl, rfl, rfl, ?_⟩
  · refine ⟨by dsimp only; rw [List.length_set]; exact hlen, h.word_deq, hcap,
      by dsimp only; omega, decrement_index_lt _ _ hcap hh, ht, ?_, ?_⟩
    · show (d.tail + 1) % d.capacity =
        (decrement_index d.capacity d.head + (d.size + 1)) % d.capacity
      rw [decrement_index_eq_mod _ _ hh, Nat.mod_add_mod]
      have harg : d.head + d.capacity - 1 + (d.size + 1) =
          (d.head + d.size) + d.capacity := by omega
      rw [harg, Nat.add_mod_right]
      exact h.conn
    · intro i hi
      have hic : i < d.capacity := hi
      show (((logicalView (decrement_index d.capacity d.head) d.capacity
        (d.data.set (decrement_index d.capacity d.head)
          (some value))).getD i none).isSome ↔ i < d.size + 1)
      rw [hlvp, List.getD_eq_getElem?_getD, List.getElem?_cons]
      by_cases hi0 : i = 0
      · rw [if_pos hi0]
        exact iff_of_true (by simp) (by omega)
      · rw [if_neg hi0, List.getElem?_take, if_pos (by omega),
          ← List.getD_eq_getElem?_getD, h.live_deq (i - 1) (by omega)]
        omega
  · show (logicalView (decrement_index d.capacity d.head) d.capacity
      (d.data.set (decrement_index d.capacity d.head)
        (some value))).take (d.size + 1) = some value :: toList d
    rw [hlvp, List.take_succ_cons, List.take_take]
    have hmin : min d.size (d.capacity - 1) = d.size := by omega
    rw [hmin]
    rfl

theorem pop_front_spec {d : DeqState α} (h : Inv d) (hpos : d.size ≠ 0) :
    Inv (pop_front d) ∧ (pop_front d).size = d.size - 1 ∧
      (pop_front d).head = increment_index d.capacity d.head ∧
      (pop_front d).tail = d.tail ∧
      (pop_front d).capacity = d.capacity ∧
      toList (pop_front d) = (toList d).drop 1 := by
  have hlen := h.len_deq
  have hcap := h.cap_pos
  have hh := h.head_lt
  have hsz := h.size_le_deq
  have ht := h.tail_lt
  have hpop := lv_pop_front d.head d.capacity d.data hh hlen
  unfold pop_front
  rw [if_pos hpos]
  refine ⟨?_, rfl, rfl, rfl, rfl, ?_⟩
  · refine ⟨by dsimp only; rw [List.length_set]; exact hlen, h.word_deq, hcap,
      by dsimp only; omega, increment_index_lt _ _ hcap, ht, ?_, ?_⟩
    · show (d.tail + 1) % d.capacity =
        (increment_index d.capacity d.head + (d.size - 1)) % d.capacity
      rw [increment_index_eq_mod _ _ hh, Nat.mod_add_mod]
      have harg : d.head + 1 + (d.size - 1) = d.head + d.size := by omega
      rw [harg]
      exact h.conn
    · intro i hi
      have hic : i < d.capacity := hi
      show (((logicalView (increment_index d.capacity d.head) d.capacity
        (d.data.set d.head none)).getD i none).isSome ↔ i < d.size - 1)
      rw [hpop, List.getD_eq_getElem?_getD, List.getElem?_append]
      by_cases h1 : i < d.capacity - 1
      · rw [if_pos (by rw [List.length_drop, lv_length]; omega),
          List.getElem?_drop, ← List.getD_eq_getElem?_getD,
          h.live_deq (1 + i) (by omega)]
        omega
      · rw [if_neg (by rw [List.length_drop, lv_length]; omega)]
        have hz : i -
            ((logicalView d.head d.capacity d.data).drop 1).length = 0 := by
          rw [List.length_drop, lv_length]
          omega
        rw [hz, List.getElem?_cons_zero]
        exact iff_of_false (by simp) (by omega)
  · show (logicalView (increment_index d.capacity d.head) d.capacity
      (d.data.set d.head none)).take (d.size - 1) = (toList d).drop 1
    rw [hpop, List.take_append_of_le_length
      (by rw [List.length_drop, lv_length]; omega)]
    unfold toList
    rw [List.drop_take]

theorem shrinkLoop_spec (fuel : Nat) {d : DeqState α} (h : Inv d)
    (count : Nat) (hcnt : count ≤ d.size) (hfuel : d.size - count < fuel) :
    Inv (shrinkLoop fuel d count) ∧ (shrinkLoop fuel d count).size = count ∧
      (shrinkLoop fuel d count).head = d.head ∧
      (shrinkLoop fuel d count).capacity = d.capacity ∧
      toList (shrinkLoop fuel d count) = (toList d).take count := by
  induction fuel generalizing d with
  | zero => omega
  | succ fuel ih =>
    rw [shrinkLoop]
    by_cases hc : count < d.size
    · rw [if_pos hc]
      obtain ⟨hI, hs, hh, _, hcap, htl⟩ := pop_back_spec h (by omega)
      obtain ⟨iI, is_, ih_, icap, itl⟩ :=
        ih hI (by rw [hs]; omega) (by rw [hs]; omega)
      refine ⟨iI, is_, by rw [ih_, hh], by rw [icap, hcap], ?_⟩
      rw [itl, htl, List.take_take]
      congr 1
      omega
    · rw [if_neg hc]
      have hcs : count = d.size := by omega
      refine ⟨h, by omega, rfl, rfl, ?_⟩
      rw [hcs, ← toList_length_deq h, List.take_length]

theorem growLoop_spec (fuel : Nat) {d : DeqState α} (h : Inv d)
    (count : Nat) (v : α) (hcnt : d.size ≤ count) (hcap : count ≤ d.capacity)
    (hfuel : count - d.size < fuel) :
    Inv (growLoop fuel d count v) ∧ (growLoop fuel d count v).size = count ∧
      (growLoop fuel d count v).head = d.head ∧
      (growLoop fuel d count v).capacity = d.capacity ∧
      toList (growLoop fuel d count v) =
        toList d ++ List.replicate (count - d.size) (some v) := by
  induction fuel generalizing d with
  | zero => omega
  | succ fuel ih =>
    rw [growLoop]
    by_cases hc : count > d.size
    · rw [if_pos hc]
      obtain ⟨hI, hs, hh, _, hcap', htl⟩ := push_back_spec h (by omega) v
      have h1 : (push_back d v).size ≤ count := by rw [hs]; omega
      have h2 : count ≤ (push_back d v).capacity := by rw [hcap']; omega
      have h3 : count - (push_back d v).size < fuel := by rw [hs]; omega
      obtain ⟨iI, is_, ih_, icap, itl⟩ := ih hI h1 h2 h3
      refine ⟨iI, is_, by rw [ih_, hh], by rw [icap, hcap'], ?_⟩
      rw [itl, htl, hs, List.append_assoc]
      congr 1
      have harg : count - d.size = (count - (d.size + 1)) + 1 := by omega
      rw [harg, List.replicate_succ, List.singleton_append]
    · rw [if_neg hc]
      have hcs : count = d.size := by omega
      refine ⟨h, by omega, rfl, rfl, ?_⟩
      rw [hcs, Nat.sub_self, List.replicate_zero, List.append_nil]

theorem resize_spec_shrink [Inhabited α] {d : DeqState α} (h : Inv d)
    {count : Nat} (hcnt : count ≤ d.size) :
    Inv (resize d count) ∧ (resize d count).size = count ∧
      (resize d count).head = d.head ∧
      (resize d count).capacity = d.capacity ∧
      toList (resize d count) = (toList d).take count := by
  unfold resize
  obtain ⟨hI, hs, hh, hcap, htl⟩ :=
    shrinkLoop_spec (d.size + 1) h count hcnt (by omega)
  obtain ⟨iI, is_, ih_, icap, itl⟩ :=
    growLoop_spec (d.capacity + count + 1) hI count default (by omega)
      (by rw [hcap]; have := h.size_le_deq; omega) (by rw [hs]; omega)
  refine ⟨iI, by rw [is_], by rw [ih_, hh], by rw [icap, hcap], ?_⟩
  rw [itl, htl, hs, Nat.sub_self, List.replicate_zero, List.append_nil]

theorem resize_spec_grow [Inhabited α] {d : DeqState α} (h : Inv d)
    {count : Nat} (hcnt : d.size ≤ count) (hle : count ≤ d.capacity) :
    Inv (resize d count) ∧ (resize d count).size = count ∧
      (resize d count).head = d.head ∧
      (resize d count).capacity = d.capacity ∧
      toList (resize d count) =
        toList d ++ List.replicate (count - d.size) (some default) := by
  unfold resize
  have hsh : shrinkLoop (d.size + 1) d count = d := by
    rw [shrinkLoop, if_neg (by omega)]
  rw [hsh]
  exact growLoop_spec (d.capacity + count + 1) h count default hcnt hle
    (by omega)

theorem resizeVal_spec_shrink {d : DeqState α} (h : Inv d) {count : Nat}
    (hcnt : count ≤ d.size) (value : α) :
    Inv (resizeVal d count value) ∧ (resizeVal d count value).size = count ∧
      (resizeVal d count value).head = d.head ∧
      (resizeVal d count value).capacity = d.capacity ∧
      toList (resizeVal d count value) = (toList d).take count := by
  unfold resizeVal
  obtain ⟨hI, hs, hh, hcap, htl⟩ :=
    shrinkLoop_spec (d.size + 1) h count hcnt (by omega)
  obtain ⟨iI, is_, ih_, icap, itl⟩ :=
    growLoop_spec (d.capacity + count + 1) hI count value (by omega)
      (by rw [hcap]; have := h.size_le_deq; omega) (by rw [hs]; omega)
  refine ⟨iI, by rw [is_], by rw [ih_, hh], by rw [icap, hcap], ?_⟩
  rw [itl, htl, hs, Nat.sub_self, List.replicate_zero, List.append_nil]

theorem resizeVal_spec_grow {d : DeqState α} (h : Inv d) {count : Nat}
    (hcnt : d.size ≤ count) (hle : count ≤ d.capacity) (value : α) :
    Inv (resizeVal d count value) ∧ (resizeVal d count value).size = count ∧
      (resizeVal d count value).head = d.head ∧
      (resizeVal d count value).capacity = d.capacity ∧
      toList (resizeVal d count value) =
        toList d ++ List.replicate (count - d.size) (some value) := by
  unfold resizeVal
  have hsh : shrinkLoop (d.size + 1) d count = d := by
    rw [shrinkLoop, if_neg (by omega)]
  rw [hsh]
  exact growLoop_spec (d.capacity + count + 1) h count value hcnt hle
    (by omega)

theorem clear_spec [Inhabited α] {d : DeqState α} (h : Inv d) :
    Inv (clear d) ∧ (clear d).size = 0 ∧ (clear d).capacity = d.capacity ∧
      toList (clear d) = [] := by
  unfold clear
  have h0 : (0 : Nat) ≤ d.size := by omega
  obtain ⟨hI, hs, _, hcap, htl⟩ := resize_spec_shrink h h0
  exact ⟨hI, hs, hcap, by rw [htl, List.take_zero]⟩

end Deq

/-! Closure of the all-slots-live property under the list operations the
containers perform. -/

theorem allSome_append {L1 L2 : Buf α} (h1 : ∀ x ∈ L1, x.isSome)
    (h2 : ∀ x ∈ L2, x.isSome) : ∀ x ∈ L1 ++ L2, x.isSome := by
  intro x hx
  rcases List.mem_append.mp hx with hm | hm
  · exact h1 x hm
  · exact h2 x hm

theorem allSome_take {L : Buf α} (n : Nat) (h1 : ∀ x ∈ L, x.isSome) :
    ∀ x ∈ L.take n, x.isSome :=
  fun x hx => h1 x ((List.take_sublist n L).subset hx)

theorem allSome_drop {L : Buf α} (n : Nat) (h1 : ∀ x ∈ L, x.isSome) :
    ∀ x ∈ L.drop n, x.isSome :=
  fun x hx => h1 x ((List.drop_sublist n L).subset hx)

theorem allSome_replicate (n : Nat) (v : α) :
    ∀ x ∈ List.replicate n (some v), x.isSome := by
  intro x hx
  rw [List.eq_of_mem_replicate hx]
  rfl

theorem allSome_map (src : List α) : ∀ x ∈ src.map some, x.isSome := by
  intro x hx
  obtain ⟨y, _, hy⟩ := List.mem_map.mp hx
  rw [← hy]
  rfl

theorem allSome_cons {L : Buf α} (v : α) (h1 : ∀ x ∈ L, x.isSome) :
    ∀ x ∈ some v :: L, x.isSome := by
  intro x hx
  rcases List.mem_cons.mp hx with hm | hm
  · rw [hm]
    rfl
  · exact h1 x hm

theorem allSome_nil : ∀ x ∈ ([] : Buf α), x.isSome := by
  intro x hx
  cases hx

namespace Deq


/-- Packaging: replacing the buffer of an invariant-satisfying deque with one
whose logical view is a live content list padded with raw slots yields an
invariant-satisfying deque whose content is that list. -/
theorem inv_of_lv_char {d1 : DeqState α} {nd : Buf α} (L : Buf α)
    (hI1 : Inv d1) (hndlen : nd.length = d1.capacity)
    (hsome : ∀ x ∈ L, x.isSome) (hsize : d1.size = L.length)
    (hlv : ∀ i, (logicalView d1.head d1.capacity nd)[i]? =
      if i < L.length then L[i]?
      else if i < d1.capacity then some none
      else none) :
    Inv { d1 with data := nd } ∧ toList { d1 with data := nd } = L := by
  have hszle := hI1.size_le_deq
  constructor
  · refine ⟨hndlen, hI1.word_deq, hI1.cap_pos, hszle, hI1.head_lt, hI1.tail_lt,
      hI1.conn, fun i hi => ?_⟩
    have hic : i < d1.capacity := hi
    dsimp only
    rw [List.getD_eq_getElem?_getD, hlv i]
    by_cases h1 : i < L.length
    · rw [if_pos h1, List.getElem?_eq_getElem (by omega)]
      have hmem : L[i] ∈ L := List.getElem_mem (by omega)
      simp only [Option.getD_some]
      exact iff_of_true (hsome _ hmem) (by omega)
    · rw [if_neg h1, if_pos hic]
      exact iff_of_false (by simp) (by omega)
  · apply List.ext_getElem?
    intro i
    unfold toList
    dsimp only
    rw [List.getElem?_take]
    by_cases h1 : i < L.length
    · rw [if_pos (by omega), hlv i, if_pos h1]
    · rw [if_neg (by omega), List.getElem?_eq_none (by omega)]

theorem insertN_full_deq {d : DeqState α} [Inhabited α]
    (hlt : ¬d.size < d.capacity) (pos count : Nat) (val : α) :
    insertN d pos count val = (d, pos) := by
  unfold insertN
  rw [if_neg hlt]

theorem insertN_spec [Inhabited α] {d : DeqState α} (h : Inv d) {pos : Nat}
    (count : Nat) (hpos : pos ≤ d.size) (hlt : d.size < d.capacity)
    (val : α) :
    Inv (insertN d pos count val).1 ∧
      (insertN d pos count val).1.size =
        d.size + min count (d.capacity - d.size) ∧
      (insertN d pos count val).1.capacity = d.capacity ∧
      toList (insertN d pos count val).1 =
        (toList d).take pos ++
          List.replicate (min count (d.capacity - d.size)) (some val) ++
          (toList d).drop pos ∧
      (insertN d pos count val).2 = pos := by
  have hsz := h.size_le_deq
  have htlL : (toList d).length = d.size := toList_length_deq h
  unfold insertN
  rw [if_pos hlt]
  dsimp only
  set k := min count (d.capacity - d.size) with hk
  have hc1 : d.size ≤ d.size + k := by omega
  have hc2 : d.size + k ≤ d.capacity := by omega
  obtain ⟨hI1, hs1, hh1, hcap1, htl1⟩ := resize_spec_grow h hc1 hc2
  have hadd : d.size + k - d.size = k := by omega
  rw [hadd] at htl1
  set r1 := resize d (d.size + k) with hr1
  have hh1lt : r1.head < r1.capacity := hI1.head_lt
  have hlen1 : r1.data.length = r1.capacity := hI1.len_deq
  have hdd : distance (deqOps r1.head r1.capacity α) r1.data 0 pos = pos := by
    unfold distance
    rw [hlen1, hcap1]
    rw [distanceLoop_of_inc_succ (fun p => rfl) (d.capacity + 1) 0 pos
      (by omega) (by omega), Nat.sub_zero]
  rw [hdd]
  have hsub : d.size + k - k = d.size := by omega
  set nd := fill_n (deqOps r1.head r1.capacity α)
    (rotate (revDeqOps r1.head r1.capacity α) r1.data r1.size (r1.size - k)
      pos).1 pos k val with hnd
  rw [hs1, hsub] at hnd
  have hrotlen : (rotate (revDeqOps r1.head r1.capacity α) r1.data
      (d.size + k) d.size pos).1.length = r1.capacity := by
    rw [rotate_fst_length (revDeqOps_spl _ _), hlen1]
  have hndlen : nd.length = r1.capacity := by
    rw [hnd, fill_n_length (deqOps_spl _ _), hrotlen]
  have hlvnd : logicalView r1.head r1.capacity nd =
      fill_n (ptrOps α)
        (rotate (revPtrOps α) (logicalView r1.head r1.capacity r1.data)
          (d.size + k) d.size pos).1 pos k val := by
    rw [hnd, fill_n_deq_comm _ _ _ _ _ _ hh1lt hrotlen (by omega),
      rotate_revDeq_comm_fst _ _ _ _ _ _ hh1lt hlen1 hpos (by omega)
        (by omega)]
  have hlv1 : ∀ j, (logicalView r1.head r1.capacity r1.data)[j]? =
      if j < d.size + k
      then (toList d ++ List.replicate k (some default))[j]?
      else if j < r1.capacity then some none else none := by
    intro j
    rw [lv_eq_of_inv hI1 j, hs1, htl1]
  have hRlen : (rotate (revPtrOps α)
      (logicalView r1.head r1.capacity r1.data) (d.size + k) d.size
      pos).1.length = r1.capacity := by
    rw [rotate_fst_length revPtrOps_spl, lv_length]
  have hR := fun j => rotate_revPtr_fst_getElem
    (logicalView r1.head r1.capacity r1.data) (d.size + k) d.size pos hpos
    (by omega) (by rw [lv_length]; omega) j
  have hL2len : ((toList d).take pos ++ List.replicate k (some val) ++
      (toList d).drop pos).length = d.size + k := by
    rw [List.length_append, List.length_append, List.length_take,
      List.length_replicate, List.length_drop, htlL]
    omega
  have hlvF : ∀ i, (logicalView r1.head r1.capacity nd)[i]? =
      if i < ((toList d).take pos ++ List.replicate k (some val) ++
        (toList d).drop pos).length
      then ((toList d).take pos ++ List.replicate k (some val) ++
        (toList d).drop pos)[i]?
      else if i < r1.capacity then some none
      else none := by
    intro i
    rw [hL2len, hlvnd,
      fill_n_ptr_getElem _ _ _ _ _ (by rw [hRlen]; omega)]
    by_cases h1 : i < pos
    · rw [if_neg (by omega), hR i, if_pos h1, hlv1 i, if_pos (by omega),
        List.getElem?_append, if_pos (by omega), if_pos (by omega),
        List.getElem?_append,
        if_pos (by rw [List.length_append, List.length_take,
          List.length_replicate]; omega),
        List.getElem?_append, if_pos (by rw [List.length_take]; omega),
        List.getElem?_take, if_pos h1]
    · by_cases h2 : i < pos + k
      · rw [if_pos (by omega), if_pos (by omega), List.getElem?_append,
          if_pos (by rw [List.length_append, List.length_take,
            List.length_replicate]; omega),
          List.getElem?_append, if_neg (by rw [List.length_take]; omega),
          List.getElem?_replicate,
          if_pos (by rw [List.length_take]; omega)]
      · rw [if_neg (by omega)]
        by_cases h3 : i < d.size + k
        · rw [hR i, hadd, if_neg (by omega), if_neg (by omega),
            if_pos (by omega), hlv1 (i - k), if_pos (by omega),
            List.getElem?_append, if_pos (by omega), if_pos (by omega),
            List.getElem?_append,
            if_neg (by rw [List.length_append, List.length_take,
              List.length_replicate]; omega),
            List.getElem?_drop]
          have harg : pos + (i - ((toList d).take pos ++
              List.replicate k (some val)).length) = i - k := by
            rw [List.length_append, List.length_take, List.length_replicate]
            omega
          rw [harg]
        · rw [hR i, if_neg (by omega), if_neg (by omega), if_neg (by omega),
            hlv1 i, if_neg (by omega), if_neg h3]
  obtain ⟨hIF, htlF⟩ := inv_of_lv_char
    ((toList d).take pos ++ List.replicate k (some val) ++ (toList d).drop pos)
    hI1 hndlen
    (allSome_append (allSome_append (allSome_take _ (toList_all_isSome_deq h))
      (allSome_replicate _ _)) (allSome_drop _ (toList_all_isSome_deq h)))
    (by rw [hs1, hL2len]) hlvF
  exact ⟨hIF, hs1, hcap1, htlF, rfl⟩

theorem insert1_full_deq {d : DeqState α} [Inhabited α]
    (hlt : ¬d.size < d.capacity) (pos : Nat) (val : α) :
    insert1 d pos val = (d, pos) := by
  unfold insert1
  rw [if_neg hlt]

theorem insert1_eq_insertN [Inhabited α] (d : DeqState α) (pos : Nat)
    (val : α) : insert1 d pos val = insertN d pos 1 val := by
  unfold insert1 insertN
  by_cases h : d.size < d.capacity
  · rw [if_pos h, if_pos h]
    dsimp only
    rw [show min 1 (d.capacity - d.size) = 1 from by omega]
    rfl
  · rw [if_neg h, if_neg h]

theorem insert1_spec [Inhabited α] {d : DeqState α} (h : Inv d) {pos : Nat}
    (hpos : pos ≤ d.size) (hlt : d.size < d.capacity) (val : α) :
    Inv (insert1 d pos val).1 ∧ (insert1 d pos val).1.size = d.size + 1 ∧
      (insert1 d pos val).1.capacity = d.capacity ∧
      toList (insert1 d pos val).1 =
        (toList d).take pos ++ some val :: (toList d).drop pos ∧
      (insert1 d pos val).2 = pos := by
  rw [insert1_eq_insertN]
  obtain ⟨hI, hs, hc, htl, hit⟩ := insertN_spec h 1 hpos hlt val
  have hm : min 1 (d.capacity - d.size) = 1 := by omega
  rw [hm] at hs htl
  refine ⟨hI, by rw [hs], hc, ?_, hit⟩
  rw [htl, List.append_assoc]
  rfl

theorem insertRange_full_deq {d : DeqState α} [Inhabited α]
    (hlt : ¬d.size < d.capacity) (pos : Nat) (src : List α) :
    insertRange d pos src = (d, pos) := by
  unfold insertRange
  rw [if_neg hlt]

theorem insertRange_spec [Inhabited α] {d : DeqState α} (h : Inv d)
    {pos : Nat} (hpos : pos ≤ d.size) (hlt : d.size < d.capacity)
    (src : List α) :
    Inv (insertRange d pos src).1 ∧
      (insertRange d pos src).1.size =
        d.size + min src.length (d.capacity - d.size) ∧
      (insertRange d pos src).1.capacity = d.capacity ∧
      toList (insertRange d pos src).1 =
        (toList d).take pos ++
          (src.take (min src.length (d.capacity - d.size))).map some ++
          (toList d).drop pos ∧
      (insertRange d pos src).2 = pos := by
  have hsz := h.size_le_deq
  have htlL : (toList d).length = d.size := toList_length_deq h
  unfold insertRange
  rw [if_pos hlt]
  dsimp only
  set k := min src.length (d.capacity - d.size) with hk
  have hksrc : k ≤ src.length := by omega
  have hc1 : d.size ≤ d.size + k := by omega
  have hc2 : d.size + k ≤ d.capacity := by omega
  obtain ⟨hI1, hs1, hh1, hcap1, htl1⟩ := resize_spec_grow h hc1 hc2
  have hadd : d.size + k - d.size = k := by omega
  rw [hadd] at htl1
  set r1 := resize d (d.size + k) with hr1
  have hh1lt : r1.head < r1.capacity := hI1.head_lt
  have hlen1 : r1.data.length = r1.capacity := hI1.len_deq
  have hdd : distance (deqOps r1.head r1.capacity α) r1.data 0 pos = pos := by
    unfold distance
    rw [hlen1, hcap1]
    rw [distanceLoop_of_inc_succ (fun p => rfl) (d.capacity + 1) 0 pos
      (by omega) (by omega), Nat.sub_zero]
  rw [hdd]
  have hsub : d.size + k - k = d.size := by omega
  set nd := copy_n (deqOps r1.head r1.capacity α)
    (rotate (revDeqOps r1.head r1.capacity α) r1.data r1.size (r1.size - k)
      pos).1 src k pos with hnd
  rw [hs1, hsub] at hnd
  have hrotlen : (rotate (revDeqOps r1.head r1.capacity α) r1.data
      (d.size + k) d.size pos).1.length = r1.capacity := by
    rw [rotate_fst_length (revDeqOps_spl _ _), hlen1]
  have hndlen : nd.length = r1.capacity := by
    rw [hnd, copy_n_length (deqOps_spl _ _), hrotlen]
  have hlvnd : logicalView r1.head r1.capacity nd =
      copy_n (ptrOps α)
        (rotate (revPtrOps α) (logicalView r1.head r1.capacity r1.data)
          (d.size + k) d.size pos).1 src k pos := by
    rw [hnd, copy_n_deq_comm _ _ _ _ _ _ hh1lt hrotlen (by omega),
      rotate_revDeq_comm_fst _ _ _ _ _ _ hh1lt hlen1 hpos (by omega)
        (by omega)]
  have hlv1 : ∀ j, (logicalView r1.head r1.capacity r1.data)[j]? =
      if j < d.size + k
      then (toList d ++ List.replicate k (some default))[j]?
      else if j < r1.capacity then some none else none := by
    intro j
    rw [lv_eq_of_inv hI1 j, hs1, htl1]
  have hRlen : (rotate (revPtrOps α)
      (logicalView r1.head r1.capacity r1.data) (d.size + k) d.size
      pos).1.length = r1.capacity := by
    rw [rotate_fst_length revPtrOps_spl, lv_length]
  have hR := fun j => rotate_revPtr_fst_getElem
    (logicalView r1.head r1.capacity r1.data) (d.size + k) d.size pos hpos
    (by omega) (by rw [lv_length]; omega) j
  have hL2len : ((toList d).take pos ++ (src.take k).map some ++
      (toList d).drop pos).length = d.size + k := by
    rw [List.length_append, List.length_append, List.length_take,
      List.length_map, List.length_take, List.length_drop, htlL]
    omega
  have hlvF : ∀ i, (logicalView r1.head r1.capacity nd)[i]? =
      if i < ((toList d).take pos ++ (src.take k).map some ++
        (toList d).drop pos).length
      then ((toList d).take pos ++ (src.take k).map some ++
        (toList d).drop pos)[i]?
      else if i < r1.capacity then some none
      else none := by
    intro i
    rw [hL2len, hlvnd,
      copy_n_ptr_getElem _ _ _ _ _ (by rw [hRlen]; omega) hksrc]
    by_cases h1 : i < pos
    · rw [if_neg (by omega), hR i, if_pos h1, hlv1 i, if_pos (by omega),
        List.getElem?_append, if_pos (by omega), if_pos (by omega),
        List.getElem?_append,
        if_pos (by rw [List.length_append, List.length_take,
          List.length_map, List.length_take]; omega),
        List.getElem?_append, if_pos (by rw [List.length_take]; omega),
        List.getElem?_take, if_pos h1]
    · by_cases h2 : i < pos + k
      · rw [if_pos (by omega), if_pos (by omega), List.getElem?_append,
          if_pos (by rw [List.length_append, List.length_take,
            List.length_map, List.length_take]; omega),
          List.getElem?_append, if_neg (by rw [List.length_take]; omega),
          List.getElem?_map, List.getElem?_take,
          if_pos (by rw [List.length_take]; omega)]
        have harg2 : i - ((toList d).take pos).length = i - pos := by
          rw [List.length_take]
          omega
        rw [harg2]
      · rw [if_neg (by omega)]
        by_cases h3 : i < d.size + k
        · rw [hR i, hadd, if_neg (by omega), if_neg (by omega),
            if_pos (by omega), hlv1 (i - k), if_pos (by omega),
            List.getElem?_append, if_pos (by omega), if_pos (by omega),
            List.getElem?_append,
            if_neg (by rw [List.length_append, List.length_take,
              List.length_map, List.length_take]; omega),
            List.getElem?_drop]
          have harg : pos + (i - ((toList d).take pos ++
              (src.take k).map some).length) = i - k := by
            rw [List.length_append, List.length_take, List.length_map,
              List.length_take]
            omega
          rw [harg]
        · rw [hR i, if_neg (by omega), if_neg (by omega), if_neg (by omega),
            hlv1 i, if_neg (by omega), if_neg h3]
  obtain ⟨hIF, htlF⟩ := inv_of_lv_char
    ((toList d).take pos ++ (src.take k).map some ++ (toList d).drop pos)
    hI1 hndlen
    (allSome_append (allSome_append (allSome_take _ (toList_all_isSome_deq h))
      (allSome_map _)) (allSome_drop _ (toList_all_isSome_deq h)))
    (by rw [hs1, hL2len]) hlvF
  exact ⟨hIF, hs1, hcap1, htlF, rfl⟩

theorem eraseRange_spec [Inhabited α] {d : DeqState α} (h : Inv d)
    {first last : Nat} (hfl : first ≤ last) (hls : last ≤ d.size) :
    Inv (eraseRange d first last).1 ∧
      (eraseRange d first last).1.size = d.size - (last - first) ∧
      (eraseRange d first last).1.capacity = d.capacity ∧
      toList (eraseRange d first last).1 =
        (toList d).take first ++ (toList d).drop last ∧
      (eraseRange d first last).2 = first := by
  have hsz := h.size_le_deq
  have hcap0 := h.cap_pos
  have hword := h.word_deq
  have hh := h.head_lt
  have htlL : (toList d).length = d.size := toList_length_deq h
  unfold eraseRange
  dsimp only
  set rot := (rotate (deqOps d.head d.capacity α) d.data first last d.size).1
    with hrot
  have hrotlen : rot.length = d.capacity := by
    rw [hrot, rotate_fst_length (deqOps_spl _ _), h.len_deq]
  have hdd : distance (deqOps d.head d.capacity α) rot first last =
      last - first := by
    unfold distance
    rw [hrotlen]
    rw [distanceLoop_of_inc_succ (fun p => rfl) (d.capacity + 1) first last
      hfl (by omega)]
  rw [hdd, sizetSub_eq_sub d.size (last - first) (by omega) (by omega)
    (by omega)]
  have hlvrot : logicalView d.head d.capacity rot =
      (rotate (ptrOps α) (logicalView d.head d.capacity d.data) first last
        d.size).1 := by
    rw [hrot, rotate_deq_comm_fst _ _ _ _ _ _ hh h.len_deq hfl hls (by omega)]
  have hR := fun j => rotate_ptr_fst_getElem
    (logicalView d.head d.capacity d.data) first last d.size hfl hls
    (by rw [lv_length]; omega) j
  have hlv0 := fun j => lv_eq_of_inv h j
  have hLrotlen : ((toList d).take first ++ (toList d).drop last ++
      ((toList d).drop first).take (last - first)).length = d.size := by
    rw [List.length_append, List.length_append, List.length_take,
      List.length_drop, List.length_take, List.length_drop, htlL]
    omega
  have hlvF : ∀ i, (logicalView d.head d.capacity rot)[i]? =
      if i < ((toList d).take first ++ (toList d).drop last ++
        ((toList d).drop first).take (last - first)).length
      then ((toList d).take first ++ (toList d).drop last ++
        ((toList d).drop first).take (last - first))[i]?
      else if i < d.capacity then some none
      else none := by
    intro i
    rw [hLrotlen, hlvrot, hR i]
    by_cases h1 : i < first
    · rw [if_pos h1, hlv0 i, if_pos (by omega), if_pos (by omega),
        List.getElem?_append,
        if_pos (by rw [List.length_append, List.length_take,
          List.length_drop]; omega),
        List.getElem?_append, if_pos (by rw [List.length_take]; omega),
        List.getElem?_take, if_pos h1]
    · by_cases h2 : i < first + (d.size - last)
      · rw [if_neg h1, if_pos h2, hlv0 (last + (i - first)),
          if_pos (by omega), if_pos (by omega), List.getElem?_append,
          if_pos (by rw [List.length_append, List.length_take,
            List.length_drop]; omega),
          List.getElem?_append, if_neg (by rw [List.length_take]; omega),
          List.getElem?_drop]
        have harg : last + (i - ((toList d).take first).length) =
            last + (i - first) := by
          rw [List.length_take]
          omega
        rw [harg]
      · by_cases h3 : i < d.size
        · rw [if_neg h1, if_neg h2, if_pos h3,
            hlv0 (i - (d.size - last)), if_pos (by omega), if_pos (by omega),
            List.getElem?_append,
            if_neg (by rw [List.length_append, List.length_take,
              List.length_drop]; omega),
            List.getElem?_take,
            if_pos (by rw [List.length_append, List.length_take,
              List.length_drop]; omega),
            List.getElem?_drop]
          have harg : first + (i - ((toList d).take first ++
              (toList d).drop last).length) = i - (d.size - last) := by
            rw [List.length_append, List.length_take, List.length_drop]
            omega
          rw [harg]
        · rw [if_neg h1, if_neg h2, if_neg h3, hlv0 i,
            if_neg (show ¬i < d.size from h3),
            if_neg (show ¬i < d.size from h3)]
  obtain ⟨hIrot, htlrot⟩ := inv_of_lv_char
    ((toList d).take first ++ (toList d).drop last ++
      ((toList d).drop first).take (last - first))
    h hrotlen
    (allSome_append (allSome_append (allSome_take _ (toList_all_isSome_deq h))
      (allSome_drop _ (toList_all_isSome_deq h)))
      (allSome_take _ (allSome_drop _ (toList_all_isSome_deq h))))
    (by rw [hLrotlen]) hlvF
  have hcnt : d.size - (last - first) ≤ d.size := by omega
  obtain ⟨hI1, hs1, hh1, hcap1, htl1⟩ := resize_spec_shrink hIrot hcnt
  rw [htlrot] at htl1
  rw [List.take_left' (by rw [List.length_append, List.length_take,
    List.length_drop, htlL]; omega)] at htl1
  exact ⟨hI1, hs1, hcap1, htl1, rfl⟩

theorem erase1_eq_eraseRange [Inhabited α] {d : DeqState α} (h : Inv d)
    (pos : Nat) : erase1 d pos = eraseRange d pos (pos + 1) := by
  have hcap0 := h.cap_pos
  unfold erase1 eraseRange
  dsimp only
  have hrotlen : (rotate (deqOps d.head d.capacity α) d.data pos (pos + 1)
      d.size).1.length = d.capacity := by
    rw [rotate_fst_length (deqOps_spl _ _), h.len_deq]
  have hdd : distance (deqOps d.head d.capacity α)
      (rotate (deqOps d.head d.capacity α) d.data pos (pos + 1) d.size).1
      pos (pos + 1) = 1 := by
    unfold distance
    rw [hrotlen]
    rw [distanceLoop_of_inc_succ (fun p => rfl) (d.capacity + 1) pos
      (pos + 1) (by omega) (by omega)]
    omega
  rw [hdd]

theorem erase1_spec [Inhabited α] {d : DeqState α} (h : Inv d) {pos : Nat}
    (hpos : pos < d.size) :
    Inv (erase1 d pos).1 ∧ (erase1 d pos).1.size = d.size - 1 ∧
      (erase1 d pos).1.capacity = d.capacity ∧
      toList (erase1 d pos).1 =
        (toList d).take pos ++ (toList d).drop (pos + 1) ∧
      (erase1 d pos).2 = pos := by
  rw [erase1_eq_eraseRange h]
  obtain ⟨hI, hs, hc, htl, hit⟩ := eraseRange_spec h (Nat.le_succ pos) hpos
  have hm : d.size - (pos + 1 - pos) = d.size - 1 := by omega
  rw [hm] at hs
  exact ⟨hI, hs, hc, htl, hit⟩

theorem assignN_spec [Inhabited α] {d : DeqState α} (h : Inv d) {count : Nat}
    (hcnt : count ≤ d.capacity) (val : α) :
    Inv (assignN d count val) ∧ (assignN d count val).size = count ∧
      (assignN d count val).capacity = d.capacity ∧
      toList (assignN d count val) = List.replicate count (some val) := by
  unfold assignN
  dsimp only
  have hres : Inv (resize d count) ∧ (resize d count).size = count ∧
      (resize d count).capacity = d.capacity := by
    by_cases hc : count ≤ d.size
    · obtain ⟨a, b, _, c, _⟩ := resize_spec_shrink h hc
      exact ⟨a, b, c⟩
    · obtain ⟨a, b, _, c, _⟩ := resize_spec_grow h (by omega) hcnt
      exact ⟨a, b, c⟩
  obtain ⟨hI1, hs1, hcap1⟩ := hres
  set r1 := resize d count with hr1
  have hh1 : r1.head < r1.capacity := hI1.head_lt
  have hlen1 : r1.data.length = r1.capacity := hI1.len_deq
  set nd := fill_n (deqOps r1.head r1.capacity α) r1.data 0 r1.size val
    with hnd
  rw [hs1] at hnd
  have hndlen : nd.length = r1.capacity := by
    rw [hnd, fill_n_length (deqOps_spl _ _), hlen1]
  have hlvnd : logicalView r1.head r1.capacity nd =
      fill_n (ptrOps α) (logicalView r1.head r1.capacity r1.data) 0 count
        val := by
    rw [hnd, fill_n_deq_comm _ _ _ _ _ _ hh1 hlen1 (by omega)]
  have hlvF : ∀ i, (logicalView r1.head r1.capacity nd)[i]? =
      if i < (List.replicate count (some val)).length
      then (List.replicate count (some val))[i]?
      else if i < r1.capacity then some none
      else none := by
    intro i
    rw [List.length_replicate, hlvnd,
      fill_n_ptr_getElem _ _ _ _ _ (by rw [lv_length]; omega)]
    by_cases h1 : i < count
    · rw [if_pos (by omega), if_pos h1, List.getElem?_replicate, if_pos h1]
    · rw [if_neg (by omega), lv_eq_of_inv hI1 i, hs1, if_neg h1, if_neg h1]
  obtain ⟨hIF, htlF⟩ := inv_of_lv_char (List.replicate count (some val)) hI1
    hndlen (allSome_replicate _ _) (by rw [hs1, List.length_replicate]) hlvF
  exact ⟨hIF, hs1, hcap1, htlF⟩

theorem assignRange_spec [Inhabited α] {d : DeqState α} (h : Inv d)
    (src : List α) :
    Inv (assignRange d src) ∧
      (assignRange d src).size = min src.length d.capacity ∧
      (assignRange d src).capacity = d.capacity ∧
      toList (assignRange d src) =
        (src.take (min src.length d.capacity)).map some := by
  unfold assignRange
  dsimp only
  set k := min src.length d.capacity with hk
  have hkc : k ≤ d.capacity := by omega
  have hres : Inv (resize d k) ∧ (resize d k).size = k ∧
      (resize d k).capacity = d.capacity := by
    by_cases hc : k ≤ d.size
    · obtain ⟨a, b, _, c, _⟩ := resize_spec_shrink h hc
      exact ⟨a, b, c⟩
    · obtain ⟨a, b, _, c, _⟩ := resize_spec_grow h (by omega) hkc
      exact ⟨a, b, c⟩
  obtain ⟨hI1, hs1, hcap1⟩ := hres
  set r1 := resize d k with hr1
  have hh1 : r1.head < r1.capacity := hI1.head_lt
  have hlen1 : r1.data.length = r1.capacity := hI1.len_deq
  set nd := copy_n (deqOps r1.head r1.capacity α) r1.data src r1.size 0
    with hnd
  rw [hs1] at hnd
  have hndlen : nd.length = r1.capacity := by
    rw [hnd, copy_n_length (deqOps_spl _ _), hlen1]
  have hlvnd : logicalView r1.head r1.capacity nd =
      copy_n (ptrOps α) (logicalView r1.head r1.capacity r1.data) src k
        0 := by
    rw [hnd, copy_n_deq_comm _ _ _ _ _ _ hh1 hlen1 (by omega)]
  have hLlen : ((src.take k).map some).length = k := by
    rw [List.length_map, List.length_take]
    omega
  have hlvF : ∀ i, (logicalView r1.head r1.capacity nd)[i]? =
      if i < ((src.take k).map some).length
      then ((src.take k).map some)[i]?
      else if i < r1.capacity then some none
      else none := by
    intro i
    rw [hLlen, hlvnd,
      copy_n_ptr_getElem _ _ _ _ _ (by rw [lv_length]; omega) (by omega)]
    by_cases h1 : i < k
    · rw [if_pos (by omega), if_pos h1, List.getElem?_map,
        List.getElem?_take, if_pos h1, Nat.sub_zero]
    · rw [if_neg (by omega), lv_eq_of_inv hI1 i, hs1, if_neg h1, if_neg h1]
  obtain ⟨hIF, htlF⟩ := inv_of_lv_char ((src.take k).map some) hI1 hndlen
    (allSome_map _) (by rw [hs1, hLlen]) hlvF
  exact ⟨hIF, hs1, hcap1, htlF⟩

theorem push_back_full_deq {d : DeqState α} (hlt : ¬d.size < d.capacity)
    (value : α) : push_back d value = d := by
  unfold push_back
  rw [if_neg hlt]

theorem push_front_full_deq {d : DeqState α} (hlt : ¬d.size < d.capacity)
    (value : α) : push_front d value = d := by
  unfold push_front
  rw [if_neg hlt]

theorem pop_back_empty_deq {d : DeqState α} (h0 : d.size = 0) :
    pop_back d = d := by
  unfold pop_back
  rw [if_neg (by omega)]

theorem pop_front_empty_deq {d : DeqState α} (h0 : d.size = 0) :
    pop_front d = d := by
  unfold pop_front
  rw [if_neg (by omega)]

theorem lv_zero (b : Buf α) (N : Nat) (hb : b.length = N) :
    logicalView 0 N b = b := by
  apply List.ext_getElem?
  intro i
  by_cases hi : i < N
  · rw [lv_getElem 0 N b i hi]
    have hidx : index_at 0 N i = i := by
      unfold index_at
      dsimp only
      rw [if_pos (by omega), Nat.zero_add]
    rw [hidx, List.getD_eq_getElem?_getD,
      List.getElem?_eq_getElem (by omega)]
    rfl
  · rw [lv_getElem_ge 0 N b i (by omega), List.getElem?_eq_none (by omega)]

theorem new_spec (α : Type) {N : Nat} (hN : 0 < N) (hW : N < WORD) :
    Inv (new α N) ∧ (new α N).size = 0 ∧ (new α N).capacity = N ∧
      toList (new α N) = [] := by
  unfold Inv new toList
  dsimp only
  refine ⟨⟨by rw [List.length_replicate], hW, hN, by omega, hN, by omega,
    ?_, ?_⟩, rfl, rfl, rfl⟩
  · rw [show N - 1 + 1 = N from by omega, Nat.mod_self]
    simp
  · intro i hi
    rw [lv_getD 0 N _ i hi]
    have hval : (List.replicate N (none : Option α)).getD
        (index_at 0 N i) none = none := by
      rw [List.getD_eq_getElem?_getD]
      by_cases hc : index_at 0 N i < N
      · rw [List.getElem?_replicate, if_pos hc]
        rfl
      · rw [List.getElem?_eq_none (by rw [List.length_replicate]; omega)]
        rfl
    rw [hval]
    exact iff_of_false (by simp) (by omega)

theorem fromRange_spec (src : List α) {N : Nat} (hN : 0 < N) (hW : N < WORD) :
    Inv (fromRange src N) ∧ (fromRange src N).size = min src.length N ∧
      (fromRange src N).capacity = N ∧
      toList (fromRange src N) = (src.take (min src.length N)).map some := by
  unfold fromRange
  dsimp only
  set k := min src.length N with hk
  rw [uninitialized_copy_n_eq_copy_n]
  have hrep : (List.replicate N (none : Option α)).length = N := by
    rw [List.length_replicate]
  have hclen : (copy_n (deqOps 0 N α) (List.replicate N none) src k 0).length
      = N := by
    rw [copy_n_length (deqOps_spl _ _), hrep]
  have hlvc : logicalView 0 N
      (copy_n (deqOps 0 N α) (List.replicate N none) src k 0) =
      copy_n (ptrOps α) (List.replicate N none) src k 0 := by
    rw [copy_n_deq_comm _ _ _ _ _ _ hN hrep (by omega), lv_zero _ _ hrep]
  have hchar := fun i => copy_n_ptr_getElem
    (List.replicate N (none : Option α)) src k 0 i (by rw [hrep]; omega)
    (by omega)
  refine ⟨⟨hclen, hW, hN, show k ≤ N from by omega, hN, ?_, ?_, ?_⟩, rfl,
    rfl, ?_⟩
  · show (if k ≠ 0 then k - 1 else N - 1) < N
    split <;> omega
  · show ((if k ≠ 0 then k - 1 else N - 1) + 1) % N = (0 + k) % N
    by_cases hk0 : k ≠ 0
    · rw [if_pos hk0, show k - 1 + 1 = k from by omega, Nat.zero_add]
    · rw [if_neg hk0, show N - 1 + 1 = N from by omega, Nat.mod_self,
        show 0 + k = 0 from by omega, Nat.zero_mod]
  · intro i hi
    have hic : i < N := hi
    dsimp only
    rw [hlvc, List.getD_eq_getElem?_getD, hchar i]
    by_cases h1 : i < k
    · rw [if_pos (by omega), Nat.sub_zero,
        List.getElem?_eq_getElem (show i < src.length from by omega)]
      exact iff_of_true (by simp) h1
    · rw [if_neg (by omega), List.getElem?_replicate, if_pos hic]
      exact iff_of_false (by simp) (by omega)
  · show (logicalView 0 N
        (copy_n (deqOps 0 N α) (List.replicate N none) src k 0)).take k =
      (src.take k).map some
    rw [hlvc]
    apply List.ext_getElem?
    intro i
    rw [List.getElem?_take, List.getElem?_map, List.getElem?_take]
    by_cases h1 : i < k
    · rw [if_pos h1, if_pos h1, hchar i, if_pos (by omega), Nat.sub_zero]
    · rw [if_neg h1, if_neg h1]
      rfl

end Deq

/-! Algorithm.h `equal` on forward (inc = +1) iterators: true exactly when
every position of the first range is a live slot matching the corresponding
slot of the second range. -/

theorem equalLoop_inc_iff [BEq α] [LawfulBEq α] (ops1 ops2 : IterOps α)
    (hinc1 : ∀ p, ops1.inc p = p + 1) (hinc2 : ∀ p, ops2.inc p = p + 1)
    (fuel : Nat) (b1 b2 : Buf α) (f1 t1 f2 : Nat) (hle : f1 ≤ t1)
    (hfuel : t1 - f1 < fuel) :
    equalLoop ops1 ops2 fuel b1 b2 f1 t1 f2 = true ↔
      ∀ j < t1 - f1, (ops1.get b1 (f1 + j)).isSome = true ∧
        ops1.get b1 (f1 + j) = ops2.get b2 (f2 + j) := by
  induction fuel generalizing f1 f2 with
  | zero => omega
  | succ fuel ih =>
    rw [equalLoop]
    by_cases h : f1 = t1
    · rw [if_pos h]
      exact iff_of_true rfl (fun j hj => absurd hj (by omega))
    · rw [if_neg h]
      rcases hg1 : ops1.get b1 f1 with _ | x <;>
        rcases hg2 : ops2.get b2 f2 with _ | y
      · refine iff_of_false (fun hc => Bool.noConfusion hc) (fun hR => ?_)
        have h2 := (hR 0 (by omega)).1
        rw [Nat.add_zero, hg1] at h2
        exact Bool.noConfusion h2
      · refine iff_of_false (fun hc => Bool.noConfusion hc) (fun hR => ?_)
        have h2 := (hR 0 (by omega)).1
        rw [Nat.add_zero, hg1] at h2
        exact Bool.noConfusion h2
      · refine iff_of_false (fun hc => Bool.noConfusion hc) (fun hR => ?_)
        have h2 := (hR 0 (by omega)).2
        rw [Nat.add_zero, Nat.add_zero, hg1, hg2] at h2
        exact Option.noConfusion h2
      · show (if x == y then
            equalLoop ops1 ops2 fuel b1 b2 (ops1.inc f1) t1 (ops2.inc f2)
          else false) = true ↔ _
        rw [hinc1, hinc2]
        by_cases hxy : (x == y) = true
        · rw [if_pos hxy, ih (f1 + 1) (f2 + 1) (by omega) (by omega)]
          have hxe : x = y := eq_of_beq hxy
          subst hxe
          constructor
          · intro hR j hj
            cases j with
            | zero =>
              rw [Nat.add_zero, Nat.add_zero, hg1, hg2]
              exact ⟨rfl, rfl⟩
            | succ j =>
              have h2 := hR j (by omega)
              rw [show f1 + 1 + j = f1 + (j + 1) from by omega,
                show f2 + 1 + j = f2 + (j + 1) from by omega] at h2
              exact h2
          · intro hR j hj
            have h2 := hR (j + 1) (by omega)
            rw [show f1 + (j + 1) = f1 + 1 + j from by omega,
              show f2 + (j + 1) = f2 + 1 + j from by omega] at h2
            exact h2
        · rw [if_neg hxy]
          refine iff_of_false (fun hc => Bool.noConfusion hc) (fun hR => ?_)
          have h2 := (hR 0 (by omega)).2
          rw [Nat.add_zero, Nat.add_zero, hg1, hg2] at h2
          have hxe : x = y := Option.some.inj h2
          subst hxe
          simp at hxy

namespace Vec

theorem toList_eq_iff {v w : VecState α} (hv : Inv v) (hw : Inv w) :
    toList v = toList w ↔ v.size = w.size ∧
      ∀ j < v.size, v.data.getD j none = w.data.getD j none := by
  have hvlen := hv.len
  have hvsz := hv.size_le
  have hwlen := hw.len
  have hwsz := hw.size_le
  constructor
  · intro h
    have hsz : v.size = w.size := by
      rw [← toList_length hv, ← toList_length hw, h]
    refine ⟨hsz, fun j hj => ?_⟩
    have h1 : (toList v).getD j none = v.data.getD j none := by
      unfold toList
      rw [List.getD_eq_getElem?_getD, List.getElem?_take, if_pos hj,
        ← List.getD_eq_getElem?_getD]
    have h2 : (toList w).getD j none = w.data.getD j none := by
      unfold toList
      rw [List.getD_eq_getElem?_getD, List.getElem?_take, if_pos (by omega),
        ← List.getD_eq_getElem?_getD]
    rw [← h1, ← h2, h]
  · rintro ⟨hsz, hpt⟩
    apply List.ext_getElem?
    intro i
    rw [toList_getElem, toList_getElem, ← hsz]
    by_cases hi : i < v.size
    · rw [if_pos hi, if_pos hi]
      have hiv : i < v.data.length := by omega
      have hiw : i < w.data.length := by omega
      have h2 := hpt i hi
      rw [List.getD_eq_getElem?_getD, List.getD_eq_getElem?_getD,
        List.getElem?_eq_getElem hiv, List.getElem?_eq_getElem hiw] at h2
      simp only [Option.getD_some] at h2
      rw [List.getElem?_eq_getElem hiv, List.getElem?_eq_getElem hiw, h2]
    · rw [if_neg hi, if_neg hi]

theorem beq_iff [BEq α] [LawfulBEq α] {v w : VecState α} (hv : Inv v)
    (hw : Inv w) : beq v w = true ↔ toList v = toList w := by
  have hvlen := hv.len
  have hvsz := hv.size_le
  unfold beq equal
  rw [Bool.and_eq_true, beq_iff_eq,
    equalLoop_inc_iff (ptrOps α) (ptrOps α) (fun p => rfl) (fun p => rfl)
      (v.data.length + 1) v.data w.data 0 v.size 0 (by omega) (by omega),
    toList_eq_iff hv hw]
  constructor
  · rintro ⟨hsz, hpt⟩
    refine ⟨hsz, fun j hj => ?_⟩
    have h2 := (hpt j (by omega)).2
    simp only [ptrOps_get] at h2
    rw [Nat.zero_add] at h2
    exact h2
  · rintro ⟨hsz, hpt⟩
    refine ⟨hsz, fun j hj => ?_⟩
    have hjs : j < v.size := by omega
    constructor
    · show ((ptrOps α).get v.data (0 + j)).isSome = true
      simp only [ptrOps_get]
      rw [Nat.zero_add]
      exact (hv.live j (by omega)).mpr hjs
    · show (ptrOps α).get v.data (0 + j) = (ptrOps α).get w.data (0 + j)
      simp only [ptrOps_get]
      rw [Nat.zero_add]
      exact hpt j hjs

theorem bne_iff [BEq α] [LawfulBEq α] {v w : VecState α} (hv : Inv v)
    (hw : Inv w) : bne v w = true ↔ ¬toList v = toList w := by
  unfold bne
  constructor
  · intro hb hteq
    rw [← beq_iff hv hw] at hteq
    rw [hteq] at hb
    exact Bool.noConfusion hb
  · intro hne
    have hb : beq v w = false := by
      cases hbeq : beq v w
      · rfl
      · exact absurd ((beq_iff hv hw).mp hbeq) hne
    rw [hb]
    rfl

end Vec

namespace Deq

theorem toList_eq_iff_deq {v w : DeqState α} (hv : Inv v) (hw : Inv w) :
    toList v = toList w ↔ v.size = w.size ∧
      ∀ j < v.size, (logicalView v.head v.capacity v.data).getD j none =
        (logicalView w.head w.capacity w.data).getD j none := by
  have hvsz := hv.size_le_deq
  have hwsz := hw.size_le_deq
  constructor
  · intro h
    have hsz : v.size = w.size := by
      rw [← toList_length_deq hv, ← toList_length_deq hw, h]
    refine ⟨hsz, fun j hj => ?_⟩
    have h1 : (toList v).getD j none =
        (logicalView v.head v.capacity v.data).getD j none := by
      unfold toList
      rw [List.getD_eq_getElem?_getD, List.getElem?_take, if_pos hj,
        ← List.getD_eq_getElem?_getD]
    have h2 : (toList w).getD j none =
        (logicalView w.head w.capacity w.data).getD j none := by
      unfold toList
      rw [List.getD_eq_getElem?_getD, List.getElem?_take, if_pos (by omega),
        ← List.getD_eq_getElem?_getD]
    rw [← h1, ← h2, h]
  · rintro ⟨hsz, hpt⟩
    apply List.ext_getElem?
    intro i
    rw [toList_getElem_deq, toList_getElem_deq, ← hsz]
    by_cases hi : i < v.size
    · rw [if_pos hi, if_pos hi]
      have h2 := hpt i hi
      rw [lv_getD _ _ _ i (by omega), lv_getD _ _ _ i (by omega)] at h2
      rw [lv_getElem _ _ _ i (by omega), lv_getElem _ _ _ i (by omega), h2]
    · rw [if_neg hi, if_neg hi]

theorem beq_iff_deq [BEq α] [LawfulBEq α] {v w : DeqState α} (hv : Inv v)
    (hw : Inv w) : beq v w = true ↔ toList v = toList w := by
  have hvlen := hv.len_deq
  have hvsz := hv.size_le_deq
  have hwsz := hw.size_le_deq
  unfold beq equal
  rw [Bool.and_eq_true, beq_iff_eq,
    equalLoop_inc_iff (deqOps v.head v.capacity α)
      (deqOps w.head w.capacity α) (fun p => rfl) (fun p => rfl)
      (v.data.length + 1) v.data w.data 0 v.size 0 (by omega) (by omega),
    toList_eq_iff_deq hv hw]
  constructor
  · rintro ⟨hsz, hpt⟩
    refine ⟨hsz, fun j hj => ?_⟩
    have h2 := (hpt j (by omega)).2
    simp only [deqOps_get] at h2
    rw [Nat.zero_add] at h2
    rw [lv_getD _ _ _ j (by omega), lv_getD _ _ _ j (by omega)]
    exact h2
  · rintro ⟨hsz, hpt⟩
    refine ⟨hsz, fun j hj => ?_⟩
    have hjs : j < v.size := by omega
    constructor
    · show ((deqOps v.head v.capacity α).get v.data (0 + j)).isSome = true
      simp only [deqOps_get]
      rw [Nat.zero_add, ← lv_getD _ _ _ j (by omega)]
      exact (hv.live_deq j (by omega)).mpr hjs
    · show (deqOps v.head v.capacity α).get v.data (0 + j) =
        (deqOps w.head w.capacity α).get w.data (0 + j)
      simp only [deqOps_get]
      rw [Nat.zero_add, ← lv_getD _ _ _ j (by omega),
        ← lv_getD _ _ _ j (by omega)]
      exact hpt j hjs

theorem bne_iff_deq [BEq α] [LawfulBEq α] {v w : DeqState α} (hv : Inv v)
    (hw : Inv w) : bne v w = true ↔ ¬toList v = toList w := by
  unfold bne
  constructor
  · intro hb hteq
    rw [← beq_iff_deq hv hw] at hteq
    rw [hteq] at hb
    exact Bool.noConfusion hb
  · intro hne
    have hb : beq v w = false := by
      cases hbeq : beq v w
      · rfl
      · exact absurd ((beq_iff_deq hv hw).mp hbeq) hne
    rw [hb]
    rfl

end Deq

/-! State-machine layer: every well-formed mutating call preserves the
representation invariant, so every reachable state satisfies it. -/

theorem vecOp_apply_Inv [Inhabited α] {s : VecState α} (h : Vec.Inv s)
    {op : VecOp α} (hv : op.valid s) :
    Vec.Inv (op.apply s) ∧ (op.apply s).capacity = s.capacity := by
  have hsz := h.size_le
  have hlen := h.len
  have hW := h.word
  have htl : (Vec.toList s).length = s.size := Vec.toList_length h
  have hsome := Vec.toList_all_isSome h
  cases op with
  | push_back v =>
    simp only [VecOp.apply]
    by_cases hlt : s.size < s.capacity
    · rw [Vec.push_back_eq h hlt]
      refine ⟨Vec.Inv_canon _ _ ?_ hW
        (allSome_append hsome (allSome_cons _ allSome_nil)),
        Vec.canon_capacity _ _⟩
      rw [List.length_append, htl, List.length_singleton]
      omega
    · rw [Vec.push_back_full hlt]
      exact ⟨h, rfl⟩
  | pop_back =>
    simp only [VecOp.apply]
    by_cases hz : s.size = 0
    · rw [Vec.pop_back_eq_empty h hz]
      exact ⟨Vec.Inv_canon _ _ (by rw [List.length_replicate]) hW
        (allSome_replicate _ _), Vec.canon_capacity _ _⟩
    · rw [Vec.pop_back_eq_pos h (by omega)]
      exact ⟨Vec.Inv_canon _ _ (by rw [List.length_take]; omega) hW
        (allSome_take _ hsome), Vec.canon_capacity _ _⟩
  | insert1 pos v =>
    have hpos : pos ≤ s.size := hv
    simp only [VecOp.apply]
    by_cases hlt : s.size < s.capacity
    · rw [Vec.insert1_eq h hpos hlt v]
      dsimp only
      refine ⟨Vec.Inv_canon _ _ ?_ hW
        (allSome_append (allSome_take _ hsome)
          (allSome_cons _ (allSome_drop _ hsome))),
        Vec.canon_capacity _ _⟩
      rw [List.length_append, List.length_take, List.length_cons,
        List.length_drop, htl]
      omega
    · rw [Vec.insert1_full hlt]
      exact ⟨h, rfl⟩
  | insertN pos count v =>
    have hpos : pos ≤ s.size := hv
    simp only [VecOp.apply]
    by_cases hlt : s.size < s.capacity
    · rw [Vec.insertN_eq h count hpos hlt v]
      dsimp only
      refine ⟨Vec.Inv_canon _ _ ?_ hW
        (allSome_append (allSome_append (allSome_take _ hsome)
          (allSome_replicate _ _)) (allSome_drop _ hsome)),
        Vec.canon_capacity _ _⟩
      rw [List.length_append, List.length_append, List.length_take,
        List.length_replicate, List.length_drop, htl]
      omega
    · rw [Vec.insertN_full hlt]
      exact ⟨h, rfl⟩
  | insertRange pos src =>
    have hpos : pos ≤ s.size := hv.1
    simp only [VecOp.apply]
    by_cases hlt : s.size < s.capacity
    · rw [Vec.insertRange_eq h src hpos hlt]
      dsimp only
      refine ⟨Vec.Inv_canon _ _ ?_ hW
        (allSome_append (allSome_append (allSome_take _ hsome)
          (allSome_map _)) (allSome_drop _ hsome)),
        Vec.canon_capacity _ _⟩
      rw [List.length_append, List.length_append, List.length_take,
        List.length_map, List.length_take, List.length_drop, htl]
      omega
    · rw [Vec.insertRange_full hlt]
      exact ⟨h, rfl⟩
  | erase1 pos =>
    have hpos : pos < s.size := hv
    simp only [VecOp.apply]
    rw [Vec.erase1_eq h hpos]
    dsimp only
    refine ⟨Vec.Inv_canon _ _ ?_ hW
      (allSome_append (allSome_take _ hsome) (allSome_drop _ hsome)),
      Vec.canon_capacity _ _⟩
    rw [List.length_append, List.length_take, List.length_drop, htl]
    omega
  | eraseRange f l =>
    obtain ⟨hfl, hls⟩ := hv
    simp only [VecOp.apply]
    rw [Vec.eraseRange_eq h hfl hls]
    dsimp only
    refine ⟨Vec.Inv_canon _ _ ?_ hW
      (allSome_append (allSome_take _ hsome) (allSome_drop _ hsome)),
      Vec.canon_capacity _ _⟩
    rw [List.length_append, List.length_take, List.length_drop, htl]
    omega
  | resize c =>
    simp only [VecOp.apply]
    by_cases hc : c ≤ s.size
    · rw [Vec.resize_shrink h hc]
      exact ⟨Vec.Inv_canon _ _ (by rw [List.length_take]; omega) hW
        (allSome_take _ hsome), Vec.canon_capacity _ _⟩
    · rw [Vec.resize_grow h (by omega)]
      refine ⟨Vec.Inv_canon _ _ ?_ hW
        (allSome_append hsome (allSome_replicate _ _)),
        Vec.canon_capacity _ _⟩
      rw [List.length_append, htl, List.length_replicate]
      omega
  | resizeVal c v =>
    simp only [VecOp.apply]
    by_cases hc : c ≤ s.size
    · rw [Vec.resizeVal_shrink h hc]
      exact ⟨Vec.Inv_canon _ _ (by rw [List.length_take]; omega) hW
        (allSome_take _ hsome), Vec.canon_capacity _ _⟩
    · rw [Vec.resizeVal_grow h (by omega)]
      refine ⟨Vec.Inv_canon _ _ ?_ hW
        (allSome_append hsome (allSome_replicate _ _)),
        Vec.canon_capacity _ _⟩
      rw [List.length_append, htl, List.length_replicate]
      omega
  | assignN c v =>
    simp only [VecOp.apply]
    rw [Vec.assignN_eq h c v]
    exact ⟨Vec.Inv_canon _ _ (by rw [List.length_replicate]; omega) hW
      (allSome_replicate _ _), Vec.canon_capacity _ _⟩
  | assignRange src =>
    simp only [VecOp.apply]
    rw [Vec.assignRange_eq h src]
    refine ⟨Vec.Inv_canon _ _ ?_ hW (allSome_map _),
      Vec.canon_capacity _ _⟩
    rw [List.length_map, List.length_take]
    omega
  | clear =>
    simp only [VecOp.apply]
    rw [Vec.clear_eq h]
    exact ⟨Vec.Inv_canon _ _ (by simp) hW allSome_nil,
      Vec.canon_capacity _ _⟩

theorem vecReach_Inv [Inhabited α] {N : Nat} (hW : N < WORD) {s : VecState α}
    (hr : VecReach α N s) : Vec.Inv s ∧ s.capacity = N := by
  induction hr with
  | init =>
    refine ⟨?_, rfl⟩
    rw [Vec.new_eq_canon]
    exact Vec.Inv_canon _ _ (by simp) hW allSome_nil
  | step s op hr hvalid ih =>
    obtain ⟨hI, hc⟩ := ih
    obtain ⟨hI2, hc2⟩ := vecOp_apply_Inv hI hvalid
    exact ⟨hI2, by rw [hc2, hc]⟩

theorem deqOp_apply_Inv [Inhabited α] {s : DeqState α} (h : Deq.Inv s)
    {op : DeqOp α} (hv : op.valid s) :
    Deq.Inv (op.apply s) ∧ (op.apply s).capacity = s.capacity := by
  cases op with
  | push_back v =>
    simp only [DeqOp.apply]
    by_cases hlt : s.size < s.capacity
    · obtain ⟨hI, _, _, _, hcap, _⟩ := Deq.push_back_spec h hlt v
      exact ⟨hI, hcap⟩
    · rw [Deq.push_back_full_deq hlt]
      exact ⟨h, rfl⟩
  | push_front v =>
    simp only [DeqOp.apply]
    by_cases hlt : s.size < s.capacity
    · obtain ⟨hI, _, _, _, hcap, _⟩ := Deq.push_front_spec h hlt v
      exact ⟨hI, hcap⟩
    · rw [Deq.push_front_full_deq hlt]
      exact ⟨h, rfl⟩
  | pop_back =>
    simp only [DeqOp.apply]
    by_cases hz : s.size = 0
    · rw [Deq.pop_back_empty_deq hz]
      exact ⟨h, rfl⟩
    · obtain ⟨hI, _, _, _, hcap, _⟩ := Deq.pop_back_spec h hz
      exact ⟨hI, hcap⟩
  | pop_front =>
    simp only [DeqOp.apply]
    by_cases hz : s.size = 0
    · rw [Deq.pop_front_empty_deq hz]
      exact ⟨h, rfl⟩
    · obtain ⟨hI, _, _, _, hcap, _⟩ := Deq.pop_front_spec h hz
      exact ⟨hI, hcap⟩
  | insert1 pos v =>
    have hpos : pos ≤ s.size := hv
    simp only [DeqOp.apply]
    by_cases hlt : s.size < s.capacity
    · obtain ⟨hI, _, hcap, _, _⟩ := Deq.insert1_spec h hpos hlt v
      exact ⟨hI, hcap⟩
    · rw [Deq.insert1_full_deq hlt]
      exact ⟨h, rfl⟩
  | insertN pos count v =>
    have hpos : pos ≤ s.size := hv
    simp only [DeqOp.apply]
    by_cases hlt : s.size < s.capacity
    · obtain ⟨hI, _, hcap, _, _⟩ := Deq.insertN_spec h count hpos hlt v
      exact ⟨hI, hcap⟩
    · rw [Deq.insertN_full_deq hlt]
      exact ⟨h, rfl⟩
  | insertRange pos src =>
    have hpos : pos ≤ s.size := hv
    simp only [DeqOp.apply]
    by_cases hlt : s.size < s.capacity
    · obtain ⟨hI, _, hcap, _, _⟩ := Deq.insertRange_spec h hpos hlt src
      exact ⟨hI, hcap⟩
    · rw [Deq.insertRange_full_deq hlt]
      exact ⟨h, rfl⟩
  | erase1 pos =>
    have hpos : pos < s.size := hv
    simp only [DeqOp.apply]
    obtain ⟨hI, _, hcap, _, _⟩ := Deq.erase1_spec h hpos
    exact ⟨hI, hcap⟩
  | eraseRange f l =>
    obtain ⟨hfl, hls⟩ := hv
    simp only [DeqOp.apply]
    obtain ⟨hI, _, hcap, _, _⟩ := Deq.eraseRange_spec h hfl hls
    exact ⟨hI, hcap⟩
  | resize c =>
    have hcc : c ≤ s.capacity := hv
    simp only [DeqOp.apply]
    by_cases hc : c ≤ s.size
    · obtain ⟨hI, _, _, hcap, _⟩ := Deq.resize_spec_shrink h hc
      exact ⟨hI, hcap⟩
    · obtain ⟨hI, _, _, hcap, _⟩ := Deq.resize_spec_grow h (by omega) hcc
      exact ⟨hI, hcap⟩
  | resizeVal c v =>
    have hcc : c ≤ s.capacity := hv
    simp only [DeqOp.apply]
    by_cases hc : c ≤ s.size
    · obtain ⟨hI, _, _, hcap, _⟩ := Deq.resizeVal_spec_shrink h hc v
      exact ⟨hI, hcap⟩
    · obtain ⟨hI, _, _, hcap, _⟩ := Deq.resizeVal_spec_grow h (by omega) hcc v
      exact ⟨hI, hcap⟩
  | assignN c v =>
    have hcc : c ≤ s.capacity := hv
    simp only [DeqOp.apply]
    obtain ⟨hI, _, hcap, _⟩ := Deq.assignN_spec h hcc v
    exact ⟨hI, hcap⟩
  | assignRange src =>
    simp only [DeqOp.apply]
    obtain ⟨hI, _, hcap, _⟩ := Deq.assignRange_spec h src
    exact ⟨hI, hcap⟩
  | clear =>
    simp only [DeqOp.apply]
    obtain ⟨hI, _, hcap, _⟩ := Deq.clear_spec h
    exact ⟨hI, hcap⟩

theorem deqReach_Inv [Inhabited α] {N : Nat} (hN : 0 < N) (hW : N < WORD)
    {s : DeqState α} (hr : DeqReach α N s) :
    Deq.Inv s ∧ s.capacity = N := by
  induction hr with
  | init =>
    exact ⟨(Deq.new_spec α hN hW).1, rfl⟩
  | step s op hr hvalid ih =>
    obtain ⟨hI, hc⟩ := ih
    obtain ⟨hI2, hc2⟩ := deqOp_apply_Inv hI hvalid
    exact ⟨hI2, by rw [hc2, hc]⟩

/-- `rotate` on pointer iterators over the whole buffer: the two halves are
exchanged and the returned iterator points at the original first element. -/
theorem rotate_ptr_take_drop (l : Buf α) (k t : Nat) (hk : k ≤ t)
    (ht : t = l.length) :
    rotate (ptrOps α) l 0 k t = (l.drop k ++ l.take k, t - k) := by
  subst ht
  have hfst := fun i =>
    rotate_ptr_fst_getElem l 0 k l.length (by omega) hk (by omega) i
  have hsnd := rotate_ptr_snd l 0 k l.length (by omega) hk (by omega)
  refine Prod.ext ?_ ?_
  · apply List.ext_getElem?
    intro i
    rw [hfst i, if_neg (by omega), List.getElem?_append]
    by_cases h1 : i < l.length - k
    · rw [if_pos (by omega), if_pos (by rw [List.length_drop]; omega),
        List.getElem?_drop, Nat.sub_zero]
    · by_cases h2 : i < l.length
      · rw [if_neg (by omega), if_pos h2,
          if_neg (by rw [List.length_drop]; omega), List.length_drop,
          List.getElem?_take, if_pos (by omega)]
      · rw [if_neg (by omega), if_neg (by omega),
          if_neg (by rw [List.length_drop]; omega), List.length_drop,
          List.getElem?_take, if_neg (by omega),
          List.getElem?_eq_none (by omega)]
  · rw [hsnd, Nat.zero_add]

/-! The ten claims. -/

/-- C1: Insert saturation.  A single-element `insert` on a full vector or
deque is a silent no-op that returns the iterator at `pos`; a counted or
range `insert` with only `k = capacity - size < count` free slots inserts
exactly `k` elements, leaves `size = capacity` (`max_size`), and leaves the
container in a valid fully-constructed state (the representation invariant,
whose live-slot condition says every slot below `size` holds a constructed
element, still holds). -/
theorem C1_insert_saturation (α : Type) [Inhabited α] :
    (∀ (v : VecState α) (pos : Nat) (val : α), ¬v.size < v.capacity →
      Vec.insert1 v pos val = (v, pos)) ∧
    (∀ (d : DeqState α) (pos : Nat) (val : α), ¬d.size < d.capacity →
      Deq.insert1 d pos val = (d, pos)) ∧
    (∀ (v : VecState α) (pos count : Nat) (val : α), Vec.Inv v →
      pos ≤ v.size → v.size < v.capacity → v.capacity - v.size < count →
      Vec.Inv (Vec.insertN v pos count val).1 ∧
        (Vec.insertN v pos count val).1.size = v.capacity ∧
        Vec.toList (Vec.insertN v pos count val).1 =
          (Vec.toList v).take pos ++
            List.replicate (v.capacity - v.size) (some val) ++
            (Vec.toList v).drop pos) ∧
    (∀ (d : DeqState α) (pos count : Nat) (val : α), Deq.Inv d →
      pos ≤ d.size → d.size < d.capacity → d.capacity - d.size < count →
      Deq.Inv (Deq.insertN d pos count val).1 ∧
        (Deq.insertN d pos count val).1.size = d.capacity ∧
        Deq.toList (Deq.insertN d pos count val).1 =
          (Deq.toList d).take pos ++
            List.replicate (d.capacity - d.size) (some val) ++
            (Deq.toList d).drop pos) ∧
    (∀ (v : VecState α) (pos : Nat) (src : List α), Vec.Inv v →
      pos ≤ v.size → v.size < v.capacity →
      v.capacity - v.size < src.length →
      Vec.Inv (Vec.insertRange v pos src).1 ∧
        (Vec.insertRange v pos src).1.size = v.capacity) ∧
    (∀ (d : DeqState α) (pos : Nat) (src : List α), Deq.Inv d →
      pos ≤ d.size → d.size < d.capacity →
      d.capacity - d.size < src.length →
      Deq.Inv (Deq.insertRange d pos src).1 ∧
        (Deq.insertRange d pos src).1.size = d.capacity) := by
  refine ⟨fun v pos val h => Vec.insert1_full h pos val,
    fun d pos val h => Deq.insert1_full_deq h pos val, ?_, ?_, ?_, ?_⟩
  · intro v pos count val h hpos hlt hcnt
    have hsz := h.size_le
    have htl : (Vec.toList v).length = v.size := Vec.toList_length h
    have hk : min count (v.capacity - v.size) = v.capacity - v.size := by
      omega
    have hsome := Vec.toList_all_isSome h
    have hLle : ((Vec.toList v).take pos ++
        List.replicate (v.capacity - v.size) (some val) ++
        (Vec.toList v).drop pos).length ≤ v.capacity := by
      rw [List.length_append, List.length_append, List.length_take,
        List.length_replicate, List.length_drop, htl]
      omega
    rw [Vec.insertN_eq h count hpos hlt val, hk]
    dsimp only
    refine ⟨Vec.Inv_canon _ _ hLle h.word
      (allSome_append (allSome_append (allSome_take _ hsome)
        (allSome_replicate _ _)) (allSome_drop _ hsome)), ?_,
      Vec.canon_toList _ _ hLle⟩
    rw [Vec.canon_size, List.length_append, List.length_append,
      List.length_take, List.length_replicate, List.length_drop, htl]
    omega
  · intro d pos count val h hpos hlt hcnt
    have hk : min count (d.capacity - d.size) = d.capacity - d.size := by
      omega
    obtain ⟨hI, hs, _, htl2, _⟩ := Deq.insertN_spec h count hpos hlt val
    rw [hk] at hs htl2
    exact ⟨hI, by rw [hs]; omega, htl2⟩
  · intro v pos src h hpos hlt hcnt
    have hsz := h.size_le
    have htl : (Vec.toList v).length = v.size := Vec.toList_length h
    have hsome := Vec.toList_all_isSome h
    have hLle : ((Vec.toList v).take pos ++
        (src.take (min src.length (v.capacity - v.size))).map some ++
        (Vec.toList v).drop pos).length ≤ v.capacity := by
      rw [List.length_append, List.length_append, List.length_take,
        List.length_map, List.length_take, List.length_drop, htl]
      omega
    rw [Vec.insertRange_eq h src hpos hlt]
    dsimp only
    refine ⟨Vec.Inv_canon _ _ hLle h.word
      (allSome_append (allSome_append (allSome_take _ hsome)
        (allSome_map _)) (allSome_drop _ hsome)), ?_⟩
    rw [Vec.canon_size, List.length_append, List.length_append,
      List.length_take, List.length_map, List.length_take,
      List.length_drop, htl]
    omega
  · intro d pos src h hpos hlt hcnt
    obtain ⟨hI, hs, _, _, _⟩ := Deq.insertRange_spec h hpos hlt src
    exact ⟨hI, by rw [hs]; omega⟩

/-- Witness for C1 at concrete full and almost-full containers. -/
theorem C1_witness :
    Vec.insert1 (Vec.fromRange [1, 2] 2) 0 (5 : Int) =
      (Vec.fromRange [1, 2] 2, 0) ∧
    Deq.insert1 (Deq.fromRange [1, 2] 2) 0 (5 : Int) =
      (Deq.fromRange [1, 2] 2, 0) ∧
    (Vec.insertN (Vec.fromRange [1] 2) 1 3 (7 : Int)).1.size = 2 ∧
    (Deq.insertN (Deq.fromRange [1] 2) 1 3 (7 : Int)).1.size = 2 := by
  have h := C1_insert_saturation Int
  exact ⟨h.1 _ 0 5 (by decide), h.2.1 _ 0 5 (by decide),
    (h.2.2.1 _ 1 3 7 (by decide) (by decide) (by decide) (by decide)).2.1,
    (h.2.2.2.1 _ 1 3 7 (by decide) (by decide) (by decide) (by decide)).2.1⟩

/-- C2: State-machine invariant.  Every state reachable from a freshly
constructed vector or deque by well-formed mutating calls keeps
`size ≤ capacity` (`0 ≤ size` holds in `Nat`), has exactly the slots below
`size` live (constructed), and for the deque keeps `head`, `tail` inside
`[0, capacity)` with `tail ≡ head + size - 1 (mod capacity)` whenever
`size > 0`. -/
theorem C2_reachable_invariant (α : Type) [Inhabited α] :
    (∀ (N : Nat), N < WORD → ∀ s : VecState α, VecReach α N s →
      s.size ≤ s.capacity ∧
      (∀ i < s.capacity, ((s.data.getD i none).isSome ↔ i < s.size))) ∧
    (∀ (N : Nat), 0 < N → N < WORD → ∀ s : DeqState α, DeqReach α N s →
      s.size ≤ s.capacity ∧
      (∀ i < s.capacity,
        (((Deq.logicalView s.head s.capacity s.data).getD i none).isSome ↔
          i < s.size)) ∧
      s.head < s.capacity ∧ s.tail < s.capacity ∧
      (0 < s.size →
        s.tail % s.capacity = (s.head + s.size - 1) % s.capacity)) := by
  constructor
  · intro N hW s hr
    obtain ⟨hI, _⟩ := vecReach_Inv hW hr
    exact ⟨hI.size_le, hI.live⟩
  · intro N hN hW s hr
    obtain ⟨hI, _⟩ := deqReach_Inv hN hW hr
    refine ⟨hI.size_le_deq, hI.live_deq, hI.head_lt, hI.tail_lt,
      fun hpos => ?_⟩
    have h1 : (s.tail + 1) % s.capacity =
        ((s.head + s.size - 1) + 1) % s.capacity := by
      rw [hI.conn]
      congr 1
      omega
    exact Deq.mod_succ_cancel h1

/-- Witness for C2 at the freshly constructed containers. -/
theorem C2_witness :
    (Vec.new Int 4).size ≤ (Vec.new Int 4).capacity ∧
    (Deq.new Int 4).size ≤ (Deq.new Int 4).capacity := by
  have h := C2_reachable_invariant Int
  exact ⟨(h.1 4 (by decide) _ VecReach.init).1,
    (h.2 4 (by decide) (by decide) _ DeqReach.init).1⟩

/-- C3 counterexample: `pop_back` on an empty `vector<int, 2>` is not a
no-op — `resize(size_ - 1)` underflows `size_t` and grows the vector to its
capacity. -/
theorem C3_counterexample : ¬(Vec.pop_back (Vec.new Int 2)).size = 0 := by
  decide

/-- C3 (amended): the deque pops are guarded by `if (size_)` and really are
no-ops on an empty deque, but the vector `pop_back` has no guard: on an
empty vector `resize(size_ - 1)` wraps to `SIZE_MAX`, which the resize path
clamps to `capacity`, so the vector ends full of value-constructed
elements. -/
theorem C3_pop_on_empty (α : Type) [Inhabited α] :
    (∀ d : DeqState α, d.size = 0 →
      Deq.pop_back d = d ∧ Deq.pop_front d = d) ∧
    (∀ v : VecState α, Vec.Inv v → v.size = 0 →
      Vec.pop_back v =
        Vec.canon (List.replicate v.capacity (some default))
          v.capacity) := by
  constructor
  · intro d h0
    exact ⟨Deq.pop_back_empty_deq h0, Deq.pop_front_empty_deq h0⟩
  · intro v h h0
    exact Vec.pop_back_eq_empty h h0

/-- Witness for C3 on concrete empty containers of capacity 2. -/
theorem C3_witness :
    Deq.pop_back (Deq.new Int 2) = Deq.new Int 2 ∧
    Vec.pop_back (Vec.new Int 2) =
      Vec.canon (List.replicate 2 (some (0 : Int))) 2 := by
  have h := C3_pop_on_empty Int
  exact ⟨(h.1 _ rfl).1, h.2 _ (by decide) rfl⟩

/-- C4: the "checked" accessor `at` of both containers wraps its index
modulo the capacity and reads the same slot as the unchecked `operator[]`
applied to `pos % capacity`; it is total and never signals out-of-range. -/
theorem C4_at_wraps_modulo (α : Type) :
    (∀ (v : VecState α) (pos : Nat),
      Vec.at' v pos = Vec.index v (pos % v.capacity)) ∧
    (∀ (d : DeqState α) (pos : Nat),
      Deq.at' d pos = Deq.index d (pos % d.capacity)) :=
  ⟨fun _ _ => rfl, fun _ _ => rfl⟩

/-- C5: `rotate(first, n_first, last)` on a pointer range exchanges the two
halves and returns the new position of the original first element
(`first + distance(n_first, last)`); it is the identity returning `last`
when `first = n_first` and the identity returning `first` when
`n_first = last`; rotating again at the complementary split point restores
the original sequence. -/
theorem C5_rotate_spec (α : Type) (l : Buf α) (k : Nat) (hk : k ≤ l.length) :
    rotate (ptrOps α) l 0 k l.length = (l.drop k ++ l.take k, l.length - k) ∧
    (∀ f n t, f ≤ n → n ≤ t → t ≤ l.length →
      (rotate (ptrOps α) l f n t).2 = f + (t - n)) ∧
    (∀ f t, rotate (ptrOps α) l f f t = (l, t)) ∧
    (∀ f t, rotate (ptrOps α) l f t t = (l, f)) ∧
    (rotate (ptrOps α) (rotate (ptrOps α) l 0 k l.length).1 0
      (l.length - k) l.length).1 = l := by
  refine ⟨rotate_ptr_take_drop l k l.length hk rfl, rotate_ptr_snd l,
    ?_, ?_, ?_⟩
  · intro f t
    rw [rotate, if_pos rfl]
  · intro f t
    by_cases h : f = t
    · rw [rotate, if_pos h, h]
    · rw [rotate, if_neg h, if_pos rfl]
  · rw [rotate_ptr_take_drop l k l.length hk rfl]
    dsimp only
    have hX : l.length = (l.drop k ++ l.take k).length := by
      rw [List.length_append, List.length_drop, List.length_take]
      omega
    rw [rotate_ptr_take_drop (l.drop k ++ l.take k) (l.length - k) l.length
      (by omega) hX]
    dsimp only
    have hdl : (l.drop k).length = l.length - k := List.length_drop k l
    rw [List.drop_left' hdl, List.take_left' hdl, List.take_append_drop]

/-- Witness for C5 on a concrete five-element range split at 2. -/
theorem C5_witness :
    rotate (ptrOps Int) [some 1, some 2, some 3, some 4, some 5] 0 2 5 =
      ([some 3, some 4, some 5, some 1, some 2], 3) :=
  (C5_rotate_spec Int [some 1, some 2, some 3, some 4, some 5] 2
    (by decide)).1

/-- C6: constructing a vector or deque from a range yields exactly the first
`min (length, capacity)` source elements in source order, and `size` is that
minimum. -/
theorem C6_range_construct (α : Type) (src : List α) (N : Nat) (hN : 0 < N)
    (hW : N < WORD) :
    Vec.toList (Vec.fromRange src N) =
      (src.take (min src.length N)).map some ∧
    (Vec.fromRange src N).size = min src.length N ∧
    Deq.toList (Deq.fromRange src N) =
      (src.take (min src.length N)).map some ∧
    (Deq.fromRange src N).size = min src.length N := by
  have hd := Deq.fromRange_spec src hN hW
  have hLle : ((src.take (min src.length N)).map some).length ≤ N := by
    rw [List.length_map, List.length_take]
    omega
  refine ⟨?_, ?_, hd.2.2.2, hd.2.1⟩
  · rw [Vec.fromRange_eq]
    exact Vec.canon_toList _ _ hLle
  · rw [Vec.fromRange_eq, Vec.canon_size, List.length_map, List.length_take]
    omega

/-- Witness for C6 with a three-element source and capacity 2. -/
theorem C6_witness :
    Vec.toList (Vec.fromRange [(1 : Int), 2, 3] 2) = [some 1, some 2] ∧
    Deq.toList (Deq.fromRange [(1 : Int), 2, 3] 2) = [some 1, some 2] := by
  have h := C6_range_construct Int [1, 2, 3] 2 (by decide) (by decide)
  exact ⟨h.1, h.2.2.1⟩

/-- C7: on a vector with free capacity, `insert(pos, v)` followed by `erase`
at the returned position restores the original state exactly — same size,
same elements, same order. -/
theorem C7_insert_erase_inverse (α : Type) [Inhabited α] (v : VecState α)
    (h : Vec.Inv v) (pos : Nat) (val : α) (hpos : pos ≤ v.size)
    (hlt : v.size < v.capacity) :
    Vec.erase1 (Vec.insert1 v pos val).1 (Vec.insert1 v pos val).2 =
      (v, pos) := by
  have hsz := h.size_le
  have htl : (Vec.toList v).length = v.size := Vec.toList_length h
  have hsome := Vec.toList_all_isSome h
  rw [Vec.insert1_eq h hpos hlt val]
  dsimp only
  set L := (Vec.toList v).take pos ++ some val :: (Vec.toList v).drop pos
    with hL
  have hLlen : L.length = v.size + 1 := by
    rw [hL, List.length_append, List.length_take, List.length_cons,
      List.length_drop, htl]
    omega
  have hLle : L.length ≤ v.capacity := by omega
  have hI2 : Vec.Inv (Vec.canon L v.capacity) :=
    Vec.Inv_canon _ _ hLle h.word
      (allSome_append (allSome_take _ hsome)
        (allSome_cons _ (allSome_drop _ hsome)))
  have hpos2 : pos < (Vec.canon L v.capacity).size := by
    rw [Vec.canon_size, hLlen]
    omega
  rw [Vec.erase1_eq hI2 hpos2, Vec.canon_toList _ _ hLle]
  have htake : L.take pos = (Vec.toList v).take pos := by
    rw [hL]
    exact List.take_left' (by rw [List.length_take]; omega)
  have hdrop : L.drop (pos + 1) = (Vec.toList v).drop pos := by
    have hassoc : L = ((Vec.toList v).take pos ++ [some val]) ++
        (Vec.toList v).drop pos := by
      rw [hL, List.append_assoc]
      rfl
    have hl1 : ((Vec.toList v).take pos ++ [some val]).length = pos + 1 := by
      rw [List.length_append, List.length_take, List.length_singleton]
      omega
    rw [hassoc]
    exact List.drop_left' hl1
  rw [htake, hdrop, List.take_append_drop, Vec.canon_capacity,
    Vec.canon_of_inv h]

/-- Witness for C7 inserting 9 at position 1 of a two-element vector of
capacity 4. -/
theorem C7_witness :
    Vec.erase1 (Vec.insert1 (Vec.fromRange [1, 2] 4) 1 (9 : Int)).1
      (Vec.insert1 (Vec.fromRange [1, 2] 4) 1 (9 : Int)).2 =
      (Vec.fromRange [1, 2] 4, 1) :=
  C7_insert_erase_inverse Int (Vec.fromRange [1, 2] 4) (by decide) 1 9
    (by decide) (by decide)

/-- C8: `index_at` maps logical offset `pos` to physical slot
`(head + pos) % capacity`, computed by the division-free branch
`head + pos` if `pos < capacity - head`, else `pos - (capacity - head)`. -/
theorem C8_index_at_spec (head cap pos : Nat) (hh : head < cap)
    (hp : pos < cap) :
    index_at head cap pos =
      (if pos < cap - head then head + pos else pos - (cap - head)) ∧
    index_at head cap pos = (head + pos) % cap :=
  ⟨rfl, index_at_eq_mod head cap pos hh hp⟩

/-- Witness for C8 at head 3, capacity 5, offset 4 (the wrapping branch). -/
theorem C8_witness :
    index_at 3 5 4 = (if 4 < 5 - 3 then 3 + 4 else 4 - (5 - 3)) ∧
    index_at 3 5 4 = (3 + 4) % 5 :=
  C8_index_at_spec 3 5 4 (by decide) (by decide)

/-- C9: the two wraparound scenarios.  A `deque<int,3>` after
`push_back 1/2/3, pop_front, push_back 4` holds `[2, 3, 4]`; a
`deque<int,8>` after `push_back 1; insert(begin,3,2); push_front 4;
push_back 8; push_front 16; push_back 32` holds
`[16, 4, 2, 2, 2, 1, 8, 32]` with size 8, and a further `push_front 64` is
a no-op leaving the state unchanged. -/
theorem C9_wraparound_scenarios :
    Deq.toList (Deq.push_back (Deq.pop_front (Deq.push_back (Deq.push_back
      (Deq.push_back (Deq.new Int 3) 1) 2) 3)) 4) =
      [some 2, some 3, some 4] ∧
    Deq.toList (Deq.push_back (Deq.push_front (Deq.push_back (Deq.push_front
      (Deq.insertN (Deq.push_back (Deq.new Int 8) 1) 0 3 2).1 4) 8) 16)
      32) =
      [some 16, some 4, some 2, some 2, some 2, some 1, some 8, some 32] ∧
    (Deq.push_back (Deq.push_front (Deq.push_back (Deq.push_front
      (Deq.insertN (Deq.push_back (Deq.new Int 8) 1) 0 3 2).1 4) 8) 16)
      32).size = 8 ∧
    Deq.push_front (Deq.push_back (Deq.push_front (Deq.push_back
      (Deq.push_front (Deq.insertN (Deq.push_back (Deq.new Int 8) 1) 0 3
        2).1 4) 8) 16) 32) 64 =
      Deq.push_back (Deq.push_front (Deq.push_back (Deq.push_front
        (Deq.insertN (Deq.push_back (Deq.new Int 8) 1) 0 3 2).1 4) 8) 16)
        32 :=
  ⟨by decide, by decide, rfl, rfl⟩

/-- C10: `operator==` compares sizes and the live elements in logical
order — the capacities play no role (the states carry their capacities as
data, and none of the hypotheses or conclusions constrain them) — and
`operator!=` is exactly its negation. -/
theorem C10_equality_ignores_capacity (α : Type) [BEq α] [LawfulBEq α] :
    (∀ v w : VecState α, Vec.Inv v → Vec.Inv w →
      (Vec.beq v w = true ↔ Vec.toList v = Vec.toList w) ∧
      (Vec.bne v w = true ↔ ¬Vec.toList v = Vec.toList w)) ∧
    (∀ d e : DeqState α, Deq.Inv d → Deq.Inv e →
      (Deq.beq d e = true ↔ Deq.toList d = Deq.toList e) ∧
      (Deq.bne d e = true ↔ ¬Deq.toList d = Deq.toList e)) :=
  ⟨fun _ _ hv hw => ⟨Vec.beq_iff hv hw, Vec.bne_iff hv hw⟩,
    fun _ _ hd he => ⟨Deq.beq_iff_deq hd he, Deq.bne_iff_deq hd he⟩⟩

/-- Witness for C10: a full `vector<int,2>` equals a half-full
`vector<int,4>` with the same content, and two different singleton deques
compare not-equal. -/
theorem C10_witness :
    Vec.beq (Vec.fromRange [1, 2] 2) (Vec.fromRange [(1 : Int), 2] 4) =
      true ∧
    Deq.bne (Deq.fromRange [1] 2) (Deq.fromRange [(2 : Int)] 2) = true := by
  have h := C10_equality_ignores_capacity Int
  constructor
  · exact ((h.1 _ _ (by decide) (by decide)).1).mpr (by decide)
  · exact ((h.2 _ _ (by decide) (by decide)).2).mpr (by decide)

end SStd
